import Mathlib

/-!
Verification of the d-bee storage engine specification against a shallow
embedding of the source (src/storage.rs, src/schema.rs, src/query.rs).

Machine integers (`u16`, `u64`, `usize`) are modelled as `Nat` with explicit
`% 2 ^ w` at the points where the source performs a wrapping cast; fallible
Rust code (`Result`, panicking slice indexing) is modelled with
`Except String`.  Rust `String`s that flow into stored `Value`s are modelled
by their sequence of code points (`List Nat`), which has the same equality
and the same lexicographic order as the UTF-8 byte sequence Rust compares.
-/

namespace DBee

/-! ## Little-endian byte strings (u16 / u64 codecs used throughout storage.rs) -/

/-- `to_le_bytes` for a `width`-byte little-endian integer; wraps modulo
`2 ^ (8 * width)` exactly like a Rust integer cast. -/
def toLeBytes : Nat → Nat → List Nat
  | 0, _ => []
  | w + 1, n => n % 256 :: toLeBytes w (n / 256)

/-- `from_le_bytes`: read a little-endian byte string as a natural number. -/
def fromLeBytes : List Nat → Nat
  | [] => 0
  | b :: bs => b + 256 * fromLeBytes bs

theorem toLeBytes_length (w n : Nat) : (toLeBytes w n).length = w := by
  induction w generalizing n with
  | zero => rfl
  | succ w ih => simp [toLeBytes, ih]

theorem fromLeBytes_toLeBytes (w n : Nat) (h : n < 256 ^ w) :
    fromLeBytes (toLeBytes w n) = n := by
  induction w generalizing n with
  | zero => simp [pow_zero] at h; simp [toLeBytes, fromLeBytes, h]
  | succ w ih =>
      have hdiv : n / 256 < 256 ^ w := by
        rw [Nat.div_lt_iff_lt_mul (by norm_num : 0 < 256)]
        calc n < 256 ^ (w + 1) := h
        _ = 256 ^ w * 256 := by ring
      simp [toLeBytes, fromLeBytes, ih _ hdiv, Nat.mod_add_div]

/-! ## Data model of the table store (storage.rs, `table_management`) -/

/-- `Type` in storage.rs (renamed: `Type` is a Lean keyword). -/
inductive Ty
  | text
  | number
  deriving DecidableEq, Repr

/-- `Value` in storage.rs.  A Rust `String` payload is modelled as its
sequence of code points. -/
inductive Value
  | text (s : List Nat)
  | number (n : Nat)
  deriving DecidableEq, Repr

/-- `Row` in storage.rs. -/
structure Row where
  cols : List Value
  deriving DecidableEq, Repr

/-- `Operator` in storage.rs. -/
inductive Operator
  | equal
  | notEqual
  | less
  | lessOrEqual
  | bigger
  | biggerOrEqual
  deriving DecidableEq, Repr

/-- Code points of a Lean string; stands for the Rust `String` payload. -/
def strBytes (s : String) : List Nat := s.data.map Char.toNat

/-- `Value::new_text`. -/
def Value.newText (s : String) : Value := .text (strBytes s)

/-- `Value::new_number`. -/
def Value.newNumber (n : Nat) : Value := .number n

/-- `Predicate` in storage.rs. -/
structure Predicate where
  column : String
  operator : Operator
  value : Value
  deriving DecidableEq, Repr

/-! ## Predicate evaluation (storage.rs, `SimpleTableHandler::row_fulfills`)

Rust compares `String`s and `u64`s with their derived orders; for strings
this is lexicographic on bytes, which agrees with lexicographic order on
code points. -/

/-- Strict lexicographic order on byte/code-point sequences (Rust `<` on
`String` / `Vec<u8>`). -/
def bytesLt : List Nat → List Nat → Bool
  | _, [] => false
  | [], _ :: _ => true
  | a :: as_, b :: bs => a < b || (a == b && bytesLt as_ bs)

/-- Non-strict companion of `bytesLt` (Rust `<=`). -/
def bytesLe (a b : List Nat) : Bool := bytesLt a b || a == b

/-- `SimpleTableHandler::row_fulfills`.  `colData` is the handler's
`col_data` field (schema as a list of (type, column-name) pairs). -/
def row_fulfills (colData : List (Ty × String)) (row : Row) (p : Option Predicate) :
    Except String Bool :=
  match p with
  | some predicate =>
    match colData.findIdx? (fun tn => tn.2 == predicate.column) with
    | some index =>
      match row.cols.get? index with
      | some value =>
        match predicate.operator, value, predicate.value with
        | .equal, .text a, .text b => .ok (a == b)
        | .equal, .number a, .number b => .ok (a == b)
        | .notEqual, .text a, .text b => .ok (!(a == b))
        | .notEqual, .number a, .number b => .ok (!(a == b))
        | .less, .text a, .text b => .ok (bytesLt a b)
        | .less, .number a, .number b => .ok (decide (a < b))
        | .lessOrEqual, .text a, .text b => .ok (bytesLe a b)
        | .lessOrEqual, .number a, .number b => .ok (decide (a ≤ b))
        | .bigger, .text a, .text b => .ok (bytesLt b a)
        | .bigger, .number a, .number b => .ok (decide (b < a))
        | .biggerOrEqual, .text a, .text b => .ok (bytesLe b a)
        | .biggerOrEqual, .number a, .number b => .ok (decide (b ≤ a))
        | _, _, _ => .error "Type mismatch in comparison"
      | none => .error "Column index out of bounds"
    | none => .error "Column name not found in row"
  | none => .ok true

/-! ## The delete scan (storage.rs, `SimpleTableHandler::delete_row`)

`delete_row` iterates over the slots of each page with an explicit index
`ptr_index`; on a match it compacts the deleted row out of the page and
does **not** advance `ptr_index` (the formerly-next row now occupies that
index), otherwise it advances.  The loop below is that per-page scan with
the page contents abstracted to its decoded list of rows in slot order;
the byte-level compaction shifts exactly the row at the current index out
of the page, i.e. performs `List.eraseIdx` on the decoded row list. -/

/-- The per-page scan loop of `delete_row`: `ptr_index` advances only when
the row at the current index is kept. -/
def deleteLoop (colData : List (Ty × String)) (p : Option Predicate)
    (ptrIndex : Nat) (rows : List Row) : Except String (List Row) :=
  if h : ptrIndex < rows.length then
    match row_fulfills colData (rows.get ⟨ptrIndex, h⟩) p with
    | .error e => .error e
    | .ok true => deleteLoop colData p ptrIndex (rows.eraseIdx ptrIndex)
    | .ok false => deleteLoop colData p (ptrIndex + 1) rows
  else
    .ok rows
termination_by rows.length - ptrIndex
decreasing_by
  · simp only [List.length_eraseIdx, if_pos h]
    omega
  · omega

/-- `delete_row` over a table given as its list of pages, each page its
list of rows in slot order: `iterate_pages` visits the pages in
header-chain order and the callback rewrites each page in place. -/
def delete_row (colData : List (Ty × String)) (p : Option Predicate) :
    List (List Row) → Except String (List (List Row))
  | [] => .ok []
  | page :: rest => do
    let page' ← deleteLoop colData p 0 page
    let rest' ← delete_row colData p rest
    .ok (page' :: rest')

theorem deleteLoop_eq_filter (colData : List (Ty × String)) (p : Option Predicate)
    (m : Row → Bool) :
    ∀ (k i : Nat) (rows : List Row), rows.length - i ≤ k →
    (∀ r ∈ rows, row_fulfills colData r p = .ok (m r)) →
    deleteLoop colData p i rows
      = .ok (rows.take i ++ (rows.drop i).filter (fun r => !m r)) := by
  intro k
  induction k with
  | zero =>
      intro i rows hk _
      have hlen : rows.length ≤ i := by omega
      rw [deleteLoop]
      simp [Nat.not_lt.mpr hlen, List.take_of_length_le hlen,
        List.drop_eq_nil_of_le hlen]
  | succ k ih =>
      intro i rows hk hm
      rw [deleteLoop]
      by_cases h : i < rows.length
      · rw [dif_pos h]
        have hr : rows.get ⟨i, h⟩ ∈ rows := rows.get_mem i h
        have hfulfills := hm _ hr
        have hdrop : rows.drop i = rows.get ⟨i, h⟩ :: rows.drop (i + 1) :=
          List.drop_eq_get_cons h
        cases hmr : m (rows.get ⟨i, h⟩) with
        | true =>
            rw [hmr] at hfulfills
            rw [hfulfills]
            show deleteLoop colData p i (rows.eraseIdx i)
              = .ok (rows.take i ++ (rows.drop i).filter (fun r => !m r))
            have herase : rows.eraseIdx i = rows.take i ++ rows.drop (i + 1) :=
              List.eraseIdx_eq_take_drop_succ rows i
            have hlen_take : (rows.take i).length = i := by
              simp [Nat.le_of_lt h]
            have ihm : ∀ r ∈ rows.eraseIdx i, row_fulfills colData r p = .ok (m r) := by
              intro r hmem
              exact hm r (List.mem_of_mem_eraseIdx hmem)
            have hklen : (rows.eraseIdx i).length - i ≤ k := by
              rw [herase]
              simp only [List.length_append, hlen_take, List.length_drop]
              omega
            rw [ih i _ hklen ihm, herase]
            have htake : (rows.take i ++ rows.drop (i + 1)).take i = rows.take i := by
              rw [List.take_append_of_le_length (by omega), List.take_take]
              simp
            have hdrop2 : (rows.take i ++ rows.drop (i + 1)).drop i = rows.drop (i + 1) := by
              rw [List.drop_append_of_le_length (by omega)]
              simp [hlen_take]
            have hcond : (!m (rows.get ⟨i, h⟩)) = false := by rw [hmr]; rfl
            have hfilter : (rows.drop i).filter (fun r => !m r)
                = (rows.drop (i + 1)).filter (fun r => !m r) := by
              rw [hdrop, List.filter_cons, hcond]
              simp
            rw [htake, hdrop2, hfilter]
        | false =>
            rw [hmr] at hfulfills
            rw [hfulfills]
            show deleteLoop colData p (i + 1) rows
              = .ok (rows.take i ++ (rows.drop i).filter (fun r => !m r))
            have hklen : rows.length - (i + 1) ≤ k := by omega
            have htake : rows.take (i + 1) = rows.take i ++ [rows.get ⟨i, h⟩] := by
              rw [List.take_succ, List.getElem?_eq_getElem h]
              simp [List.get_eq_getElem]
            have hcond : (!m (rows.get ⟨i, h⟩)) = true := by rw [hmr]; rfl
            have hfilter : (rows.drop i).filter (fun r => !m r)
                = rows.get ⟨i, h⟩ :: (rows.drop (i + 1)).filter (fun r => !m r) := by
              rw [hdrop, List.filter_cons, hcond]
              simp
            rw [ih (i + 1) rows hklen hm, htake, hfilter, List.append_assoc,
              List.singleton_append]
      · rw [dif_neg h]
        have hlen : rows.length ≤ i := by omega
        simp [List.take_of_length_le hlen, List.drop_eq_nil_of_le hlen]

theorem flatten_map_filter (m : Row → Bool) (pages : List (List Row)) :
    (pages.map (fun pg => pg.filter (fun r => !m r))).flatten
      = pages.flatten.filter (fun r => !m r) := by
  induction pages with
  | nil => rfl
  | cons pg rest ih =>
      simp only [List.map_cons, List.flatten_cons, List.filter_append, ih]

/-- C1: for every table state (pages of rows in scan order) and every
predicate, `delete_row` removes exactly the rows satisfying the predicate
and keeps every non-matching row in its original relative order; because
the scan index does not advance on a delete, a run of consecutive matching
rows is deleted entirely.  `m` is the value of the predicate on each row
(the hypothesis says predicate evaluation succeeds on every stored row). -/
theorem delete_row_removes_exactly_matching (colData : List (Ty × String))
    (p : Option Predicate) (m : Row → Bool) (pages : List (List Row))
    (hm : ∀ r ∈ pages.flatten, row_fulfills colData r p = .ok (m r)) :
    delete_row colData p pages
        = .ok (pages.map (fun pg => pg.filter (fun r => !m r)))
      ∧ (pages.map (fun pg => pg.filter (fun r => !m r))).flatten
        = pages.flatten.filter (fun r => !m r) := by
  refine ⟨?_, flatten_map_filter m pages⟩
  induction pages with
  | nil => rfl
  | cons pg rest ih =>
      have hpg : ∀ r ∈ pg, row_fulfills colData r p = .ok (m r) := by
        intro r hr
        exact hm r (by simp [hr])
      have hrest : ∀ r ∈ rest.flatten, row_fulfills colData r p = .ok (m r) := by
        intro r hr
        exact hm r (by simp [hr])
      rw [delete_row]
      rw [deleteLoop_eq_filter colData p m pg.length 0 pg (by omega) hpg]
      simp only [List.take_zero, List.drop_zero, List.nil_append]
      rw [ih hrest]
      rfl

/-- The two rows of scenario S1/S2 in the specification. -/
def aliceRow : Row := ⟨[Value.newText "alice", Value.newNumber 30]⟩

def bobRow : Row := ⟨[Value.newText "bob", Value.newNumber 10]⟩

/-- Witness for C1: after inserting ("alice", 30) and ("bob", 10), deleting
where a == "alice" leaves only ("bob", 10). -/
theorem delete_row_removes_exactly_matching_witness :
    delete_row [(.text, "a"), (.number, "b")]
        (some ⟨"a", .equal, Value.newText "alice"⟩) [[aliceRow, bobRow]]
      = .ok [[bobRow]] := by
  have h := delete_row_removes_exactly_matching [(.text, "a"), (.number, "b")]
    (some ⟨"a", .equal, Value.newText "alice"⟩)
    (fun r => r.cols.head? == some (Value.newText "alice"))
    [[aliceRow, bobRow]]
    (by
      intro r hr
      rcases (by simpa using hr : r = aliceRow ∨ r = bobRow) with rfl | rfl <;> rfl)
  have heq : ([[aliceRow, bobRow]].map
      (fun pg => pg.filter
        (fun r => !(r.cols.head? == some (Value.newText "alice")))))
      = [[bobRow]] := by decide
  rw [heq] at h
  exact h.1

/-! ## Database registry (schema.rs, `DatabaseSchemaHandler::check_key`)

The in-memory `databases` map (database name → key) is modelled as an
association list with unique keys; `HashMap::get` is `List.lookup`. -/

/-- `DatabaseSchemaHandler::check_key`. -/
def check_key (databases : List (String × String)) (database key : String) :
    Except String Bool :=
  match databases.lookup database with
  | some val => if val == key then .ok true else .error "wrong key"
  | none => .error "wrong key"

/-- C10: `check_key` never returns `Ok(false)`: it returns `Ok(true)`
exactly when the registry maps the database to that key, and an error
(not a `false` result) both on a wrong key and on an unknown database. -/
theorem check_key_never_ok_false (databases : List (String × String))
    (database key : String) :
    (∀ b, check_key databases database key = .ok b → b = true)
      ∧ (check_key databases database key = .ok true
          ↔ databases.lookup database = some key) := by
  constructor
  · intro b hb
    unfold check_key at hb
    cases hl : databases.lookup database with
    | none => rw [hl] at hb; cases hb
    | some val =>
        rw [hl] at hb
        cases b with
        | true => rfl
        | false =>
            by_cases hv : val = key
            · subst hv
              simp at hb
            · simp [hv] at hb
  · unfold check_key
    cases hl : databases.lookup database with
    | none => simp
    | some val =>
        by_cases hv : val = key
        · subst hv
          simp
        · simp [hv]

/-- Witness for C10 at a concrete registry. -/
theorem check_key_never_ok_false_witness :
    check_key [("demo", "k")] "demo" "k" = .ok true :=
  (check_key_never_ok_false [("demo", "k")] "demo" "k").2.mpr (by decide)

/-! ## Table-schema catalog (schema.rs, `TableSchemaHandler::add_col_data`)

The backing `schema.hive` table is modelled as the list of its rows in
scan order; `select_row(pred)` followed by repeated `next` visits exactly
the stored rows that fulfil the predicate, in order (`matching_rows`). -/

/-- The schema of the `schema.hive` catalog table
(`TableSchemaHandler::new`). -/
def schema_col_data : List (Ty × String) :=
  [(.text, "table_id"), (.text, "col_name"), (.number, "col_type"), (.number, "col_id")]

/-- `Into<u64> for Type`. -/
def tyCode : Ty → Nat
  | .number => 0
  | .text => 1

/-- The rows visited by `select_row(p)` and repeated `next`: the stored
rows fulfilling `p`, in storage order.  Errors of `row_fulfills`
propagate. -/
def matching_rows (colData : List (Ty × String)) (p : Option Predicate) :
    List Row → Except String (List Row)
  | [] => .ok []
  | r :: rest => do
    let b ← row_fulfills colData r p
    let rest' ← matching_rows colData p rest
    .ok (if b then r :: rest' else rest')

/-- The scan loop of `add_col_data`: counts the visited rows in `index`
and fails as soon as any column value of a visited row equals
`Text(name)`. -/
def add_col_data_loop (name : String) : List Row → Nat → Except String Nat
  | [], index => .ok index
  | r :: rest, index =>
    if r.cols.contains (Value.newText name) then
      .error "col already exists in table"
    else
      add_col_data_loop name rest (index + 1)

/-- `TableSchemaHandler::add_col_data`: scans the rows with
`table_id = table`, errors if any of their column values equals the new
column name, otherwise appends a row whose `col_id` is the number of rows
scanned. -/
def add_col_data (rows : List Row) (table : String) (col : Ty × String) :
    Except String (List Row) := do
  let matched ← matching_rows schema_col_data
    (some ⟨"table_id", .equal, Value.newText table⟩) rows
  let index ← add_col_data_loop col.2 matched 0
  .ok (rows ++ [⟨[Value.newText table, Value.newText col.2,
    Value.newNumber (tyCode col.1), Value.newNumber index]⟩])

/-- On a row whose first column is text, the `table_id = table` predicate
evaluates to comparing that column with the table name. -/
theorem row_fulfills_table_id (b : List Nat) (rest : List Value) (table : String) :
    row_fulfills schema_col_data ⟨Value.text b :: rest⟩
        (some ⟨"table_id", .equal, Value.newText table⟩)
      = .ok (b == strBytes table) := rfl

/-- C8 counterexample: with one existing schema row
(table_id = "t", col_name = "a", col_type = 1, col_id = 0), adding column
"t" to table "t" fails with already-exists although no existing row for
"t" has col_name = "t" (the duplicate check compares the new name against
*every* column value of the row, including its table_id). -/
theorem add_col_data_counterexample :
    add_col_data [⟨[Value.newText "t", Value.newText "a",
        Value.newNumber 1, Value.newNumber 0]⟩] "t" (.number, "t")
        = .error "col already exists in table"
      ∧ ([⟨[Value.newText "t", Value.newText "a",
          Value.newNumber 1, Value.newNumber 0]⟩] : List Row).all
          (fun r => !(r.cols.get? 1 == some (Value.newText "t"))) = true := by
  constructor
  · rfl
  · decide

theorem matching_rows_table_id (table : String) (rows : List Row)
    (hwf : ∀ r ∈ rows, ∃ b rest, r.cols = Value.text b :: rest) :
    matching_rows schema_col_data
        (some ⟨"table_id", .equal, Value.newText table⟩) rows
      = .ok (rows.filter
          (fun r => decide (r.cols.head? = some (Value.newText table)))) := by
  induction rows with
  | nil => rfl
  | cons r rest ih =>
      obtain ⟨b, rs, hcols⟩ := hwf r (by simp)
      have hrest := ih (fun r hr => hwf r (by simp [hr]))
      obtain ⟨cols⟩ := r
      simp only [Row.mk.injEq] at hcols
      subst hcols
      rw [matching_rows]
      rw [row_fulfills_table_id]
      rw [hrest]
      show Except.ok _ = _
      have hbeq : (b == strBytes table)
          = decide ((Row.mk (Value.text b :: rs)).cols.head? = some (Value.newText table)) := by
        by_cases hb : b = strBytes table
        · subst hb
          simp [Value.newText]
        · simp [Value.newText, hb]
      rw [List.filter_cons, ← hbeq]

theorem add_col_data_loop_spec (name : String) :
    ∀ (matched : List Row) (index : Nat),
    (if matched.any (fun r => r.cols.contains (Value.newText name))
     then add_col_data_loop name matched index = .error "col already exists in table"
     else add_col_data_loop name matched index = .ok (index + matched.length)) := by
  intro matched
  induction matched with
  | nil => intro index; simp [add_col_data_loop]
  | cons r rest ih =>
      intro index
      rw [List.any_cons]
      by_cases hr : r.cols.contains (Value.newText name)
      · rw [hr, Bool.true_or, if_pos rfl]
        rw [add_col_data_loop, if_pos hr]
      · have hr' : r.cols.contains (Value.newText name) = false := by
          simpa using hr
        rw [hr', Bool.false_or]
        have hnext := ih (index + 1)
        cases hrest : rest.any (fun r => r.cols.contains (Value.newText name)) with
        | true =>
            rw [if_pos hrest] at hnext
            rw [if_pos rfl]
            rw [add_col_data_loop, if_neg hr]
            exact hnext
        | false =>
            rw [if_neg (by rw [hrest]; exact Bool.false_ne_true)] at hnext
            rw [if_neg Bool.false_ne_true]
            rw [add_col_data_loop, if_neg hr, hnext]
            congr 1
            rw [List.length_cons]
            omega

/-- C8 (amended): `add_col_data(table, (type, name))` fails with
already-exists if and only if some existing schema row with
`table_id = table` contains `Text(name)` among *any* of its column values
(so in particular when its `col_name` is `name`, but also when `name`
equals the table id itself); otherwise it inserts one row whose `col_id`
equals the number of schema rows already present for that table. -/
theorem add_col_data_spec (rows : List Row) (table : String) (col : Ty × String)
    (hwf : ∀ r ∈ rows, ∃ b rest, r.cols = Value.text b :: rest) :
    (if (rows.filter
          (fun r => decide (r.cols.head? = some (Value.newText table)))).any
          (fun r => r.cols.contains (Value.newText col.2))
     then add_col_data rows table col = .error "col already exists in table"
     else add_col_data rows table col
        = .ok (rows ++ [⟨[Value.newText table, Value.newText col.2,
            Value.newNumber (tyCode col.1),
            Value.newNumber (rows.filter
              (fun r => decide (r.cols.head? = some (Value.newText table)))).length]⟩])) := by
  have hmatch := matching_rows_table_id table rows hwf
  have hloop := add_col_data_loop_spec col.2
    (rows.filter (fun r => decide (r.cols.head? = some (Value.newText table)))) 0
  by_cases hany : (rows.filter
      (fun r => decide (r.cols.head? = some (Value.newText table)))).any
      (fun r => r.cols.contains (Value.newText col.2))
  · rw [if_pos hany]
    rw [if_pos hany] at hloop
    unfold add_col_data
    rw [hmatch]
    show (add_col_data_loop col.2 _ 0).bind _ = _
    rw [hloop]
    rfl
  · rw [if_neg hany]
    rw [if_neg hany] at hloop
    unfold add_col_data
    rw [hmatch]
    show (add_col_data_loop col.2 _ 0).bind _ = _
    rw [hloop]
    show Except.ok _ = _
    rw [Nat.zero_add]

/-- Witness for C8 (amended) at a concrete catalog state. -/
theorem add_col_data_spec_witness :
    add_col_data [⟨[Value.newText "t", Value.newText "a",
        Value.newNumber 1, Value.newNumber 0]⟩] "t" (.number, "b")
      = .ok [⟨[Value.newText "t", Value.newText "a",
          Value.newNumber 1, Value.newNumber 0]⟩,
        ⟨[Value.newText "t", Value.newText "b",
          Value.newNumber 0, Value.newNumber 1]⟩] := by
  have h := add_col_data_spec [⟨[Value.newText "t", Value.newText "a",
      Value.newNumber 1, Value.newNumber 0]⟩] "t" (.number, "b")
    (by
      intro r hr
      rcases (by simpa using hr : r = ⟨[Value.newText "t", Value.newText "a",
          Value.newNumber 1, Value.newNumber 0]⟩) with rfl
      exact ⟨strBytes "t", _, rfl⟩)
  rw [if_neg (by decide)] at h
  rw [h]
  rfl

/-! ## Row construction from user input (storage.rs,
`SimpleTableHandler::cols_to_row` / `validate_cols`) -/

/-- `u64::from_str` (`str::parse::<u64>()`): optional leading `+`, at
least one ASCII digit, and the value must fit in a `u64`. -/
def parseU64 (s : String) : Except String Nat :=
  let cs := match s.data with
    | '+' :: rest => rest
    | cs => cs
  if cs ≠ [] ∧ cs.all Char.isDigit then
    let n := cs.foldl (fun acc c => acc * 10 + (c.toNat - 48)) 0
    if n < 2 ^ 64 then .ok n else .error "could not convert string to int"
  else
    .error "could not convert string to int"

/-- `SimpleTableHandler::validate_cols`: checks that every given column
name occurs among the schema's column names (a `HashSet` subset test). -/
def validate_cols (colData : List (Ty × String)) (colNames : List String) :
    Except String Unit :=
  if colNames.all (fun n => (colData.map (fun tn => tn.2)).contains n) then
    .ok ()
  else
    .error "table does not contain these cols"

/-- Sort key used by `cols_to_row`: the position of the column name in the
schema, as `Option<usize>` with `None < Some i` (encoded `none ↦ 0`,
`some i ↦ i + 1`). -/
def posKey (colData : List (Ty × String)) (n : String) : Nat :=
  match colData.findIdx? (fun tn => tn.2 == n) with
  | some i => i + 1
  | none => 0

/-- Stable insertion used by `sortByKey` (Rust `sort_by_key` is stable). -/
def insertSorted (key : String × String → Nat) (x : String × String) :
    List (String × String) → List (String × String)
  | [] => [x]
  | y :: ys => if key x ≤ key y then x :: y :: ys else y :: insertSorted key x ys

/-- Stable sort by key (`Vec::sort_by_key`). -/
def sortByKey (key : String × String → Nat) :
    List (String × String) → List (String × String)
  | [] => []
  | x :: xs => insertSorted key x (sortByKey key xs)

/-- The value-construction loop of `cols_to_row`: for the `index`-th
(name, value) pair, the value is parsed according to the type of the
`index`-th **schema** column (`self.col_data[index].0`), not the type of
the named column; out-of-range indexing panics. -/
def cols_to_row_vals (colData : List (Ty × String)) :
    List (String × String) → Nat → Except String (List Value)
  | [], _ => .ok []
  | (_, value) :: rest, index =>
    match colData.get? index with
    | none => .error "panic: index out of bounds"
    | some tyName => do
      let v ← (match tyName.1 with
        | .text => .ok (Value.newText value)
        | .number => do
            let n ← parseU64 value
            .ok (Value.newNumber n))
      let vs ← cols_to_row_vals colData rest (index + 1)
      .ok (v :: vs)

/-- `SimpleTableHandler::cols_to_row`. -/
def cols_to_row (colData : List (Ty × String))
    (colNamesOption : Option (List String)) (colValues : List String) :
    Except String Row := do
  let colNames ← match colNamesOption with
    | some c => do
        validate_cols colData c
        pure c
    | none => pure (colData.map (fun tn => tn.2))
  if colNames.length ≠ colValues.length then
    .error "amount of values and columns did not match"
  else do
    let cols := sortByKey (fun nv => posKey colData nv.1) (colNames.zip colValues)
    let res ← cols_to_row_vals colData cols 0
    .ok ⟨res⟩

/-- C6: the claim says a strict-subset names list is an error, but the
code only checks that the names are a subset of the schema and that the
value count matches the *names* count; with schema (a TEXT, b NUMBER),
names ["b"] and values ["5"], `cols_to_row` succeeds and even parses the
value with the type of schema column 0 (TEXT) instead of column "b"
(NUMBER), yielding `Text "5"`. -/
theorem cols_to_row_missing_column_no_error :
    cols_to_row [(.text, "a"), (.number, "b")] (some ["b"]) ["5"]
      = .ok ⟨[Value.newText "5"]⟩ := rfl

/-! ## Query parsing (query.rs, `Query::from` and the `bnf` module)

The tokenizer is the regex `\w+|[();,*]|>=|>|==|!=|<|<=` applied with the
regex crate's leftmost-first (preference-order) semantics: at each
position the alternatives are tried in the order written and the first
that matches wins; positions where no alternative matches are skipped.
`\w` is modelled for the ASCII range (`[A-Za-z0-9_]`), and
`to_lowercase` as ASCII lowercasing, which agree with Rust's Unicode
versions on the ASCII queries considered here. -/

def isWordChar (c : Char) : Bool := c.isAlphanum || c == '_'

/-- Maximal `\w+` run at the head of the input. -/
def takeWordRun : List Char → List Char × List Char
  | [] => ([], [])
  | c :: cs =>
    if isWordChar c then
      let p := takeWordRun cs
      (c :: p.1, p.2)
    else
      ([], c :: cs)

/-- One leftmost-first match attempt of
`\w+|[();,*]|>=|>|==|!=|<|<=` at the current position. -/
def nextToken : List Char → Option (String × List Char)
  | [] => none
  | c :: cs =>
    if isWordChar c then
      let p := takeWordRun (c :: cs)
      some (String.mk p.1, p.2)
    else if ['(', ')', ';', ',', '*'].contains c then
      some (String.mk [c], cs)
    else
      match c, cs with
      | '>', '=' :: rest => some (">=", rest)
      | '>', _ => some (">", cs)
      | '=', '=' :: rest => some ("==", rest)
      | '!', '=' :: rest => some ("!=", rest)
      | '<', _ => some ("<", cs)
      | _, _ => none

/-- `find_iter`: emit successive non-overlapping leftmost-first matches,
skipping positions with no match. -/
def tokenizeGo : Nat → List Char → List String
  | 0, _ => []
  | _ + 1, [] => []
  | fuel + 1, c :: cs =>
    match nextToken (c :: cs) with
    | some tr => tr.1 :: tokenizeGo fuel tr.2
    | none => tokenizeGo fuel cs

/-- ASCII lowercasing of one character (`to_lowercase` restricted to the
ASCII queries considered here). -/
def charToLower (c : Char) : Char :=
  if 65 ≤ c.toNat ∧ c.toNat ≤ 90 then Char.ofNat (c.toNat + 32) else c

/-- Tokenization of a query string (`q.to_lowercase()` then `find_iter`). -/
def tokenize (q : String) : List String :=
  tokenizeGo q.data.length (q.data.map charToLower)

/-- `bnf::Symbol`. -/
inductive Symbol
  | terminal (s : String)
  | wrapper (inner : Symbol) (key val : String)
  | value (key : String)
  | opt (os : List Symbol)
  | rep (inner : Symbol)
  | seq (ss : List Symbol)
  deriving Repr

/-- `bnf::t`. -/
def bnfT (s : String) : Symbol := .terminal s

/-- `bnf::w`. -/
def bnfW (inner : Symbol) (key val : String) : Symbol := .wrapper inner key val

/-- `bnf::v`. -/
def bnfV (key : String) : Symbol := .value key

/-- `bnf::o`. -/
def bnfO (os : List Symbol) : Symbol := .opt os

/-- `bnf::r`. -/
def bnfR (inner : Symbol) : Symbol := .rep inner

/-- `bnf::s` (reverses its contents, as the source does before storing). -/
def bnfS (ss : List Symbol) : Symbol := .seq ss.reverse

/-- The result map (`HashMap<String, Vec<String>>`), as an association
list; only `lookup` is observed. -/
abbrev PlanMap := List (String × List String)

/-- The map update performed by `Wrapper`/`Value`: appends `v` to the
entry of `k` (insert, recover the old value, push, re-insert). -/
def addKV (m : PlanMap) (k v : String) : PlanMap :=
  match m.lookup k with
  | some existing => m.map (fun kv => if kv.1 == k then (kv.1, existing ++ [v]) else kv)
  | none => (k, [v]) :: m

/-- `bnf::solve`.  The stack's head is the Rust `Vec`'s top (its end),
and the input is consumed front-first, matching the source's
reverse-then-pop-from-the-end discipline.  Errors carry the remaining
input length (the "depth" by which `Option` keeps the deepest failure);
the recursion is fuelled, with fuel exhaustion reported as an error.
The `Option` case folds over the alternatives in order: the first success
wins, otherwise the failure with the strictly smallest remaining depth
(ties keep the earlier alternative). -/
def solve : Nat → List Symbol → List String → Except (String × Nat) PlanMap
  | 0, _, input => .error ("out of fuel", input.length)
  | _ + 1, [], input =>
    if input.length > 0 then .error ("input was too long", input.length)
    else .ok []
  | fuel + 1, sym :: stack, input =>
    match sym with
    | .terminal exp =>
      match input with
      | [] => .error ("input was too short", 0)
      | val :: input' =>
        if exp == val then solve fuel stack input'
        else .error ("did not expect token", input'.length)
    | .wrapper inner key val => do
      let res ← solve fuel (inner :: stack) input
      .ok (addKV res key val)
    | .value key =>
      match input with
      | [] => .error ("input was too short", 0)
      | tok :: input' => do
        let res ← solve fuel stack input'
        .ok (addKV res key tok)
    | .opt options =>
      options.foldl
        (fun acc o =>
          match acc with
          | .ok res => .ok res
          | .error best =>
            match solve fuel (o :: stack) input with
            | .ok res => .ok res
            | .error ed => if ed.2 < best.2 then .error ed else .error best)
        (.error ("option had no value", input.length))
    | .rep inner =>
      match solve fuel stack input with
      | .ok temp => .ok temp
      | .error _ => solve fuel (.seq [.rep inner, inner] :: stack) input
    | .seq symbols => solve fuel (symbols.reverse ++ stack) input

/-! The grammar built in `Query::from`. -/

def dataTypeSym : Symbol :=
  bnfO [bnfW (bnfT "text") "column_type" "text",
    bnfW (bnfT "number") "column_type" "number"]

def colDataSym : Symbol :=
  bnfO [
    bnfS [bnfV "column_name", dataTypeSym],
    bnfS [bnfR (bnfS [bnfV "column_name", dataTypeSym, bnfT ","]),
      bnfS [bnfV "column_name", dataTypeSym]]]

def createTableSym : Symbol :=
  bnfW (bnfS [bnfT "create", bnfT "table", bnfV "table_name", bnfT "(",
    colDataSym, bnfT ")"]) "command" "create"

def dropTableSym : Symbol :=
  bnfW (bnfS [bnfT "drop", bnfT "table", bnfV "table_name"]) "command" "drop"

def colNamesSym : Symbol :=
  bnfO [bnfS [], bnfV "column_name",
    bnfS [bnfR (bnfS [bnfV "column_name", bnfT ","]), bnfV "column_name"]]

def colValuesSym : Symbol :=
  bnfO [bnfS [], bnfV "column_value",
    bnfS [bnfR (bnfS [bnfV "column_value", bnfT ","]), bnfV "column_value"]]

def insertValuesSym : Symbol :=
  bnfO [bnfS [bnfT "(", colNamesSym, bnfT ")", bnfT "values", bnfT "(",
      colValuesSym, bnfT ")"],
    bnfS [bnfT "values", bnfT "(", colValuesSym, bnfT ")"]]

def insertSym : Symbol :=
  bnfW (bnfS [bnfT "insert", bnfT "into", bnfV "table_name", insertValuesSym])
    "command" "insert"

/-- The operator alternatives, in source order: `==`, `!=`, `<`, `<=`,
`>`, `>=`. -/
def operatorSym : Symbol :=
  bnfO [
    bnfW (bnfT "==") "operator" "equal",
    bnfW (bnfT "!=") "operator" "not_equal",
    bnfW (bnfT "<") "operator" "less",
    bnfW (bnfT "<=") "operator" "less_equal",
    bnfW (bnfT ">") "operator" "bigger",
    bnfW (bnfT ">=") "operator" "bigger_equal"]

def predicateSym : Symbol :=
  bnfO [bnfS [],
    bnfS [bnfT "where", bnfV "predicate_col", operatorSym, bnfV "predicate_val"]]

def columnsSym : Symbol :=
  bnfO [bnfT "*", bnfV "column_name",
    bnfS [bnfR (bnfS [bnfV "column_name", bnfT ","]), bnfV "column_name"]]

def selectSym : Symbol :=
  bnfW (bnfS [bnfT "select", columnsSym, bnfT "from", bnfV "table_name",
    predicateSym]) "command" "select"

def deleteSym : Symbol :=
  bnfW (bnfS [bnfT "delete", bnfT "from", bnfV "table_name", predicateSym])
    "command" "delete"

def querySym : Symbol :=
  bnfS [bnfO [createTableSym, dropTableSym, insertSym, selectSym, deleteSym],
    bnfT ";"]

/-- `Query::from`: tokenize then solve against the grammar; the plan map
is the result.  The fuel is ample for the queries considered. -/
def queryFrom (q : String) : Except String PlanMap :=
  match solve 1000 [querySym] (tokenize q) with
  | .ok plan => .ok plan
  | .error e => .error e.1

/-- C7: the claim expects `<=` to be produced as a single two-character
token mapped to the `less_equal` operator, but the tokenizer's regex
lists the alternative `<` *before* `<=`, and the regex crate uses
leftmost-first (preference-order) semantics, so `a <= 5` tokenizes with a
lone `<` token, the `=` matches no alternative and is dropped, and the
resulting plan maps the operator to `less`.  (By contrast `>=`, listed
before `>`, is parsed as intended, cf. `ge_token_intact`.) -/
theorem le_token_dropped :
    tokenize "SELECT * FROM t WHERE a <= 5;"
        = ["select", "*", "from", "t", "where", "a", "<", "5", ";"]
      ∧ (queryFrom "SELECT * FROM t WHERE a <= 5;").toOption.bind
          (fun m => m.lookup "operator") = some ["less"] := by
  constructor
  · decide
  · decide

/-- The two-character operator `>=` (whose alternative precedes `>`) does
tokenize as one token and maps to `bigger_equal`, confirming that the
`<=` behaviour above is an ordering slip and not a general limitation. -/
theorem ge_token_intact :
    tokenize "SELECT * FROM t WHERE a >= 5;"
        = ["select", "*", "from", "t", "where", "a", ">=", "5", ";"]
      ∧ (queryFrom "SELECT * FROM t WHERE a >= 5;").toOption.bind
          (fun m => m.lookup "operator") = some ["bigger_equal"] := by
  constructor
  · decide
  · decide

/-! ## The row codec (storage.rs, `impl Into<Vec<u8>> for Row` and
`impl TryFrom<(Vec<u8>, Vec<Type>)> for Row`)

A row serializes as a directory of cumulative end-offsets (one `u16`
little-endian per column, counted from the start of the row and starting
after the directory itself) followed by the raw column bytes.  The `as
u16` cast wraps, which `toLeBytes 2` models.  Decoding reads each offset
slice and each column slice with panicking Rust indexing (modelled as
errors); `String::from_utf8` is modelled as always succeeding, which
agrees with the source on every byte string produced by the encoder. -/

/-- Serialization of one `Value` (UTF-8 bytes of the text, or the 8-byte
little-endian `u64`). -/
def valueBytes : Value → List Nat
  | .text s => s
  | .number n => toLeBytes 8 n

/-- The offset directory of a row: for each column the cumulative offset
(from row start) of the *end* of its data, as a wrapped `u16`. -/
def encodeOffsets : List Value → Nat → List Nat
  | [], _ => []
  | c :: rest, cum => toLeBytes 2 (cum + (valueBytes c).length)
      ++ encodeOffsets rest (cum + (valueBytes c).length)

/-- The concatenated column payloads of a row. -/
def encodeData : List Value → List Nat
  | [] => []
  | c :: rest => valueBytes c ++ encodeData rest

/-- `impl Into<Vec<u8>> for Row`. -/
def encodeRow (r : Row) : List Nat :=
  encodeOffsets r.cols (r.cols.length * 2) ++ encodeData r.cols

/-- Rust slice indexing `bytes[a..b]` (`none` models the panic). -/
def listSlice (bytes : List Nat) (a b : Nat) : Option (List Nat) :=
  if a ≤ b ∧ b ≤ bytes.length then some ((bytes.drop a).take (b - a)) else none

/-- The decoding loop of `impl TryFrom<(Vec<u8>, Vec<Type>)> for Row`:
`index` is the enumeration index, `last` the previous column's end
offset. -/
def decodeCols (bytes : List Nat) : List Ty → Nat → Nat → Except String (List Value)
  | [], _, _ => .ok []
  | ty :: rest, index, last =>
    match listSlice bytes (index * 2) ((index + 1) * 2) with
    | none => .error "panic: offset slice out of range"
    | some offBytes =>
      let colOffset := fromLeBytes offBytes
      match listSlice bytes last colOffset with
      | none => .error "panic: column slice out of range"
      | some colBytes =>
        match ty with
        | .number =>
          if colBytes.length = 8 then do
            let vs ← decodeCols bytes rest (index + 1) colOffset
            .ok (Value.number (fromLeBytes colBytes) :: vs)
          else .error "couldnt convert bytes to string"
        | .text => do
          let vs ← decodeCols bytes rest (index + 1) colOffset
          .ok (Value.text colBytes :: vs)

/-- `impl TryFrom<(Vec<u8>, Vec<Type>)> for Row`. -/
def decodeRow (bytes : List Nat) (colTypes : List Ty) : Except String Row :=
  (decodeCols bytes colTypes 0 (colTypes.length * 2)).map (fun vs => ⟨vs⟩)

/-- A value has the variant its schema type declares (numbers are `u64`). -/
def ValueMatches : Value → Ty → Prop
  | .text _, .text => True
  | .number n, .number => n < 2 ^ 64
  | _, _ => False

/-- Total payload size of a column list. -/
def sumLen (cols : List Value) : Nat :=
  (cols.map (fun c => (valueBytes c).length)).sum

theorem sumLen_append (xs ys : List Value) :
    sumLen (xs ++ ys) = sumLen xs + sumLen ys := by
  simp [sumLen]

theorem encodeData_length (cols : List Value) :
    (encodeData cols).length = sumLen cols := by
  induction cols with
  | nil => rfl
  | cons c rest ih =>
      rw [encodeData, List.length_append, ih]
      simp [sumLen]

theorem encodeOffsets_length (cols : List Value) (cum : Nat) :
    (encodeOffsets cols cum).length = 2 * cols.length := by
  induction cols generalizing cum with
  | nil => rfl
  | cons c rest ih =>
      rw [encodeOffsets, List.length_append, toLeBytes_length, ih, List.length_cons]
      omega

theorem encodeRow_length (cols : List Value) :
    (encodeRow ⟨cols⟩).length = 2 * cols.length + sumLen cols := by
  simp [encodeRow, encodeOffsets_length, encodeData_length]

theorem listSlice_left (A B : List Nat) (a b : Nat) (hab : a ≤ b)
    (hb : b ≤ A.length) : listSlice (A ++ B) a b = listSlice A a b := by
  unfold listSlice
  rw [if_pos ⟨hab, by simp; omega⟩, if_pos ⟨hab, hb⟩]
  rw [List.drop_append_eq_append_drop,
    List.take_append_of_le_length (by simp; omega)]

theorem listSlice_right (A B : List Nat) (a b : Nat) (hab : a ≤ b)
    (ha : A.length ≤ a) :
    listSlice (A ++ B) a b = listSlice B (a - A.length) (b - A.length) := by
  unfold listSlice
  by_cases hb : b ≤ A.length + B.length
  · rw [if_pos ⟨hab, by simp; omega⟩, if_pos ⟨by omega, by omega⟩]
    rw [List.drop_append_eq_append_drop, List.drop_eq_nil_of_le ha,
      List.nil_append]
    have harg : b - a = b - A.length - (a - A.length) := by omega
    rw [harg]
  · rw [if_neg (by simp; omega), if_neg (by omega)]

theorem sumLen_cons (c : Value) (cs : List Value) :
    sumLen (c :: cs) = (valueBytes c).length + sumLen cs := by
  simp [sumLen]

theorem take_append_succ (pre : List Value) (c : Value) (rest : List Value) :
    (pre ++ c :: rest).take (pre.length + 1) = pre ++ [c] := by
  induction pre with
  | nil => rfl
  | cons p ps ih => simp [List.length_cons, List.take_succ_cons, ih]

theorem offsets_slice (cols : List Value) : ∀ (cum j : Nat), j < cols.length →
    listSlice (encodeOffsets cols cum) (2 * j) (2 * j + 2)
      = some (toLeBytes 2 (cum + sumLen (cols.take (j + 1)))) := by
  induction cols with
  | nil => intro cum j hj; simp at hj
  | cons c rest ih =>
      intro cum j hj
      have hlen : (toLeBytes 2 (cum + (valueBytes c).length)).length = 2 :=
        toLeBytes_length 2 _
      cases j with
      | zero =>
          rw [encodeOffsets]
          rw [show 2 * 0 = 0 from rfl, show 0 + 2 = 2 from rfl]
          rw [listSlice_left _ _ 0 2 (by omega) (by rw [hlen])]
          unfold listSlice
          rw [if_pos ⟨by omega, by rw [hlen]⟩]
          rw [List.drop_zero, List.take_of_length_le (by rw [hlen])]
          simp [sumLen]
      | succ j =>
          rw [encodeOffsets]
          rw [listSlice_right _ _ (2 * (j + 1)) (2 * (j + 1) + 2) (by omega)
            (by rw [hlen]; omega)]
          rw [hlen]
          have e1 : 2 * (j + 1) - 2 = 2 * j := by omega
          have e2 : 2 * (j + 1) + 2 - 2 = 2 * j + 2 := by omega
          rw [e1, e2, ih _ j (by rw [List.length_cons] at hj; omega)]
          have hsum : sumLen ((c :: rest).take (j + 1 + 1))
              = (valueBytes c).length + sumLen (rest.take (j + 1)) := by
            rw [List.take_succ_cons, sumLen_cons]
          rw [hsum, Nat.add_assoc]

theorem data_slice (c : Value) (rest : List Value) : ∀ (pre : List Value),
    listSlice (encodeData (pre ++ c :: rest)) (sumLen pre)
        (sumLen pre + (valueBytes c).length) = some (valueBytes c) := by
  intro pre
  induction pre with
  | nil =>
      rw [List.nil_append, encodeData]
      rw [show sumLen [] = 0 from rfl, Nat.zero_add]
      rw [listSlice_left _ _ 0 (valueBytes c).length (by omega) (by omega)]
      unfold listSlice
      rw [if_pos ⟨by omega, by omega⟩]
      rw [List.drop_zero, List.take_of_length_le (by omega)]
  | cons p ps ih =>
      rw [List.cons_append, encodeData, sumLen_cons]
      rw [listSlice_right _ _ ((valueBytes p).length + sumLen ps)
        ((valueBytes p).length + sumLen ps + (valueBytes c).length)
        (by omega) (by omega)]
      have e1 : (valueBytes p).length + sumLen ps - (valueBytes p).length
          = sumLen ps := by omega
      have e2 : (valueBytes p).length + sumLen ps + (valueBytes c).length
          - (valueBytes p).length = sumLen ps + (valueBytes c).length := by omega
      rw [e1, e2, ih]

theorem exceptBind_ok {α β : Type} (a : α) (f : α → Except String β) :
    (Except.ok a >>= f : Except String β) = f a := rfl

theorem decodeCols_encodeRow (all : List Value)
    (hfit : 2 * all.length + sumLen all ≤ 65535) :
    ∀ (cols : List Value) (tys : List Ty), List.Forall₂ ValueMatches cols tys →
    ∀ (pre : List Value), all = pre ++ cols →
    decodeCols (encodeRow ⟨all⟩) tys pre.length (2 * all.length + sumLen pre)
      = .ok cols := by
  intro cols tys hmatch
  induction hmatch with
  | nil => intro pre hall; rfl
  | @cons c ty cols' tys' hval htail ih =>
      intro pre hall
      have hprelt : pre.length < all.length := by
        rw [hall, List.length_append, List.length_cons]
        omega
      have hofflen : (encodeOffsets all (all.length * 2)).length = 2 * all.length :=
        encodeOffsets_length all _
      have hoffs := offsets_slice all (all.length * 2) pre.length hprelt
      have htake : all.take (pre.length + 1) = pre ++ [c] := by
        rw [hall, take_append_succ]
      rw [htake, sumLen_append, sumLen_cons] at hoffs
      have hcum : all.length * 2 + (sumLen pre + ((valueBytes c).length + sumLen []))
          = 2 * all.length + sumLen pre + (valueBytes c).length := by
        rw [show sumLen [] = 0 from rfl]
        omega
      rw [hcum] at hoffs
      have hsumall : sumLen all = sumLen pre + (valueBytes c).length + sumLen cols' := by
        rw [hall, sumLen_append, sumLen_cons]
        omega
      have hbound : 2 * all.length + sumLen pre + (valueBytes c).length < 256 ^ 2 := by
        norm_num
        omega
      have hslice1 : listSlice (encodeRow ⟨all⟩) (pre.length * 2) ((pre.length + 1) * 2)
          = some (toLeBytes 2 (2 * all.length + sumLen pre + (valueBytes c).length)) := by
        rw [show encodeRow ⟨all⟩
          = encodeOffsets all (all.length * 2) ++ encodeData all from rfl]
        rw [show pre.length * 2 = 2 * pre.length by omega,
          show (pre.length + 1) * 2 = 2 * pre.length + 2 by omega]
        rw [listSlice_left _ _ _ _ (by omega) (by rw [hofflen]; omega)]
        exact hoffs
      have hfrom : fromLeBytes (toLeBytes 2
            (2 * all.length + sumLen pre + (valueBytes c).length))
          = 2 * all.length + sumLen pre + (valueBytes c).length :=
        fromLeBytes_toLeBytes 2 _ hbound
      have hslice2 : listSlice (encodeRow ⟨all⟩) (2 * all.length + sumLen pre)
            (2 * all.length + sumLen pre + (valueBytes c).length)
          = some (valueBytes c) := by
        rw [show encodeRow ⟨all⟩
          = encodeOffsets all (all.length * 2) ++ encodeData all from rfl]
        rw [listSlice_right _ _ _ _ (by omega) (by rw [hofflen]; omega)]
        rw [hofflen]
        rw [show 2 * all.length + sumLen pre - 2 * all.length = sumLen pre by omega]
        rw [show 2 * all.length + sumLen pre + (valueBytes c).length - 2 * all.length
          = sumLen pre + (valueBytes c).length by omega]
        rw [hall]
        exact data_slice c cols' pre
      have hrec := ih (pre ++ [c]) (by rw [hall]; simp)
      rw [List.length_append, sumLen_append, sumLen_cons] at hrec
      rw [show sumLen ([] : List Value) = 0 from rfl] at hrec
      rw [show ([c] : List Value).length = 1 from rfl] at hrec
      rw [show 2 * all.length + (sumLen pre + ((valueBytes c).length + 0))
        = 2 * all.length + sumLen pre + (valueBytes c).length by omega] at hrec
      rcases c with s | n
      · cases ty with
        | text =>
            simp only [decodeCols, hslice1, hfrom, hslice2, hrec, exceptBind_ok]
            rfl
        | number => exact hval.elim
      · cases ty with
        | text => exact hval.elim
        | number =>
            have hlen8 : (valueBytes (Value.number n)).length = 8 :=
              toLeBytes_length 8 n
            have hfromn : fromLeBytes (valueBytes (Value.number n)) = n :=
              fromLeBytes_toLeBytes 8 n hval
            simp only [decodeCols, hslice1, hfrom, hslice2]
            rw [if_pos hlen8]
            simp only [hrec, exceptBind_ok, hfromn]

/-- C2: for every row whose values match the schema `tys` (each text
column holds a text value, each number column a `u64`) and whose
serialized form fits the `u16` offset range, decoding the encoding of the
row under that schema returns the row unchanged. -/
theorem decode_encode_row (r : Row) (tys : List Ty)
    (hmatch : List.Forall₂ ValueMatches r.cols tys)
    (hfit : (encodeRow r).length ≤ 65535) :
    decodeRow (encodeRow r) tys = .ok r := by
  obtain ⟨cols⟩ := r
  have hlen : tys.length = cols.length := (List.Forall₂.length_eq hmatch).symm
  unfold decodeRow
  rw [encodeRow_length] at hfit
  have h := decodeCols_encodeRow cols hfit cols tys hmatch [] rfl
  have harg : tys.length * 2 = 2 * cols.length + sumLen [] := by
    rw [hlen, show sumLen [] = 0 from rfl]
    omega
  rw [harg]
  rw [show (([] : List Value)).length = 0 from rfl] at h
  rw [h]
  rfl

/-- Witness for C2 at a concrete two-column row. -/
theorem decode_encode_row_witness :
    decodeRow (encodeRow ⟨[Value.newText "ab", Value.newNumber 123]⟩)
        [.text, .number]
      = .ok ⟨[Value.newText "ab", Value.newNumber 123]⟩ := by
  apply decode_encode_row
  · exact List.Forall₂.cons trivial
      (List.Forall₂.cons (by norm_num [ValueMatches, Value.newNumber]) List.Forall₂.nil)
  · decide

/-! ## The page store (storage.rs, `page_management`)

The backing file (`SimpleFileHandler`) is modelled as a total byte map
`Nat → Nat`: `read_at` returns zeros past EOF (a fresh `pread` buffer is
zero-filled and holes read as zero), and `write_at` overlays a byte
range.  A `Vec<u8>` byte buffer is modelled as a function together with
its length (`Buf`), with the usual slice/concat operations.  All
page-store operations thread the file state explicitly.  Loops over the
header chain are fuelled, with exhaustion reported as an error
(unreachable with ample fuel on the files considered).  `usize`
subtractions are modelled as truncating `Nat` subtraction; the underflow
cases (debug-build panics) arise only on corrupt files outside every
state considered here. -/

def PAGE_SIZE : Nat := 4096

def HEAD_SIZE : Nat := 8

abbrev File := Nat → Nat

/-- A byte buffer (`Vec<u8>`): contents and length. -/
structure Buf where
  data : Nat → Nat
  size : Nat

/-- The bytes of a buffer as a list (used only for short buffers). -/
def bufToList (b : Buf) : List Nat := (List.range b.size).map b.data

/-- A buffer holding the given (short) byte list. -/
def listToBuf (l : List Nat) : Buf := ⟨fun i => l.getD i 0, l.length⟩

/-- `v[a..]` (no bounds check here; the callers check). -/
def bufDrop (n : Nat) (b : Buf) : Buf := ⟨fun i => b.data (n + i), b.size - n⟩

/-- The first `n` bytes of a buffer. -/
def bufTake (n : Nat) (b : Buf) : Buf := ⟨b.data, min n b.size⟩

/-- Buffer concatenation. -/
def bufAppend (a b : Buf) : Buf :=
  ⟨fun i => if i < a.size then a.data i else b.data (i - a.size), a.size + b.size⟩

/-- `FileHandler::read_at`. -/
def readAt (f : File) (start len : Nat) : Buf :=
  ⟨fun i => f (start + i), len⟩

/-- `FileHandler::write_at`. -/
def writeAt (f : File) (start : Nat) (data : Buf) : File :=
  fun i => if start ≤ i ∧ i < start + data.size then data.data (i - start) else f i

/-- `PageHeader` (with the transient lookup context fields). -/
structure PageHeader where
  id : Nat
  used : Nat
  next : Option Nat
  header_page_id : Option Nat
  header_offset : Option Nat
  previous_page_id : Option Nat
  deriving DecidableEq, Repr

/-- `PageHeader::get_size()`. -/
def headerSize : Nat := 24

/-- `TryFrom<Vec<u8>> for PageHeader`: reads id, next, used (next = 0
means none); the transient fields are cleared.  Fewer than 24 bytes make
the slicing panic (modelled as an error). -/
def pageHeaderFromBytes (value : Buf) : Except String PageHeader :=
  if value.size < 24 then .error "panic: not enough bytes for header"
  else
    let id := fromLeBytes (bufToList (bufTake 8 value))
    let next := fromLeBytes (bufToList (bufTake 8 (bufDrop 8 value)))
    let used := fromLeBytes (bufToList (bufTake 8 (bufDrop 16 value)))
    .ok ⟨id, used, if next = 0 then none else some next, none, none, none⟩

/-- `Into<Vec<u8>> for PageHeader`. -/
def pageHeaderToBytes (h : PageHeader) : Buf :=
  listToBuf (toLeBytes 8 h.id ++ toLeBytes 8 (h.next.getD 0) ++ toLeBytes 8 h.used)

/-- `SimplePageHandler::calculate_page_start`. -/
def calculate_page_start (id : Nat) : Nat := id * PAGE_SIZE + HEAD_SIZE

/-- `PageHeader::get_first()`. -/
def get_first : PageHeader := ⟨0, 0, none, some 0, some 24, some 0⟩

/-- `SimplePageHandler::new` on a fresh (empty) file: free-list head = 1
and the self-header (used = 24) of header page 0. -/
def initFile : File :=
  writeAt (writeAt (fun _ => 0) 0 (listToBuf (toLeBytes 8 1)))
    HEAD_SIZE (pageHeaderToBytes ⟨0, 24, none, none, none, none⟩)

/-- `SimplePageHandler::push_free`. -/
def push_free (f : File) (id : Nat) : File :=
  let next_bytes := readAt f 0 8
  let f1 := writeAt f 0 (listToBuf (toLeBytes 8 id))
  writeAt f1 (calculate_page_start id) next_bytes

/-- `SimplePageHandler::pop_free`. -/
def pop_free (f : File) : Nat × File :=
  let first_page := fromLeBytes (bufToList (readAt f 0 8))
  let second_page_bytes := readAt f (calculate_page_start first_page) 8
  if bufToList second_page_bytes ≠ [0, 0, 0, 0, 0, 0, 0, 0] then
    (first_page, writeAt f 0 second_page_bytes)
  else
    (first_page, writeAt f 0 (listToBuf (toLeBytes 8 (first_page + 1))))

/-- Rust `copy_from_slice` into `dst[offset..offset+src.len()]` (`error`
models the panic on an out-of-range destination). -/
def listCopy (dst : Buf) (offset : Nat) (src : Buf) : Except String Buf :=
  if offset + src.size ≤ dst.size then
    .ok (bufAppend (bufTake offset dst)
      (bufAppend src (bufDrop (offset + src.size) dst)))
  else
    .error "panic: copy out of range"

/-- The chain-walking loop of `SimplePageHandler::alloc_page`: find (or
create) a header page with room, register the new data-page header there. -/
def allocLoop : Nat → File → Nat → Nat → Except String (PageHeader × File)
  | 0, _, _, _ => .error "out of fuel"
  | fuel + 1, f, current_header_page_id, new_page_id => do
    let bytes := readAt f (calculate_page_start current_header_page_id) PAGE_SIZE
    match pageHeaderFromBytes (bufTake 24 bytes) with
    | .error e => .error e
    | .ok own =>
      if PAGE_SIZE - own.used > 24 then do
        let new_header : PageHeader :=
          ⟨new_page_id, 0, none, some own.id, some own.used, none⟩
        let bytes1 ← listCopy bytes own.used (pageHeaderToBytes new_header)
        let own' := { own with used := own.used + 24 }
        let bytes2 ← listCopy bytes1 0 (pageHeaderToBytes own')
        .ok (new_header,
          writeAt f (calculate_page_start current_header_page_id) bytes2)
      else
        match own.next with
        | some next_header_page_id => allocLoop fuel f next_header_page_id new_page_id
        | none => do
          let own' := { own with next := some new_page_id }
          let bytes1 ← listCopy bytes 0 (pageHeaderToBytes own')
          let f1 := writeAt f (calculate_page_start current_header_page_id) bytes1
          let new_own : PageHeader := ⟨new_page_id, 24, none, none, none, some own.id⟩
          let f2 := writeAt f1 (calculate_page_start new_page_id)
            (pageHeaderToBytes new_own)
          let p := pop_free f2
          allocLoop fuel p.2 new_page_id p.1

/-- `SimplePageHandler::alloc_page`. -/
def alloc_page (fuel : Nat) (f : File) : Except String (PageHeader × File) :=
  let p := pop_free f
  allocLoop fuel p.2 0 p.1

/-- The inner loop of `iterate_headers_from` over the 24-byte entries of
one header-page snapshot (`bytes`), from `offset` up to `used`
(exclusive), threading the state (the live file plus the caller's
accumulator) through the callback; `bytes.get(o..o+24) = None` breaks the
loop.  `fuelI` is a structural bound on the number of iterations
(`used + 1` always suffices since the offset grows by 24). -/
def iterateInner {α : Type} (bytes : Buf) (pageId prevId used : Nat)
    (g : PageHeader → File × α → Except String (Bool × File × α)) :
    Nat → Nat → File × α → Except String (Bool × File × α)
  | 0, _, _ => .error "out of fuel"
  | fuelI + 1, offset, st =>
    if offset < used then
      if offset + 24 ≤ bytes.size then
        match pageHeaderFromBytes (bufTake 24 (bufDrop offset bytes)) with
        | .error e => .error e
        | .ok hdr => do
          let hdr' : PageHeader :=
            ⟨hdr.id, hdr.used, hdr.next, some pageId, some offset, some prevId⟩
          let r ← g hdr' st
          if r.1 then .ok r
          else iterateInner bytes pageId prevId used g fuelI (offset + 24) r.2
      else
        .ok (false, st)
    else
      .ok (false, st)

/-- The outer chain loop of `iterate_headers_from`: visit one header page
(re-read from the live file), run the inner loop on its snapshot, then
follow `next` with the initial offset reset to 24. -/
def iterateOuter {α : Type}
    (g : PageHeader → File × α → Except String (Bool × File × α)) :
    Nat → Nat → Nat → Nat → File × α → Except String (File × α)
  | 0, _, _, _, _ => .error "out of fuel"
  | fuel + 1, current_page_id, previous_page_id, initial_offset, st => do
    let bytes := readAt st.1 (calculate_page_start current_page_id) PAGE_SIZE
    match pageHeaderFromBytes (bufTake 24 bytes) with
    | .error e => .error e
    | .ok own => do
      let r ← iterateInner bytes current_page_id previous_page_id own.used g
        (own.used + 1) initial_offset st
      if r.1 then .ok r.2
      else
        match own.next with
        | some next_page_id => iterateOuter g fuel next_page_id current_page_id 24 r.2
        | none => .ok r.2

/-- `SimplePageHandler::iterate_headers_from`. -/
def iterate_headers_from {α : Type} (fuel : Nat) (st : File × α)
    (header : PageHeader)
    (g : PageHeader → File × α → Except String (Bool × File × α)) :
    Except String (File × α) :=
  match header.header_page_id, header.previous_page_id, header.header_offset with
  | some cur, some prev, some off => iterateOuter g fuel cur prev off st
  | _, _, _ => .error "header did not contain iteration context"

/-- `SimplePageHandler::find_fitting_page`. -/
def find_fitting_page (fuel : Nat) (f : File) (size : Nat) :
    Except String (Option PageHeader) := do
  let r ← iterate_headers_from fuel (f, (none : Option PageHeader)) get_first
    (fun current_header st =>
      if PAGE_SIZE - current_header.used ≥ size then
        .ok (true, st.1, some current_header)
      else
        .ok (false, st.1, st.2))
  .ok r.2

/-- `SimplePageHandler::is_page`. -/
def is_page (fuel : Nat) (f : File) (id : Nat) :
    Except String (Option PageHeader) := do
  let r ← iterate_headers_from fuel (f, (none : Option PageHeader)) get_first
    (fun current_header st =>
      if current_header.id = id then
        .ok (true, st.1, some current_header)
      else
        .ok (false, st.1, st.2))
  .ok r.2

/-- The registered data pages in header-chain order: the list of headers
visited by a full `iterate_headers_from(get_first)` traversal. -/
def headersFrom (fuel : Nat) (f : File) : Except String (List PageHeader) := do
  let r ← iterate_headers_from fuel (f, ([] : List PageHeader)) get_first
    (fun h st => .ok (false, st.1, st.2 ++ [h]))
  .ok r.2

/-- `SimplePageHandler::dealloc_page`.  The result of the recursive call
on `next` is discarded by the source (`self.dealloc_page(..);`); on the
(unreachable in page-store use, where data-page entries never carry a
`next`) error path the model keeps the pre-call file, whereas Rust would
keep the partial writes. -/
def dealloc_page : Nat → File → PageHeader → Except String File
  | 0, _, _ => .error "out of fuel"
  | fuel + 1, f, page_header => do
    let f ← (match page_header.next with
      | some next_page_header_id => do
        let hOpt ← is_page (fuel + 1) f next_page_header_id
        match hOpt with
        | none => .error "invalid input"
        | some h =>
          match dealloc_page fuel f h with
          | .ok f' => .ok f'
          | .error _ => .ok f
      | none => .ok f)
    match page_header.header_page_id with
    | none => .error "header did not contain header_page_id"
    | some header_page_id =>
      let header_page_bytes := readAt f (calculate_page_start header_page_id) PAGE_SIZE
      match page_header.header_offset with
      | none => .error "invalid input"
      | some header_offset =>
        if header_offset + 24 ≤ header_page_bytes.size then
          let drained := bufAppend (bufTake header_offset header_page_bytes)
            (bufDrop (header_offset + 24) header_page_bytes)
          match pageHeaderFromBytes (bufTake 24 drained) with
          | .error e => .error e
          | .ok own =>
            let own' := { own with used := own.used - 24 }
            if own'.used ≤ 24 ∧ header_page_id ≠ 0 then
              match page_header.previous_page_id with
              | none => .error "header did not contain previous_page_id"
              | some previous_page_id =>
                let previous_page_bytes :=
                  readAt f (calculate_page_start previous_page_id) PAGE_SIZE
                match pageHeaderFromBytes (bufTake 24 previous_page_bytes) with
                | .error e => .error e
                | .ok prevHdr =>
                  let f1 := writeAt f (calculate_page_start previous_page_id)
                    (pageHeaderToBytes { prevHdr with next := own'.next })
                  .ok (push_free f1 page_header.id)
            else do
              let drained' ← listCopy drained 0 (pageHeaderToBytes own')
              let f1 := writeAt f (calculate_page_start header_page_id) drained'
              .ok (push_free f1 page_header.id)
        else
          .error "panic: drain out of range"

/-- `SimplePageHandler::read_page`. -/
def read_page (f : File) (page_header : PageHeader) : Buf :=
  readAt f (calculate_page_start page_header.id) PAGE_SIZE

/-- `SimplePageHandler::write_page`. -/
def write_page (f : File) (page_header : PageHeader) (data : Buf)
    (size : Nat) : Except String File :=
  if data.size > PAGE_SIZE then
    .error "data is to big to write into one page"
  else
    match page_header.header_page_id with
    | none => .error "invalid input"
    | some header_page_id =>
      let header_page_bytes := readAt f (calculate_page_start header_page_id) PAGE_SIZE
      match page_header.header_offset with
      | none => .error "header did not have a header_offset"
      | some header_offset =>
        if header_offset + 24 ≤ header_page_bytes.size then
          match pageHeaderFromBytes (bufTake 24 (bufDrop header_offset header_page_bytes)) with
          | .error e => .error e
          | .ok own =>
            if own.id = page_header.id then do
              let bytes1 ← listCopy header_page_bytes header_offset
                (pageHeaderToBytes { own with used := size })
              let f1 := writeAt f (calculate_page_start page_header.id) data
              .ok (writeAt f1 (calculate_page_start header_page_id) bytes1)
            else
              .error "wrong header type"
        else
          .error "unexpected error"

/-- `SimplePageHandler::iterate_pages`. -/
def iterate_pages {α : Type} (fuel : Nat) (st : File × α)
    (g : PageHeader → Buf → File × α → Except String (Bool × File × α)) :
    Except String (File × α) :=
  iterate_headers_from fuel st get_first
    (fun h st => g h (read_page st.1 h) st)

/-- `SimplePageHandler::iterate_pages_from`. -/
def iterate_pages_from {α : Type} (fuel : Nat) (st : File × α)
    (start : PageHeader)
    (g : PageHeader → Buf → File × α → Except String (Bool × File × α)) :
    Except String (File × α) :=
  iterate_headers_from fuel st start
    (fun h st => g h (read_page st.1 h) st)

/-! ## C5: a deallocated id is reused before the frontier grows -/

/-- The alloc–alloc–dealloc(first)–alloc trace of claim C5, run on a
freshly initialized page store (the deallocated page's header is looked
up with `is_page` first, as the source's callers do, so that it carries
the iteration context `dealloc_page` needs). -/
def c5run : Except String (Nat × Nat × Nat) := do
  let r1 ← alloc_page 100 initFile
  let r2 ← alloc_page 100 r1.2
  let hOpt ← is_page 100 r2.2 r1.1.id
  match hOpt with
  | none => .error "page not found"
  | some h => do
    let f3 ← dealloc_page 100 r2.2 h
    let r4 ← alloc_page 100 f3
    .ok (r1.1.id, r2.1.id, r4.1.id)

lemma range_map_getD (l : List Nat) (n : Nat) (h : l.length = n) :
    (List.range n).map (fun i => l.getD i 0) = l := by
  subst h
  apply List.ext_getElem
  · simp
  · intro i h1 h2
    simp [List.getD_eq_getElem?_getD, List.getElem?_eq_getElem h2]

/-- `pop_free` returns exactly the id that the latest `push_free` pushed:
the free list is a stack, so deallocated ids are reused before the
all-zero frontier advances. -/
lemma pop_free_push_free (f : File) (id : Nat) (h : id < 256 ^ 8) :
    (pop_free (push_free f id)).1 = id := by
  have hlen : (toLeBytes 8 id).length = 8 := toLeBytes_length 8 id
  have hread : bufToList (readAt (push_free f id) 0 8) = toLeBytes 8 id := by
    calc bufToList (readAt (push_free f id) 0 8)
        = (List.range 8).map (fun i => (push_free f id) (0 + i)) := rfl
      _ = (List.range 8).map (fun i => (toLeBytes 8 id).getD i 0) := by
          apply List.map_congr_left
          intro i hi
          simp only [List.mem_range] at hi
          simp only [push_free, writeAt, readAt, listToBuf, calculate_page_start,
            Nat.zero_add]
          rw [if_neg, if_pos]
          · simp
          · exact ⟨Nat.zero_le i, by rw [hlen]; exact hi⟩
          · intro hc
            have h1 := hc.1
            simp only [PAGE_SIZE, HEAD_SIZE] at h1
            omega
      _ = toLeBytes 8 id := range_map_getD _ 8 hlen
  simp only [pop_free, hread, fromLeBytes_toLeBytes 8 id h]
  split <;> rfl

/-- C5: starting from a freshly initialized page store, alloc returns
id 1, a second alloc returns id 2, and after deallocating the first
page the next alloc returns the deallocated id 1 again; in general the
id most recently pushed onto the free list by `push_free` (as
`dealloc_page` does) is the one the next `pop_free` (as `alloc_page`
does first) hands out, before any fresh id past the frontier. -/
theorem alloc_reuses_freed_id :
    c5run = .ok (1, 2, 1) ∧
    ∀ (f : File) (id : Nat), id < 256 ^ 8 →
      (pop_free (push_free f id)).1 = id :=
  ⟨by rfl, fun f id h => pop_free_push_free f id h⟩

theorem alloc_reuses_freed_id_witness :
    (1 : Nat) < 256 ^ 8 ∧ (pop_free (push_free initFile 1)).1 = 1 :=
  ⟨by decide, alloc_reuses_freed_id.2 initFile 1 (by decide)⟩

/-! ## C4: `find_fitting_page` returns the first fitting header

The correct answer is phrased against `headersFrom`, the list of headers
a full collector traversal of the chain visits (chain order).  The two
`iterate_headers_from` runs — the collector and any callback that never
errors, never writes the file, stops according to a predicate `p` on the
header, and updates its accumulator with `u` — are related by a
stop-aware fold `foldStop` over that list. -/

def foldStop {β : Type} (p : PageHeader → Bool) (u : PageHeader → β → β) :
    List PageHeader → β → Bool × β
  | [], b => (false, b)
  | h :: t, b =>
    let b' := u h b
    if p h then (true, b') else foldStop p u t b'

lemma foldStop_append {β : Type} (p : PageHeader → Bool) (u : PageHeader → β → β)
    (L1 L2 : List PageHeader) (b : β) :
    foldStop p u (L1 ++ L2) b =
      if (foldStop p u L1 b).1 then foldStop p u L1 b
      else foldStop p u L2 (foldStop p u L1 b).2 := by
  induction L1 generalizing b with
  | nil => simp [foldStop]
  | cons h t ih =>
    simp only [List.cons_append, foldStop]
    by_cases hp : p h
    · simp [hp]
    · simp only [hp, if_false]
      exact ih (u h b)

lemma iterateInner_pure_rel {β : Type} (bytes : Buf) (pid prev used : Nat)
    (p : PageHeader → Bool) (u : PageHeader → β → β)
    (g : PageHeader → File × β → Except String (Bool × File × β))
    (hg : ∀ h st, g h st = .ok (p h, st.1, u h st.2)) :
    ∀ (fuelI offset : Nat) (f : File) (acc : List PageHeader)
      (res : Bool × File × List PageHeader),
      iterateInner bytes pid prev used
        (fun h st => .ok (false, st.1, st.2 ++ [h])) fuelI offset (f, acc) = .ok res →
      res.1 = false ∧ res.2.1 = f ∧
      ∃ L, res.2.2 = acc ++ L ∧
      ∀ b : β, iterateInner bytes pid prev used g fuelI offset (f, b) =
        .ok ((foldStop p u L b).1, f, (foldStop p u L b).2) := by
  intro fuelI
  induction fuelI with
  | zero =>
    intro offset f acc res hcol
    simp [iterateInner] at hcol
  | succ n ih =>
    intro offset f acc res hcol
    simp only [iterateInner] at hcol
    by_cases h1 : offset < used
    · rw [if_pos h1] at hcol
      by_cases h2 : offset + 24 ≤ bytes.size
      · rw [if_pos h2] at hcol
        cases hparse : pageHeaderFromBytes (bufTake 24 (bufDrop offset bytes)) with
        | error e => rw [hparse] at hcol; simp at hcol
        | ok hdr =>
          rw [hparse] at hcol
          simp only [Bind.bind, Except.bind, Bool.false_eq_true, if_false] at hcol
          obtain ⟨h0, hfile, L', hacc, hrun⟩ :=
            ih (offset + 24) f
              (acc ++ [⟨hdr.id, hdr.used, hdr.next, some pid, some offset, some prev⟩])
              res hcol
          refine ⟨h0, hfile,
            ⟨hdr.id, hdr.used, hdr.next, some pid, some offset, some prev⟩ :: L',
            by rw [hacc]; simp, ?_⟩
          intro b
          simp only [iterateInner, h1, h2, hparse, hg, Bind.bind, Except.bind,
            if_true, ite_true]
          by_cases hp : p ⟨hdr.id, hdr.used, hdr.next, some pid, some offset, some prev⟩
          · simp [foldStop, hp]
          · simp only [foldStop, hp, Bool.false_eq_true, if_false]
            exact hrun _
      · rw [if_neg h2] at hcol
        injection hcol with hcol
        subst hcol
        refine ⟨rfl, rfl, [], by simp, fun b => ?_⟩
        simp only [iterateInner]
        rw [if_pos h1, if_neg h2]
        simp [foldStop]
    · rw [if_neg h1] at hcol
      injection hcol with hcol
      subst hcol
      refine ⟨rfl, rfl, [], by simp, fun b => ?_⟩
      simp only [iterateInner]
      rw [if_neg h1]
      simp [foldStop]

lemma iterateOuter_pure_rel {β : Type}
    (p : PageHeader → Bool) (u : PageHeader → β → β)
    (g : PageHeader → File × β → Except String (Bool × File × β))
    (hg : ∀ h st, g h st = .ok (p h, st.1, u h st.2)) :
    ∀ (fuel cur prev off : Nat) (f : File) (acc : List PageHeader)
      (res : File × List PageHeader),
      iterateOuter (fun h st => .ok (false, st.1, st.2 ++ [h]))
        fuel cur prev off (f, acc) = .ok res →
      res.1 = f ∧ ∃ L, res.2 = acc ++ L ∧
      ∀ b : β, iterateOuter g fuel cur prev off (f, b) =
        .ok (f, (foldStop p u L b).2) := by
  intro fuel
  induction fuel with
  | zero =>
    intro cur prev off f acc res hcol
    simp [iterateOuter] at hcol
  | succ n ih =>
    intro cur prev off f acc res hcol
    simp only [iterateOuter] at hcol
    cases hparse : pageHeaderFromBytes
        (bufTake 24 (readAt f (calculate_page_start cur) PAGE_SIZE)) with
    | error e => rw [hparse] at hcol; simp at hcol
    | ok own =>
      rw [hparse] at hcol
      simp only [Bind.bind, Except.bind] at hcol
      cases hinner : iterateInner (readAt f (calculate_page_start cur) PAGE_SIZE)
          cur prev own.used (fun h st => .ok (false, st.1, st.2 ++ [h]))
          (own.used + 1) off (f, acc) with
      | error e => rw [hinner] at hcol; simp at hcol
      | ok r =>
        rw [hinner] at hcol
        obtain ⟨h0, hfile, L1, hacc, hrun⟩ :=
          iterateInner_pure_rel (readAt f (calculate_page_start cur) PAGE_SIZE)
            cur prev own.used p u g hg (own.used + 1) off f acc r hinner
        obtain ⟨rb, rf, ra⟩ := r
        simp only at h0 hfile hacc
        subst h0; subst hfile; subst hacc
        simp only [Bool.false_eq_true, if_false] at hcol
        cases hnext : own.next with
        | none =>
          rw [hnext] at hcol
          injection hcol with hcol
          subst hcol
          refine ⟨rfl, L1, rfl, fun b => ?_⟩
          simp only [iterateOuter, hparse, Bind.bind, Except.bind, hrun b, hnext]
          by_cases hs : (foldStop p u L1 b).1 <;> simp [hs]
        | some nxt =>
          rw [hnext] at hcol
          obtain ⟨hres1, L2, hres2, hrun2⟩ := ih nxt cur 24 rf (acc ++ L1) res hcol
          refine ⟨hres1, L1 ++ L2, by rw [hres2]; simp, fun b => ?_⟩
          simp only [iterateOuter, hparse, Bind.bind, Except.bind, hrun b, hnext]
          by_cases hs : (foldStop p u L1 b).1
          · rw [foldStop_append]
            simp [hs]
          · simp only [hs, Bool.false_eq_true, if_false]
            rw [hrun2 _, foldStop_append]
            simp [hs]

lemma find?_first {γ : Type} (p : γ → Bool) :
    ∀ (l : List γ) (a : γ), l.find? p = some a →
      ∃ pre post, l = pre ++ a :: post ∧ ∀ x ∈ pre, ¬ p x := by
  intro l
  induction l with
  | nil => intro a h; simp at h
  | cons x t ih =>
    intro a h
    by_cases hp : p x
    · rw [List.find?_cons_of_pos _ hp] at h
      injection h with h
      subst h
      exact ⟨[], t, rfl, by simp⟩
    · rw [List.find?_cons_of_neg _ hp] at h
      obtain ⟨pre, post, heq, hpre⟩ := ih a h
      refine ⟨x :: pre, post, by rw [heq]; rfl, ?_⟩
      intro y hy
      rcases List.mem_cons.mp hy with h1 | h1
      · subst h1; exact hp
      · exact hpre y h1

lemma foldStop_find (n : Nat) (hs : List PageHeader) (b : Option PageHeader) :
    (foldStop (fun h => decide (PAGE_SIZE - h.used ≥ n))
      (fun h b => if PAGE_SIZE - h.used ≥ n then some h else b) hs b).2 =
      (hs.find? (fun h => decide (PAGE_SIZE - h.used ≥ n))).or b := by
  induction hs generalizing b with
  | nil => simp [foldStop]
  | cons h t ih =>
    by_cases hc : PAGE_SIZE - h.used ≥ n
    · simp [foldStop, List.find?_cons, hc]
    · simp only [foldStop, List.find?_cons, hc]
      simp only [decide_eq_true_eq, hc, if_false, decide_False]  -- may need fixes
      exact ih b

/-- C4: whenever the chain traversal succeeds and collects the headers
`hs` (in header-chain order), `find_fitting_page` succeeds and returns
exactly `hs.find?` of the fitting predicate `PAGE_SIZE - used ≥ n`: if
that is `some h` then `h` fits and is the first fitting header in chain
order (everything before it in `hs` does not fit), and if it is `none`
then no registered data page fits. -/
theorem find_fitting_page_spec (fuel n : Nat) (f : File) (hs : List PageHeader)
    (h1 : headersFrom fuel f = .ok hs) :
    find_fitting_page fuel f n =
      .ok (hs.find? (fun h => decide (PAGE_SIZE - h.used ≥ n))) ∧
    (∀ h, hs.find? (fun h => decide (PAGE_SIZE - h.used ≥ n)) = some h →
      PAGE_SIZE - h.used ≥ n ∧
      ∃ pre post, hs = pre ++ h :: post ∧
        ∀ h2 ∈ pre, ¬ PAGE_SIZE - h2.used ≥ n) ∧
    (hs.find? (fun h => decide (PAGE_SIZE - h.used ≥ n)) = none ↔
      ∀ h ∈ hs, ¬ PAGE_SIZE - h.used ≥ n) := by
  have hg : ∀ (h : PageHeader) (st : File × Option PageHeader),
      (if PAGE_SIZE - h.used ≥ n then
        (.ok (true, st.1, some h) : Except String (Bool × File × Option PageHeader))
      else .ok (false, st.1, st.2)) =
      .ok (decide (PAGE_SIZE - h.used ≥ n), st.1,
        if PAGE_SIZE - h.used ≥ n then some h else st.2) := by
    intro h st
    by_cases hc : PAGE_SIZE - h.used ≥ n <;> simp [hc]
  unfold headersFrom at h1
  unfold iterate_headers_from at h1
  simp only [get_first, Bind.bind, Except.bind] at h1
  cases houter : iterateOuter
      (fun h st => .ok (false, st.1, st.2 ++ [h])) fuel 0 0 24
      (f, ([] : List PageHeader)) with
  | error e => rw [houter] at h1; simp at h1
  | ok res =>
    rw [houter] at h1
    injection h1 with h1
    obtain ⟨hres1, L, hres2, hrun⟩ :=
      iterateOuter_pure_rel (fun h => decide (PAGE_SIZE - h.used ≥ n))
        (fun h b => if PAGE_SIZE - h.used ≥ n then some h else b)
        (fun h st => if PAGE_SIZE - h.used ≥ n then .ok (true, st.1, some h)
          else .ok (false, st.1, st.2)) hg
        fuel 0 0 24 f [] res houter
    have hhs : hs = L := by rw [← h1, hres2]; simp
    subst hhs
    refine ⟨?_, ?_, ?_⟩
    · unfold find_fitting_page iterate_headers_from
      simp only [get_first, Bind.bind, Except.bind, hrun none]
      rw [foldStop_find, Option.or_none]
    · intro h hfind
      have hp := List.find?_some hfind
      simp only [decide_eq_true_eq] at hp
      obtain ⟨pre, post, heq, hpre⟩ :=
        find?_first (fun h => decide (PAGE_SIZE - h.used ≥ n)) hs h hfind
      exact ⟨hp, pre, post, heq, fun h2 hh2 => by
        have := hpre h2 hh2
        simpa using this⟩
    · rw [List.find?_eq_none]
      constructor
      · intro hall h hh
        have := hall h hh
        simpa using this
      · intro hall h hh
        simp only [decide_eq_true_eq]
        exact hall h hh

/-- The page-store file after one `alloc_page` on a fresh store (a
concrete state for the C4 witness). -/
def c4file : File :=
  match alloc_page 100 initFile with
  | .ok r => r.2
  | .error _ => initFile

theorem find_fitting_page_spec_witness :
    headersFrom 100 c4file = .ok [⟨1, 0, none, some 0, some 24, some 0⟩] ∧
    (find_fitting_page 100 c4file 5 =
        .ok (([⟨1, 0, none, some 0, some 24, some 0⟩] : List PageHeader).find?
          (fun h => decide (PAGE_SIZE - h.used ≥ 5))) ∧
      (∀ h, ([⟨1, 0, none, some 0, some 24, some 0⟩] : List PageHeader).find?
          (fun h => decide (PAGE_SIZE - h.used ≥ 5)) = some h →
        PAGE_SIZE - h.used ≥ 5 ∧
        ∃ pre post,
          ([⟨1, 0, none, some 0, some 24, some 0⟩] : List PageHeader) =
            pre ++ h :: post ∧
          ∀ h2 ∈ pre, ¬ PAGE_SIZE - h2.used ≥ 5) ∧
      (([⟨1, 0, none, some 0, some 24, some 0⟩] : List PageHeader).find?
          (fun h => decide (PAGE_SIZE - h.used ≥ 5)) = none ↔
        ∀ h ∈ ([⟨1, 0, none, some 0, some 24, some 0⟩] : List PageHeader),
          ¬ PAGE_SIZE - h.used ≥ 5)) :=
  ⟨by rfl, find_fitting_page_spec 100 5 c4file
    [⟨1, 0, none, some 0, some 24, some 0⟩] (by rfl)⟩

/-! ## C9: `select_row` and `next` are read-only (storage.rs)

Both functions thread the file state through `iterate_pages` /
`iterate_pages_from`; their page callbacks decode and test rows but
always hand the file component of the state back unchanged, so a
successful call leaves the file exactly as it was. -/

/-- `Cursor` (storage.rs). -/
structure Cursor where
  header : PageHeader
  ptr_index : Nat
  data_offset : Nat
  predicate : Option Predicate
  cols : Option (List String)

/-- The reverse index loop of `filter_row`: for `i = n-1, …, 0`, remove
`row.cols[i]` when the schema column `i` is not in `cols`. -/
def filterGo (colData : List (Ty × String)) (cols : List String) :
    Nat → List Value → List Value
  | 0, vs => vs
  | i + 1, vs =>
    let vs' := if cols.contains (colData.getD i (Ty.text, "")).2 then vs
      else vs.eraseIdx i
    filterGo colData cols i vs'

/-- `SimpleTableHandler::filter_row`. -/
def filter_row (colData : List (Ty × String)) (row : Row) (cols : List String) :
    Except String Row :=
  if colData.length ≠ row.cols.length then .error "row was already filtered"
  else
    match validate_cols colData cols with
    | .error e => .error e
    | .ok _ => .ok ⟨filterGo colData cols colData.length row.cols⟩

/-- The slot loop shared by the `select_row` and `next` page callbacks:
scan the slots of one page snapshot from `ptr_index` (with previous end
offset `last_data_offset`) up to `ptr_count`, decode each row, and stop
at the first row fulfilling the predicate, returning it (projected when
`cols` is given) together with the next slot index and its end offset.
Out-of-range slices model the corresponding Rust panics; `fuel`
(`ptr_count - ptr_index` at call sites) bounds the iteration count. -/
def rowScan (colData : List (Ty × String)) (predicate : Option Predicate)
    (cols : Option (List String)) (page : Buf) (ptr_count : Nat) :
    Nat → Nat → Nat → Except String (Option (Row × Nat × Nat))
  | 0, _, _ => .ok none
  | fuel + 1, ptr_index, last_data_offset =>
    if ptr_index < ptr_count then
      if (ptr_index + 2) * 2 ≤ page.size then
        let data_offset :=
          fromLeBytes (bufToList (bufTake 2 (bufDrop ((ptr_index + 1) * 2) page)))
        match listSlice (bufToList page) (page.size - data_offset)
            (page.size - last_data_offset) with
        | none => .error "panic: row slice out of range"
        | some row_bytes =>
          match decodeRow row_bytes (colData.map (fun x => x.1)) with
          | .error e => .error e
          | .ok row =>
            match row_fulfills colData row predicate with
            | .error e => .error e
            | .ok true =>
              match cols with
              | some cs =>
                match filter_row colData row cs with
                | .error e => .error e
                | .ok row' => .ok (some (row', ptr_index + 1, data_offset))
              | none => .ok (some (row, ptr_index + 1, data_offset))
            | .ok false =>
              rowScan colData predicate cols page ptr_count fuel
                (ptr_index + 1) data_offset
      else .error "panic: data_offset slice out of range"
    else .ok none

/-- The page callback of `select_row`. -/
def selectCb (colData : List (Ty × String)) (predicate : Option Predicate)
    (cols : Option (List String)) (h : PageHeader) (page : Buf)
    (st : File × Option (Row × Cursor)) :
    Except String (Bool × File × Option (Row × Cursor)) :=
  if page.size < 2 then .error "panic: ptr_count slice out of range"
  else
    let ptr_count := fromLeBytes (bufToList (bufTake 2 page))
    match rowScan colData predicate cols page ptr_count ptr_count 0 0 with
    | .error e => .error e
    | .ok (some (row, idx, off)) =>
      .ok (true, st.1, some (row, ⟨h, idx, off, predicate, cols⟩))
    | .ok none => .ok (false, st.1, st.2)

/-- `SimpleTableHandler::select_row` (returning the threaded file state
alongside the result). -/
def select_row (fuel : Nat) (colData : List (Ty × String)) (f : File)
    (predicate : Option Predicate) (cols : Option (List String)) :
    Except String (File × Option (Row × Cursor)) :=
  iterate_pages fuel (f, none) (selectCb colData predicate cols)

/-- The page callback of `next`: the state also carries the cursor and
the (reset-to-zero after the first page) initial slot index and offset. -/
def nextCb (colData : List (Ty × String)) (h : PageHeader) (page : Buf)
    (st : File × Option Row × Cursor × Nat × Nat) :
    Except String (Bool × File × Option Row × Cursor × Nat × Nat) :=
  if page.size < 2 then .error "panic: ptr_count slice out of range"
  else
    let ptr_count := fromLeBytes (bufToList (bufTake 2 page))
    let cur := st.2.2.1
    let ii := st.2.2.2.1
    let io := st.2.2.2.2
    match rowScan colData cur.predicate cur.cols page ptr_count (ptr_count - ii) ii io with
    | .error e => .error e
    | .ok (some (row, idx, off)) =>
      .ok (true, st.1, some row, ⟨h, idx, off, cur.predicate, cur.cols⟩, ii, io)
    | .ok none => .ok (false, st.1, st.2.1, cur, 0, 0)

/-- `SimpleTableHandler::next` (returning the threaded file state, the
result row and the updated cursor). -/
def next (fuel : Nat) (colData : List (Ty × String)) (f : File) (cursor : Cursor) :
    Except String (File × Option Row × Cursor) :=
  match iterate_pages_from fuel (f, (none, cursor, cursor.ptr_index, cursor.data_offset))
      cursor.header (nextCb colData) with
  | .error e => .error e
  | .ok r => .ok (r.1, r.2.1, r.2.2.1)

lemma iterateInner_preserves {α : Type} (bytes : Buf) (pid prev used : Nat)
    (g : PageHeader → File × α → Except String (Bool × File × α))
    (hg : ∀ h st r, g h st = .ok r → r.2.1 = st.1) :
    ∀ (fuelI offset : Nat) (st : File × α) (res : Bool × File × α),
      iterateInner bytes pid prev used g fuelI offset st = .ok res →
      res.2.1 = st.1 := by
  intro fuelI
  induction fuelI with
  | zero => intro offset st res h; simp [iterateInner] at h
  | succ n ih =>
    intro offset st res h
    simp only [iterateInner] at h
    by_cases h1 : offset < used
    · rw [if_pos h1] at h
      by_cases h2 : offset + 24 ≤ bytes.size
      · rw [if_pos h2] at h
        cases hparse : pageHeaderFromBytes (bufTake 24 (bufDrop offset bytes)) with
        | error e => rw [hparse] at h; simp at h
        | ok hdr =>
          rw [hparse] at h
          simp only [Bind.bind, Except.bind] at h
          cases hcall : g ⟨hdr.id, hdr.used, hdr.next, some pid, some offset, some prev⟩ st with
          | error e => rw [hcall] at h; simp at h
          | ok r =>
            rw [hcall] at h
            simp only [] at h
            have hr := hg _ _ _ hcall
            by_cases hb : r.1
            · rw [if_pos hb] at h
              injection h with h
              subst h
              exact hr
            · rw [if_neg hb] at h
              have := ih (offset + 24) r.2 res h
              rw [this, hr]
      · rw [if_neg h2] at h
        injection h with h
        subst h
        rfl
    · rw [if_neg h1] at h
      injection h with h
      subst h
      rfl

lemma iterateOuter_preserves {α : Type}
    (g : PageHeader → File × α → Except String (Bool × File × α))
    (hg : ∀ h st r, g h st = .ok r → r.2.1 = st.1) :
    ∀ (fuel cur prev off : Nat) (st : File × α) (res : File × α),
      iterateOuter g fuel cur prev off st = .ok res → res.1 = st.1 := by
  intro fuel
  induction fuel with
  | zero => intro cur prev off st res h; simp [iterateOuter] at h
  | succ n ih =>
    intro cur prev off st res h
    simp only [iterateOuter] at h
    cases hparse : pageHeaderFromBytes
        (bufTake 24 (readAt st.1 (calculate_page_start cur) PAGE_SIZE)) with
    | error e => rw [hparse] at h; simp at h
    | ok own =>
      rw [hparse] at h
      simp only [Bind.bind, Except.bind] at h
      cases hinner : iterateInner (readAt st.1 (calculate_page_start cur) PAGE_SIZE)
          cur prev own.used g (own.used + 1) off st with
      | error e => rw [hinner] at h; simp at h
      | ok r =>
        rw [hinner] at h
        simp only [] at h
        have hr := iterateInner_preserves _ cur prev own.used g hg _ off st r hinner
        by_cases hb : r.1
        · rw [if_pos hb] at h
          injection h with h
          subst h
          exact hr
        · rw [if_neg hb] at h
          cases hnext : own.next with
          | some nxt =>
            rw [hnext] at h
            have := ih nxt cur 24 r.2 res h
            rw [this, hr]
          | none =>
            rw [hnext] at h
            injection h with h
            subst h
            exact hr

lemma iterate_headers_from_preserves {α : Type} (fuel : Nat) (st : File × α)
    (hdr : PageHeader)
    (g : PageHeader → File × α → Except String (Bool × File × α))
    (hg : ∀ h st r, g h st = .ok r → r.2.1 = st.1)
    (res : File × α)
    (h : iterate_headers_from fuel st hdr g = .ok res) : res.1 = st.1 := by
  unfold iterate_headers_from at h
  cases h1 : hdr.header_page_id with
  | none => rw [h1] at h; simp at h
  | some cur =>
    cases h2 : hdr.previous_page_id with
    | none => rw [h1, h2] at h; simp at h
    | some prev =>
      cases h3 : hdr.header_offset with
      | none => rw [h1, h2, h3] at h; simp at h
      | some off =>
        rw [h1, h2, h3] at h
        exact iterateOuter_preserves g hg fuel cur prev off st res h

lemma selectCb_preserves (colData : List (Ty × String)) (p : Option Predicate)
    (cols : Option (List String)) :
    ∀ (h : PageHeader) (page : Buf) (st : File × Option (Row × Cursor))
      (r : Bool × File × Option (Row × Cursor)),
      selectCb colData p cols h page st = .ok r → r.2.1 = st.1 := by
  intro h page st r hok
  unfold selectCb at hok
  by_cases hs : page.size < 2
  · rw [if_pos hs] at hok
    simp at hok
  · rw [if_neg hs] at hok
    simp only [] at hok
    cases hscan : rowScan colData p cols page (fromLeBytes (bufToList (bufTake 2 page)))
        (fromLeBytes (bufToList (bufTake 2 page))) 0 0 with
    | error e => rw [hscan] at hok; simp at hok
    | ok o =>
      rw [hscan] at hok
      cases o with
      | none =>
        simp only [] at hok
        injection hok with hok
        subst hok
        rfl
      | some t =>
        obtain ⟨row, idx, off⟩ := t
        simp only [] at hok
        injection hok with hok
        subst hok
        rfl

lemma nextCb_preserves (colData : List (Ty × String)) :
    ∀ (h : PageHeader) (page : Buf) (st : File × Option Row × Cursor × Nat × Nat)
      (r : Bool × File × Option Row × Cursor × Nat × Nat),
      nextCb colData h page st = .ok r → r.2.1 = st.1 := by
  intro h page st r hok
  unfold nextCb at hok
  by_cases hs : page.size < 2
  · rw [if_pos hs] at hok
    simp at hok
  · rw [if_neg hs] at hok
    simp only [] at hok
    cases hscan : rowScan colData st.2.2.1.predicate st.2.2.1.cols page
        (fromLeBytes (bufToList (bufTake 2 page)))
        (fromLeBytes (bufToList (bufTake 2 page)) - st.2.2.2.1)
        st.2.2.2.1 st.2.2.2.2 with
    | error e => rw [hscan] at hok; simp at hok
    | ok o =>
      rw [hscan] at hok
      cases o with
      | none =>
        simp only [] at hok
        injection hok with hok
        subst hok
        rfl
      | some t =>
        obtain ⟨row, idx, off⟩ := t
        simp only [] at hok
        injection hok with hok
        subst hok
        rfl


/-- C9: `select_row` and `next` are read-only: whenever a call succeeds,
the file component of the returned state equals the input file — the
scans issue only page reads, never writes. -/
theorem select_next_read_only (fuel : Nat) (colData : List (Ty × String))
    (f : File) (p : Option Predicate) (cols : Option (List String)) (c : Cursor) :
    (∀ res, select_row fuel colData f p cols = .ok res → res.1 = f) ∧
    (∀ res, next fuel colData f c = .ok res → res.1 = f) := by
  constructor
  · intro res h
    unfold select_row iterate_pages at h
    exact iterate_headers_from_preserves fuel (f, none) get_first _
      (fun hd st r hok => selectCb_preserves colData p cols hd (read_page st.1 hd) st r hok)
      res h
  · intro res h
    unfold next at h
    cases hit : iterate_pages_from fuel
        (f, (none, c, c.ptr_index, c.data_offset)) c.header (nextCb colData) with
    | error e => rw [hit] at h; simp at h
    | ok r =>
      rw [hit] at h
      simp only [] at h
      injection h with h
      subst h
      unfold iterate_pages_from at hit
      exact iterate_headers_from_preserves fuel (f, (none, c, c.ptr_index, c.data_offset))
        c.header _
        (fun hd st r hok => nextCb_preserves colData hd (read_page st.1 hd) st r hok)
        r hit

theorem select_next_read_only_witness :
    select_row 100 [] initFile none none = .ok (initFile, none) ∧
    ((initFile, none) : File × Option (Row × Cursor)).1 = initFile ∧
    next 100 [] initFile ⟨get_first, 0, 0, none, none⟩ =
      .ok (initFile, none, ⟨get_first, 0, 0, none, none⟩) ∧
    ((initFile, none, ⟨get_first, 0, 0, none, none⟩) :
      File × Option Row × Cursor).1 = initFile :=
  ⟨by rfl,
   (select_next_read_only 100 [] initFile none none ⟨get_first, 0, 0, none, none⟩).1
     (initFile, none) (by rfl),
   by rfl,
   (select_next_read_only 100 [] initFile none none ⟨get_first, 0, 0, none, none⟩).2
     (initFile, none, ⟨get_first, 0, 0, none, none⟩) (by rfl)⟩


/-- 24-byte on-disk header image: id, next, used (8 little-endian bytes each). -/
def hdrBytes (id next used : Nat) : List Nat :=
  toLeBytes 8 id ++ toLeBytes 8 next ++ toLeBytes 8 used

lemma hdrBytes_length (a b c : Nat) : (hdrBytes a b c).length = 24 := by
  simp [hdrBytes, toLeBytes_length]

/-- `f` holds the bytes `l` starting at `s`. -/
def bytesAt (f : File) (s : Nat) (l : List Nat) : Prop :=
  ∀ i, i < l.length → f (s + i) = l.getD i 0

lemma pageHeaderToBytes_eq (h : PageHeader) :
    pageHeaderToBytes h = listToBuf (hdrBytes h.id (h.next.getD 0) h.used) := rfl

lemma ps_eq (id : Nat) : calculate_page_start id = id * 4096 + 8 := rfl

lemma writeAt_eq (f : File) (s : Nat) (d : Buf) (off : Nat) :
    writeAt f s d off =
      if s ≤ off ∧ off < s + d.size then d.data (off - s) else f off := rfl

lemma bytesAt_writeAt_disjoint (f : File) (s : Nat) (d : Buf) (s' : Nat)
    (l : List Nat) (h : s' + l.length ≤ s ∨ s + d.size ≤ s')
    (hb : bytesAt f s' l) : bytesAt (writeAt f s d) s' l := by
  intro i hi
  rw [writeAt_eq, if_neg, hb i hi]
  intro hc
  omega

lemma bytesAt_writeAt_self (f : File) (s : Nat) (d : Buf) (l : List Nat)
    (hlen : d.size = l.length)
    (hdata : ∀ i, i < l.length → d.data i = l.getD i 0) :
    bytesAt (writeAt f s d) s l := by
  intro i hi
  rw [writeAt_eq, if_pos (by omega)]
  simpa using hdata i hi

lemma bytesAt_listToBuf_write (f : File) (s : Nat) (l : List Nat) :
    bytesAt (writeAt f s (listToBuf l)) s l :=
  bytesAt_writeAt_self f s (listToBuf l) l rfl (fun _ _ => rfl)

/-- getD split lemmas over `hdrBytes`. -/
lemma hdrBytes_getD_id (a b c i : Nat) (h : i < 8) :
    (hdrBytes a b c).getD i 0 = (toLeBytes 8 a).getD i 0 := by
  simp only [hdrBytes, List.getD_eq_getElem?_getD, List.getElem?_append,
    List.length_append, toLeBytes_length]
  rw [if_pos (by omega), if_pos h]

lemma hdrBytes_getD_next (a b c i : Nat) (h8 : 8 ≤ i) (h : i < 16) :
    (hdrBytes a b c).getD i 0 = (toLeBytes 8 b).getD (i - 8) 0 := by
  simp only [hdrBytes, List.getD_eq_getElem?_getD, List.getElem?_append,
    List.length_append, toLeBytes_length]
  rw [if_pos (by omega), if_neg (by omega)]

lemma hdrBytes_getD_used (a b c i : Nat) (h16 : 16 ≤ i) (h : i < 24) :
    (hdrBytes a b c).getD i 0 = (toLeBytes 8 c).getD (i - 16) 0 := by
  simp only [hdrBytes, List.getD_eq_getElem?_getD, List.getElem?_append,
    List.length_append, toLeBytes_length]
  rw [if_neg (by omega)]

lemma range_map_of_getD (g : Nat → Nat) (l : List Nat) (n : Nat)
    (hn : l.length = n) (h : ∀ i, i < n → g i = l.getD i 0) :
    (List.range n).map g = l := by
  subst hn
  calc (List.range l.length).map g
      = (List.range l.length).map (fun i => l.getD i 0) := by
        apply List.map_congr_left
        intro i hi
        exact h i (List.mem_range.mp hi)
    _ = l := range_map_getD l l.length rfl

/-- Parse a 24-byte header window whose bytes are `hdrBytes a b c`. -/
lemma parse_take (X : Buf) (hs : 24 ≤ X.size) (a b c : Nat)
    (ha : a < 256 ^ 8) (hb : b < 256 ^ 8) (hc : c < 256 ^ 8)
    (h : ∀ i, i < 24 → X.data i = (hdrBytes a b c).getD i 0) :
    pageHeaderFromBytes (bufTake 24 X) =
      .ok ⟨a, c, if b = 0 then none else some b, none, none, none⟩ := by
  have hsize : (bufTake 24 X).size = 24 := by
    simp [bufTake]
    omega
  rw [pageHeaderFromBytes, if_neg (by omega)]
  have hid : bufToList (bufTake 8 (bufTake 24 X)) = toLeBytes 8 a := by
    show (List.range (min 8 (min 24 X.size))).map X.data = _
    have : min 8 (min 24 X.size) = 8 := by omega
    rw [this]
    apply range_map_of_getD _ _ _ (toLeBytes_length 8 a)
    intro i hi
    rw [h i (by omega), hdrBytes_getD_id a b c i hi]
  have hnext : bufToList (bufTake 8 (bufDrop 8 (bufTake 24 X))) = toLeBytes 8 b := by
    show (List.range (min 8 (min 24 X.size - 8))).map (fun i => X.data (8 + i)) = _
    have : min 8 (min 24 X.size - 8) = 8 := by omega
    rw [this]
    apply range_map_of_getD _ _ _ (toLeBytes_length 8 b)
    intro i hi
    rw [h (8 + i) (by omega), hdrBytes_getD_next a b c (8 + i) (by omega) (by omega)]
    congr 1
    omega
  have hused : bufToList (bufTake 8 (bufDrop 16 (bufTake 24 X))) = toLeBytes 8 c := by
    show (List.range (min 8 (min 24 X.size - 16))).map (fun i => X.data (16 + i)) = _
    have : min 8 (min 24 X.size - 16) = 8 := by omega
    rw [this]
    apply range_map_of_getD _ _ _ (toLeBytes_length 8 c)
    intro i hi
    rw [h (16 + i) (by omega), hdrBytes_getD_used a b c (16 + i) (by omega) (by omega)]
    congr 1
    omega
  rw [hid, hnext, hused, fromLeBytes_toLeBytes 8 a ha, fromLeBytes_toLeBytes 8 b hb,
    fromLeBytes_toLeBytes 8 c hc]

/-- Abstract page-store state: the free-list stack, the all-zero
frontier, and the header chain (header page id, registered data-page ids
in slot order). -/
structure Abs where
  free : List Nat
  frontier : Nat
  chain : List (Nat × List Nat)

def chainIds (S : Abs) : List Nat := S.chain.map Prod.fst

def entryIds (S : Abs) : List Nat := (S.chain.map Prod.snd).flatten

/-- Every page id the state references. -/
def allIds (S : Abs) : List Nat := S.free ++ chainIds S ++ entryIds S

/-- The id stored in the `next` field of chain page `j` (0 when last). -/
def chainNext (S : Abs) (j : Nat) : Nat :=
  match S.chain.get? (j + 1) with
  | some c => c.1
  | none => 0

/-- Well-formedness of an abstract state. -/
structure goodState (S : Abs) : Prop where
  chain0 : ∃ es, S.chain.get? 0 = some (0, es)
  nodup : (allIds S).Nodup
  bounded : ∀ x ∈ allIds S, x < S.frontier
  fpos : 0 < S.frontier
  fbound : S.frontier < 256 ^ 8
  capacity : ∀ c ∈ S.chain, 24 * (1 + c.2.length) ≤ 4096

/-- The file lays out the abstract state `S`. -/
structure PageRepr (S : Abs) (f : File) : Prop where
  head : bytesAt f 0 (toLeBytes 8 (S.free.headD S.frontier))
  freecells : ∀ j x, S.free.get? j = some x →
    bytesAt f (calculate_page_start x) (toLeBytes 8 (S.free.getD (j + 1) S.frontier))
  zeros : ∀ off, calculate_page_start S.frontier ≤ off → f off = 0
  chainOwn : ∀ j c, S.chain.get? j = some c →
    bytesAt f (calculate_page_start c.1)
      (hdrBytes c.1 (chainNext S j) (24 * (1 + c.2.length)))
  entries : ∀ j c, S.chain.get? j = some c → ∀ k x, c.2.get? k = some x →
    bytesAt f (calculate_page_start c.1 + 24 * (k + 1)) (hdrBytes x 0 0)

lemma readAt_list (f : File) (s n : Nat) (l : List Nat) (hlen : l.length = n)
    (hb : bytesAt f s l) : bufToList (readAt f s n) = l := by
  show (List.range n).map (fun i => f (s + i)) = l
  exact range_map_of_getD _ _ _ hlen (fun i hi => hb i (by rw [hlen]; exact hi))

lemma mem_allIds {S : Abs} {x : Nat} :
    x ∈ allIds S ↔ x ∈ S.free ∨ x ∈ chainIds S ∨ x ∈ entryIds S := by
  simp [allIds]

lemma fromLeBytes_zeros : fromLeBytes [0, 0, 0, 0, 0, 0, 0, 0] = 0 := rfl

lemma toLeBytes_ne_zeros (v : Nat) (hv : v < 256 ^ 8) (h0 : v ≠ 0) :
    toLeBytes 8 v ≠ [0, 0, 0, 0, 0, 0, 0, 0] := by
  intro hc
  apply h0
  have := fromLeBytes_toLeBytes 8 v hv
  rw [hc] at this
  rw [← this, fromLeBytes_zeros]

lemma window_disjoint {x y a b la lb : Nat}
    (h : (x ≠ y ∧ a + la ≤ 4096 ∧ b + lb ≤ 4096) ∨ (x = y ∧ (a + la ≤ b ∨ b + lb ≤ a))) :
    (calculate_page_start y + b) + lb ≤ calculate_page_start x + a ∨
    (calculate_page_start x + a) + la ≤ calculate_page_start y + b := by
  rw [ps_eq, ps_eq]
  rcases h with ⟨h1, h2, h3⟩ | ⟨h1, h2⟩
  · rcases Nat.lt_or_ge x y with hlt | hge
    · right
      omega
    · left
      omega
  · subst h1
    omega

lemma allIds_def (S : Abs) :
    allIds S = S.free ++ S.chain.map Prod.fst ++ (S.chain.map Prod.snd).flatten := rfl

/-- `pop_free` on a well-laid-out store: pops the stack head (or takes
the frontier page and advances the frontier), and the result is fresh. -/
lemma pop_free_spec (S : Abs) (f : File) (hg : goodState S) (hr : PageRepr S f)
    (hbound : S.frontier + 1 < 256 ^ 8) :
    ∃ (x : Nat) (f' : File) (S' : Abs),
      pop_free f = (x, f') ∧ PageRepr S' f' ∧ goodState S' ∧
      S'.chain = S.chain ∧
      x ∉ allIds S' ∧ x ≠ 0 ∧ x < S'.frontier ∧
      S.frontier ≤ S'.frontier ∧ S'.frontier ≤ S.frontier + 1 ∧
      (∀ y, y ∈ allIds S' → y ∈ allIds S) := by
  have h0chain : (0 : Nat) ∈ chainIds S := by
    obtain ⟨es, hes⟩ := hg.chain0
    exact List.mem_map.mpr ⟨(0, es), List.get?_mem hes, rfl⟩
  have h0all : (0 : Nat) ∈ allIds S := mem_allIds.mpr (Or.inr (Or.inl h0chain))
  have hhead : bufToList (readAt f 0 8) = toLeBytes 8 (S.free.headD S.frontier) :=
    readAt_list f 0 8 _ (toLeBytes_length 8 _) hr.head
  cases hfree : S.free with
  | nil =>
    -- empty free list: take the frontier page, frontier grows by one
    have hheadv : S.free.headD S.frontier = S.frontier := by rw [hfree]; rfl
    have hcell : bufToList (readAt f (calculate_page_start S.frontier) 8) =
        [0, 0, 0, 0, 0, 0, 0, 0] := by
      show (List.range 8).map (fun i => f (calculate_page_start S.frontier + i)) = _
      apply range_map_of_getD _ _ _ (by rfl)
      intro i hi
      rw [hr.zeros _ (Nat.le_add_right _ i)]
      rcases i with _|_|_|_|_|_|_|_|i <;> simp at hi ⊢
    have hfirst : fromLeBytes (bufToList (readAt f 0 8)) = S.frontier := by
      rw [hhead, hheadv]
      exact fromLeBytes_toLeBytes 8 _ (by omega)
    refine ⟨S.frontier, writeAt f 0 (listToBuf (toLeBytes 8 (S.frontier + 1))),
      ⟨[], S.frontier + 1, S.chain⟩, ?_, ?_, ?_, rfl, ?_, ?_, ?_, ?_, ?_, ?_⟩
    · simp only [pop_free]
      rw [hfirst, hcell, if_neg (by simp)]
    · constructor
      · exact bytesAt_listToBuf_write f 0 (toLeBytes 8 (S.frontier + 1))
      · intro j x hx
        simp at hx
      · intro off hoff
        have hoff' : calculate_page_start (S.frontier + 1) ≤ off := hoff
        rw [writeAt_eq, if_neg]
        · apply hr.zeros
          rw [ps_eq] at hoff' ⊢
          omega
        · intro hc
          rw [ps_eq] at hoff'
          simp only [listToBuf, toLeBytes_length] at hc
          omega
      · intro j c hc
        apply bytesAt_writeAt_disjoint
        · right
          simp only [listToBuf, toLeBytes_length]
          rw [ps_eq]
          omega
        · exact hr.chainOwn j c hc
      · intro j c hc k x hx
        apply bytesAt_writeAt_disjoint
        · right
          simp only [listToBuf, toLeBytes_length]
          rw [ps_eq]
          omega
        · exact hr.entries j c hc k x hx
    · refine ⟨hg.chain0, ?_, ?_, ?_, ?_, hg.capacity⟩
      · have hd := hg.nodup
        rw [allIds_def] at hd ⊢
        rw [hfree] at hd
        simpa using hd
      · intro x hx
        have hx' : x ∈ allIds S := by
          rw [allIds_def] at hx ⊢
          rw [hfree]
          simpa using hx
        exact Nat.lt_succ_of_lt (hg.bounded x hx')
      · show 0 < S.frontier + 1
        omega
      · show S.frontier + 1 < 256 ^ 8
        omega
    · intro hc
      have hmem : S.frontier ∈ allIds S := by
        rw [allIds_def] at hc ⊢
        rw [hfree]
        simpa using hc
      exact absurd (hg.bounded _ hmem) (Nat.lt_irrefl _)
    · have := hg.fpos
      omega
    · exact Nat.lt_succ_self _
    · exact Nat.le_succ _
    · exact Nat.le_refl _
    · intro y hy
      rw [allIds_def] at hy ⊢
      rw [hfree]
      simpa using hy
  | cons x rest =>
    -- non-empty free list: pop the head
    have hnd := hg.nodup
    rw [allIds_def, hfree, List.cons_append, List.cons_append, List.nodup_cons] at hnd
    have hxmem : x ∈ allIds S := by
      rw [mem_allIds, hfree]
      exact Or.inl (List.mem_cons_self x rest)
    have hxF : x < S.frontier := hg.bounded x hxmem
    have hheadv : S.free.headD S.frontier = x := by rw [hfree]; rfl
    have hv1 : S.free.getD 1 S.frontier = rest.headD S.frontier := by
      rw [hfree]
      cases rest <;> rfl
    have hv1ne : rest.headD S.frontier ≠ 0 := by
      cases hrest : rest with
      | nil =>
        have := hg.fpos
        simp
        omega
      | cons y t =>
        simp only [List.headD_cons]
        intro hy0
        subst hy0
        have h2 := hnd.2
        rw [List.append_assoc, List.nodup_append] at h2
        exact h2.2.2 (by rw [hrest]; exact List.mem_cons_self _ _)
          (List.mem_append_left _ h0chain)
    have hv1lt : rest.headD S.frontier < 256 ^ 8 := by
      cases hrest : rest with
      | nil =>
        have := hg.fbound
        simpa using this
      | cons y t =>
        simp only [List.headD_cons]
        have hy : y ∈ allIds S := by
          rw [mem_allIds, hfree, hrest]
          exact Or.inl (by simp)
        have := hg.bounded y hy
        omega
    have hcell : bufToList (readAt f (calculate_page_start x) 8) =
        toLeBytes 8 (rest.headD S.frontier) := by
      have hfc := hr.freecells 0 x (by rw [hfree]; rfl)
      rw [hv1] at hfc
      exact readAt_list f _ 8 _ (toLeBytes_length 8 _) hfc
    have hfirst : fromLeBytes (bufToList (readAt f 0 8)) = x := by
      rw [hhead, hheadv]
      exact fromLeBytes_toLeBytes 8 _ (by omega)
    refine ⟨x, writeAt f 0 (readAt f (calculate_page_start x) 8),
      ⟨rest, S.frontier, S.chain⟩, ?_, ?_, ?_, rfl, ?_, ?_, ?_, ?_, ?_, ?_⟩
    · simp only [pop_free]
      rw [hfirst, hcell, if_pos (toLeBytes_ne_zeros _ hv1lt hv1ne)]
    · constructor
      · have hres : bytesAt (writeAt f 0 (readAt f (calculate_page_start x) 8)) 0
            (toLeBytes 8 (rest.headD S.frontier)) := by
          apply bytesAt_writeAt_self
          · simp [readAt, toLeBytes_length]
          · intro i hi
            have hfr := hr.freecells 0 x (by rw [hfree]; rfl)
            rw [hv1] at hfr
            exact hfr i hi
        exact hres
      · intro j y hy
        apply bytesAt_writeAt_disjoint
        · right
          simp only [readAt]
          rw [ps_eq]
          omega
        · have hfc := hr.freecells (j + 1) y (by rw [hfree]; simpa using hy)
          have harg : S.free.getD (j + 1 + 1) S.frontier = rest.getD (j + 1) S.frontier := by
            rw [hfree]; rfl
          rw [harg] at hfc
          exact hfc
      · intro off hoff
        have hoff' : calculate_page_start S.frontier ≤ off := hoff
        rw [writeAt_eq, if_neg]
        · exact hr.zeros off hoff'
        · intro hc
          rw [ps_eq] at hoff'
          simp only [readAt] at hc
          omega
      · intro j c hc
        apply bytesAt_writeAt_disjoint
        · right
          simp only [readAt]
          rw [ps_eq]
          omega
        · exact hr.chainOwn j c hc
      · intro j c hc k y hy
        apply bytesAt_writeAt_disjoint
        · right
          simp only [readAt]
          rw [ps_eq]
          omega
        · exact hr.entries j c hc k y hy
    · refine ⟨hg.chain0, ?_, ?_, hg.fpos, hg.fbound, hg.capacity⟩
      · have hd := hg.nodup
        rw [allIds_def] at hd ⊢
        rw [hfree, List.cons_append, List.cons_append, List.nodup_cons] at hd
        exact hd.2
      · intro y hy
        apply hg.bounded
        rw [allIds_def] at hy ⊢
        rw [hfree, List.cons_append, List.cons_append]
        exact List.mem_cons_of_mem x hy
    · intro hc
      apply hnd.1
      rw [allIds_def] at hc
      exact hc
    · intro hx0
      subst hx0
      apply hnd.1
      rw [List.mem_append, List.mem_append]
      exact Or.inl (Or.inr h0chain)
    · exact hxF
    · exact Nat.le_refl _
    · exact Nat.le_succ _
    · intro y hy
      rw [allIds_def] at hy ⊢
      rw [hfree, List.cons_append, List.cons_append]
      exact List.mem_cons_of_mem x hy

/-- `push_free` of a fresh id preserves the layout, pushing the id onto
the free-list stack. -/
lemma push_free_spec (S : Abs) (f : File) (x : Nat) (hg : goodState S)
    (hr : PageRepr S f) (hx : x ∉ allIds S) (hx0 : x ≠ 0) (hxF : x < S.frontier) :
    PageRepr ⟨x :: S.free, S.frontier, S.chain⟩ (push_free f x) ∧
    goodState ⟨x :: S.free, S.frontier, S.chain⟩ := by
  have hxfree : x ∉ S.free := fun hc => hx (mem_allIds.mpr (Or.inl hc))
  have hxchain : x ∉ chainIds S := fun hc => hx (mem_allIds.mpr (Or.inr (Or.inl hc)))
  have hfreeBnd : ∀ y ∈ S.free, y < S.frontier := fun y hy =>
    hg.bounded y (mem_allIds.mpr (Or.inl hy))
  constructor
  · show PageRepr _ (writeAt (writeAt f 0 (listToBuf (toLeBytes 8 x)))
      (calculate_page_start x) (readAt f 0 8))
    constructor
    · -- head now holds x
      apply bytesAt_writeAt_disjoint
      · simp only [readAt, toLeBytes_length, ps_eq]
        omega
      · exact bytesAt_listToBuf_write f 0 (toLeBytes 8 x)
    · -- free cells
      intro j y hy
      cases j with
      | zero =>
        simp only [List.get?] at hy
        injection hy with hy
        subst hy
        have hval : (x :: S.free).getD (0 + 1) S.frontier = S.free.headD S.frontier := by
          cases S.free <;> rfl
        rw [hval]
        apply bytesAt_writeAt_self
        · simp [readAt, toLeBytes_length]
        · intro i hi
          rw [toLeBytes_length] at hi
          exact hr.head i (by rw [toLeBytes_length]; exact hi)
      | succ j =>
        simp only [List.get?] at hy
        have hyF : y < S.frontier := hfreeBnd y (List.get?_mem hy)
        have hyx : y ≠ x := fun hc => hxfree (hc ▸ List.get?_mem hy)
        have hval : (x :: S.free).getD (j + 1 + 1) S.frontier =
            S.free.getD (j + 1) S.frontier := rfl
        rw [hval]
        apply bytesAt_writeAt_disjoint
        · simp only [readAt, toLeBytes_length, ps_eq]
          omega
        · apply bytesAt_writeAt_disjoint
          · simp only [listToBuf, toLeBytes_length, ps_eq]
            omega
          · exact hr.freecells j y hy
    · -- zeros beyond the frontier
      intro off hoff
      have hoff' : calculate_page_start S.frontier ≤ off := hoff
      rw [ps_eq] at hoff'
      rw [writeAt_eq, if_neg, writeAt_eq, if_neg]
      · exact hr.zeros off hoff
      · intro hc
        simp only [listToBuf, toLeBytes_length] at hc
        omega
      · intro hc
        simp only [readAt, ps_eq] at hc
        omega
    · -- chain page own headers
      intro j c hc
      have hcin : c ∈ S.chain := List.get?_mem hc
      have hc1 : c.1 ∈ chainIds S := List.mem_map.mpr ⟨c, hcin, rfl⟩
      have hcx : c.1 ≠ x := fun h => hxchain (h ▸ hc1)
      have hcap := hg.capacity c hcin
      have hval : chainNext ⟨x :: S.free, S.frontier, S.chain⟩ j = chainNext S j := rfl
      rw [hval]
      apply bytesAt_writeAt_disjoint
      · simp only [readAt, hdrBytes_length, ps_eq]
        omega
      · apply bytesAt_writeAt_disjoint
        · simp only [listToBuf, toLeBytes_length, hdrBytes_length, ps_eq]
          omega
        · exact hr.chainOwn j c hc
    · -- chain entries
      intro j c hc k y hy
      have hcin : c ∈ S.chain := List.get?_mem hc
      have hc1 : c.1 ∈ chainIds S := List.mem_map.mpr ⟨c, hcin, rfl⟩
      have hcx : c.1 ≠ x := fun h => hxchain (h ▸ hc1)
      have hcap := hg.capacity c hcin
      have hk : k < c.2.length := by
        by_contra hge
        rw [List.get?_eq_none.mpr (by omega)] at hy
        exact Option.noConfusion hy
      apply bytesAt_writeAt_disjoint
      · simp only [readAt, hdrBytes_length, ps_eq]
        omega
      · apply bytesAt_writeAt_disjoint
        · simp only [listToBuf, toLeBytes_length, hdrBytes_length, ps_eq]
          omega
        · exact hr.entries j c hc k y hy
  · constructor
    · exact hg.chain0
    · rw [allIds_def]
      simp only [List.cons_append]
      rw [List.nodup_cons]
      exact ⟨fun hc => hx (by rw [allIds_def]; exact hc), hg.nodup⟩
    · intro y hy
      rw [allIds_def] at hy
      simp only [List.cons_append] at hy
      rcases List.mem_cons.mp hy with h1 | h1
      · subst h1
        exact hxF
      · exact hg.bounded y (by rw [allIds_def]; exact h1)
    · exact hg.fpos
    · exact hg.fbound
    · exact hg.capacity

lemma listCopy_spec (dst : Buf) (u : Nat) (src : Buf) (h : u + src.size ≤ dst.size) :
    listCopy dst u src =
      .ok ⟨fun i => if u ≤ i ∧ i < u + src.size then src.data (i - u) else dst.data i,
        dst.size⟩ := by
  unfold listCopy
  rw [if_pos h]
  congr 1
  have hu : (bufTake u dst).size = u := by
    simp [bufTake]
    omega
  rw [Buf.mk.injEq]  -- may not typecheck; adjust
  constructor
  · funext i
    simp only [bufAppend, bufTake, bufDrop]
    by_cases h1 : i < u
    · rw [if_pos (by simp; omega), if_neg (by omega)]
    · rw [if_neg (by simp; omega)]
      by_cases h2 : i - min u dst.size < src.size
      · rw [if_pos h2, if_pos (by omega)]
        congr 1
        omega
      · rw [if_neg h2, if_neg (by omega)]
        congr 1
        omega
  · simp [bufAppend, bufTake, bufDrop]
    omega

lemma listCopy_spec2 (dst : Buf) (u : Nat) (src : Buf) (n m : Nat)
    (hd : dst.size = n) (hs : src.size = m) (h : u + m ≤ n) :
    listCopy dst u src =
      .ok ⟨fun i => if u ≤ i ∧ i < u + m then src.data (i - u) else dst.data i, n⟩ := by
  subst hd
  subst hs
  exact listCopy_spec dst u src h

lemma copy_write (f : File) (p u : Nat) (E : List Nat) (hE : E.length = 24)
    (hcap : u + 24 ≤ 4096) :
    ∃ b1, listCopy (readAt f (calculate_page_start p) PAGE_SIZE) u (listToBuf E) = .ok b1 ∧
      ∀ off, writeAt f (calculate_page_start p) b1 off =
        if calculate_page_start p + u ≤ off ∧ off < calculate_page_start p + u + 24 then
          E.getD (off - (calculate_page_start p + u)) 0
        else f off := by
  have h := listCopy_spec2 (readAt f (calculate_page_start p) PAGE_SIZE) u (listToBuf E)
    4096 24 rfl (by simp [listToBuf, hE]) (by omega)
  refine ⟨_, h, ?_⟩
  intro off
  rw [writeAt_eq]
  by_cases h1 : calculate_page_start p + u ≤ off ∧ off < calculate_page_start p + u + 24
  · rw [if_pos (by show _ ∧ off < _ + 4096; omega), if_pos h1]
    show (if u ≤ off - calculate_page_start p ∧ off - calculate_page_start p < u + 24 then
      (listToBuf E).data (off - calculate_page_start p - u)
      else (readAt f (calculate_page_start p) PAGE_SIZE).data (off - calculate_page_start p)) = _
    rw [if_pos (by omega)]
    show E.getD (off - calculate_page_start p - u) 0 = _
    congr 1
    omega
  · rw [if_neg h1]
    by_cases h2 : calculate_page_start p ≤ off ∧ off < calculate_page_start p + 4096
    · rw [if_pos (by show _ ∧ off < _ + 4096; exact h2)]
      show (if u ≤ off - calculate_page_start p ∧ off - calculate_page_start p < u + 24 then
        (listToBuf E).data (off - calculate_page_start p - u)
        else (readAt f (calculate_page_start p) PAGE_SIZE).data (off - calculate_page_start p)) = _
      rw [if_neg (by omega)]
      show f (calculate_page_start p + (off - calculate_page_start p)) = f off
      congr 1
      omega
    · rw [if_neg (by show ¬(_ ∧ off < _ + 4096); exact h2)]

lemma copy2_write (f : File) (p u : Nat) (E E0 : List Nat) (hE : E.length = 24)
    (hE0 : E0.length = 24) (hcap : u + 24 ≤ 4096) (hu : 24 ≤ u) :
    ∃ b1 b2, listCopy (readAt f (calculate_page_start p) PAGE_SIZE) u (listToBuf E) = .ok b1 ∧
      listCopy b1 0 (listToBuf E0) = .ok b2 ∧
      ∀ off, writeAt f (calculate_page_start p) b2 off =
        if calculate_page_start p ≤ off ∧ off < calculate_page_start p + 24 then
          E0.getD (off - calculate_page_start p) 0
        else if calculate_page_start p + u ≤ off ∧ off < calculate_page_start p + u + 24 then
          E.getD (off - (calculate_page_start p + u)) 0
        else f off := by
  have h1 := listCopy_spec2 (readAt f (calculate_page_start p) PAGE_SIZE) u (listToBuf E)
    4096 24 rfl (by simp [listToBuf, hE]) (by omega)
  have h2 := listCopy_spec2
    (⟨fun i => if u ≤ i ∧ i < u + 24 then (listToBuf E).data (i - u)
      else (readAt f (calculate_page_start p) PAGE_SIZE).data i, 4096⟩ : Buf)
    0 (listToBuf E0) 4096 24 rfl (by simp [listToBuf, hE0]) (by omega)
  refine ⟨_, _, h1, h2, ?_⟩
  intro off
  rw [writeAt_eq]
  by_cases hc0 : calculate_page_start p ≤ off ∧ off < calculate_page_start p + 24
  · rw [if_pos (by show _ ∧ off < _ + 4096; omega), if_pos hc0]
    show (if 0 ≤ off - calculate_page_start p ∧ off - calculate_page_start p < 0 + 24 then
      (listToBuf E0).data (off - calculate_page_start p - 0)
      else _) = _
    rw [if_pos (by omega)]
    show E0.getD (off - calculate_page_start p - 0) 0 = _
    congr 1
  · rw [if_neg hc0]
    by_cases hc1 : calculate_page_start p + u ≤ off ∧
        off < calculate_page_start p + u + 24
    · rw [if_pos (by show _ ∧ off < _ + 4096; omega), if_pos hc1]
      show (if 0 ≤ off - calculate_page_start p ∧ off - calculate_page_start p < 0 + 24 then
        (listToBuf E0).data (off - calculate_page_start p - 0)
        else (if u ≤ off - calculate_page_start p ∧ off - calculate_page_start p < u + 24 then
          (listToBuf E).data (off - calculate_page_start p - u)
          else (readAt f (calculate_page_start p) PAGE_SIZE).data (off - calculate_page_start p))) = _
      rw [if_neg (by omega), if_pos (by omega)]
      show E.getD (off - calculate_page_start p - u) 0 = _
      congr 1
      omega
    · rw [if_neg hc1]
      by_cases hc2 : calculate_page_start p ≤ off ∧ off < calculate_page_start p + 4096
      · rw [if_pos (by show _ ∧ off < _ + 4096; exact hc2)]
        show (if 0 ≤ off - calculate_page_start p ∧ off - calculate_page_start p < 0 + 24 then
          (listToBuf E0).data (off - calculate_page_start p - 0)
          else (if u ≤ off - calculate_page_start p ∧ off - calculate_page_start p < u + 24 then
            (listToBuf E).data (off - calculate_page_start p - u)
            else (readAt f (calculate_page_start p) PAGE_SIZE).data (off - calculate_page_start p))) = _
        rw [if_neg (by omega), if_neg (by omega)]
        show f (calculate_page_start p + (off - calculate_page_start p)) = f off
        congr 1
        omega
      · rw [if_neg (by show ¬(_ ∧ off < _ + 4096); exact hc2)]

lemma nodup_get?_inj {α : Type} [DecidableEq α] (l : List α) (h : l.Nodup)
    (i j : Nat) (a : α) (h1 : l.get? i = some a) (h2 : l.get? j = some a) : i = j := by
  induction l generalizing i j with
  | nil => simp at h1
  | cons x t ih =>
    rw [List.nodup_cons] at h
    cases i with
    | zero =>
      cases j with
      | zero => rfl
      | succ j =>
        exfalso
        simp only [List.get?] at h1 h2
        injection h1 with h1
        subst h1
        exact h.1 (List.get?_mem h2)
    | succ i =>
      cases j with
      | zero =>
        exfalso
        simp only [List.get?] at h1 h2
        injection h2 with h2
        subst h2
        exact h.1 (List.get?_mem h1)
      | succ j =>
        simp only [List.get?] at h1 h2
        rw [ih h.2 i j h1 h2]

lemma map_fst_set {α β : Type} (L : List (α × β)) (j : Nat) (a : α) (x : β)
    (h : ∃ b, L.get? j = some (a, b)) :
    (L.set j (a, x)).map Prod.fst = L.map Prod.fst := by
  induction L generalizing j with
  | nil => rfl
  | cons c t ih =>
    cases j with
    | zero =>
      obtain ⟨b, hb⟩ := h
      simp only [List.get?] at hb
      injection hb with hb
      subst hb
      rfl
    | succ j =>
      simp only [List.set, List.map]
      rw [ih j h]

lemma map_snd_set {α β : Type} (L : List (α × β)) (j : Nat) (a : α) (x : β) :
    (L.set j (a, x)).map Prod.snd = (L.map Prod.snd).set j x := by
  induction L generalizing j with
  | nil => rfl
  | cons c t ih =>
    cases j with
    | zero => rfl
    | succ j =>
      simp only [List.set, List.map]
      rw [ih j]

lemma flatten_set_append (L : List (List Nat)) (j : Nat) (l : List Nat) (d : Nat)
    (h : L.get? j = some l) :
    (L.set j (l ++ [d])).flatten.Perm (d :: L.flatten) := by
  induction L generalizing j with
  | nil => simp at h
  | cons x t ih =>
    cases j with
    | zero =>
      simp only [List.get?] at h
      injection h with h
      subst h
      simp only [List.set, List.flatten_cons]
      rw [List.append_assoc]
      exact List.perm_middle.trans (by rfl)
    | succ j =>
      simp only [List.get?] at h
      simp only [List.set, List.flatten_cons]
      exact (List.Perm.append_left x (ih j h)).trans List.perm_middle

lemma chainIds_nodup (S : Abs) (hg : goodState S) : (chainIds S).Nodup := by
  have h := hg.nodup
  rw [allIds_def, List.append_assoc, List.nodup_append] at h
  have h2 := h.2.1
  rw [List.nodup_append] at h2
  exact h2.1

lemma chainNext_cases (S : Abs) (hg : goodState S) (j : Nat) :
    (S.chain.get? (j + 1) = none ∧ chainNext S j = 0) ∨
    (∃ c', S.chain.get? (j + 1) = some c' ∧ chainNext S j = c'.1 ∧ c'.1 ≠ 0 ∧
      c'.1 < S.frontier) := by
  cases hn : S.chain.get? (j + 1) with
  | none =>
    left
    exact ⟨rfl, by unfold chainNext; rw [hn]⟩
  | some c' =>
    right
    refine ⟨c', rfl, by unfold chainNext; rw [hn], ?_, ?_⟩
    · intro h0
      obtain ⟨es, hes⟩ := hg.chain0
      have hmap1 : (chainIds S).get? (j + 1) = some 0 := by
        unfold chainIds
        rw [List.get?_map, hn]
        simp [h0]
      have hmap0 : (chainIds S).get? 0 = some 0 := by
        unfold chainIds
        rw [List.get?_map, hes]
        rfl
      have := nodup_get?_inj _ (chainIds_nodup S hg) 0 (j + 1) 0 hmap0 hmap1
      omega
    · apply hg.bounded
      rw [mem_allIds]
      right
      left
      exact List.mem_map.mpr ⟨c', List.get?_mem hn, rfl⟩

lemma chainIds_bounded (S : Abs) (hg : goodState S) (c : Nat × List Nat)
    (hc : c ∈ S.chain) : c.1 < S.frontier :=
  hg.bounded c.1 (mem_allIds.mpr (Or.inr (Or.inl (List.mem_map.mpr ⟨c, hc, rfl⟩))))

lemma entry_bounded (S : Abs) (hg : goodState S) (c : Nat × List Nat)
    (hc : c ∈ S.chain) (x : Nat) (hx : x ∈ c.2) : x < S.frontier := by
  apply hg.bounded
  rw [mem_allIds]
  right
  right
  unfold entryIds
  rw [List.mem_flatten]
  exact ⟨c.2, List.mem_map.mpr ⟨c, hc, rfl⟩, hx⟩

/-- Parse the own header of chain page `j` from a full-page read. -/
lemma parse_chain_own (S : Abs) (f : File) (hg : goodState S) (hr : PageRepr S f)
    (j : Nat) (c : Nat × List Nat) (hc : S.chain.get? j = some c) :
    pageHeaderFromBytes (bufTake 24 (readAt f (calculate_page_start c.1) PAGE_SIZE)) =
      .ok ⟨c.1, 24 * (1 + c.2.length),
        if chainNext S j = 0 then none else some (chainNext S j), none, none, none⟩ := by
  have hcF : c.1 < S.frontier := chainIds_bounded S hg c (List.get?_mem hc)
  have hnext : chainNext S j < 256 ^ 8 := by
    rcases chainNext_cases S hg j with ⟨-, h⟩ | ⟨c', -, h, -, hlt⟩
    · rw [h]
      positivity
    · rw [h]
      have := hg.fbound
      omega
  apply parse_take
  · exact (by decide : (24:Nat) ≤ 4096)
  · have := hg.fbound
    omega
  · exact hnext
  · have hcap := hg.capacity c (List.get?_mem hc)
    have : (256:Nat) ^ 8 = 18446744073709551616 := by norm_num
    omega
  · intro i hi
    exact hr.chainOwn j c hc i (by rw [hdrBytes_length]; exact hi)

lemma option_getD_if (v : Nat) : (if v = 0 then none else some v).getD 0 = v := by
  by_cases h : v = 0 <;> simp [h]

lemma bytesAt_congr (f f' : File) (s : Nat) (l : List Nat)
    (heq : ∀ off, s ≤ off → off < s + l.length → f' off = f off)
    (hb : bytesAt f s l) : bytesAt f' s l := by
  intro i hi
  rw [heq (s + i) (Nat.le_add_right s i) (by omega), hb i hi]

lemma chainNext_set (S : Abs) (j : Nat) (c : Nat × List Nat) (x : List Nat)
    (hc : S.chain.get? j = some c) (i : Nat) :
    chainNext ⟨S.free, S.frontier, S.chain.set j (c.1, x)⟩ i = chainNext S i := by
  unfold chainNext
  simp only [List.get?_set]
  by_cases hji : j = i + 1
  · subst hji
    rw [if_pos rfl, hc]
    rfl
  · rw [if_neg hji]

/-- Common postcondition of the `alloc_page` chain walk. -/
def AllocPost (S : Abs) (d fuel : Nat) (f : File) (cur : Nat) : Prop :=
  ∃ (hdr : PageHeader) (f' : File) (S' : Abs),
    allocLoop fuel f cur d = .ok (hdr, f') ∧
    PageRepr S' f' ∧ goodState S' ∧
    hdr.id ∉ entryIds S ∧ hdr.id ≠ 0 ∧
    (∀ x, x ∈ entryIds S' ↔ x = hdr.id ∨ x ∈ entryIds S) ∧
    S.frontier ≤ S'.frontier ∧ S'.frontier ≤ S.frontier + 1

/-- Strong form of the room branch: the frontier does not move. -/
def AllocPostEq (S : Abs) (d fuel : Nat) (f : File) (cur : Nat) : Prop :=
  ∃ (hdr : PageHeader) (f' : File) (S' : Abs),
    allocLoop fuel f cur d = .ok (hdr, f') ∧
    PageRepr S' f' ∧ goodState S' ∧
    hdr.id ∉ entryIds S ∧ hdr.id ≠ 0 ∧
    (∀ x, x ∈ entryIds S' ↔ x = hdr.id ∨ x ∈ entryIds S) ∧
    S'.frontier = S.frontier

lemma allocLoop_room (fuel : Nat) (S : Abs) (f : File) (j : Nat)
    (c : Nat × List Nat) (d : Nat)
    (hg : goodState S) (hr : PageRepr S f) (hc : S.chain.get? j = some c)
    (hd : d ∉ allIds S) (hd0 : d ≠ 0) (hdF : d < S.frontier)
    (hroom : c.2.length ≤ 168) (hfuel : 1 ≤ fuel) :
    AllocPostEq S d fuel f c.1 := by
  obtain ⟨fuel, rfl⟩ : ∃ k, fuel = k + 1 := ⟨fuel - 1, by omega⟩
  have hparse := parse_chain_own S f hg hr j c hc
  obtain ⟨b1, b2, hcopy1, hcopy2, hw⟩ := copy2_write f c.1 (24 * (1 + c.2.length))
    (hdrBytes d 0 0) (hdrBytes c.1 (chainNext S j) (24 * (1 + c.2.length) + 24))
    (hdrBytes_length _ _ _) (hdrBytes_length _ _ _) (by omega) (by omega)
  have hfst : (S.chain.set j (c.1, c.2 ++ [d])).map Prod.fst = S.chain.map Prod.fst :=
    map_fst_set S.chain j c.1 (c.2 ++ [d]) ⟨c.2, by rw [hc]⟩
  have hsnd : (S.chain.set j (c.1, c.2 ++ [d])).map Prod.snd =
      (S.chain.map Prod.snd).set j (c.2 ++ [d]) := map_snd_set _ _ _ _
  have hflat : ((S.chain.map Prod.snd).set j (c.2 ++ [d])).flatten.Perm
      (d :: (S.chain.map Prod.snd).flatten) := by
    apply flatten_set_append
    rw [List.get?_map, hc]
    rfl
  have hpermE : (entryIds ⟨S.free, S.frontier, S.chain.set j (c.1, c.2 ++ [d])⟩).Perm
      (d :: entryIds S) := by
    unfold entryIds
    simp only []
    rw [hsnd]
    exact hflat
  have hperm : (allIds ⟨S.free, S.frontier, S.chain.set j (c.1, c.2 ++ [d])⟩).Perm
      (d :: allIds S) := by
    rw [allIds_def, allIds_def]
    simp only []
    rw [hfst, hsnd]
    exact (List.Perm.append_left _ hflat).trans List.perm_middle
  refine ⟨⟨d, 0, none, some c.1, some (24 * (1 + c.2.length)), none⟩,
    writeAt f (calculate_page_start c.1) b2,
    ⟨S.free, S.frontier, S.chain.set j (c.1, c.2 ++ [d])⟩, ?_, ?_, ?_, ?_, ?_, ?_, ?_⟩
  · -- the computation
    simp only [allocLoop, hparse]
    rw [if_pos (by simp only [PAGE_SIZE]; omega : PAGE_SIZE - (24 * (1 + c.2.length)) > 24)]
    simp only [Bind.bind, Except.bind, pageHeaderToBytes_eq, Option.getD_none]
    rw [option_getD_if, hcopy1]
    simp only []
    rw [hcopy2]
  · -- PageRepr of the updated state
    have hcF : c.1 < S.frontier := chainIds_bounded S hg c (List.get?_mem hc)
    have hchainNodup := chainIds_nodup S hg
    constructor
    · -- head
      refine bytesAt_congr f _ 0 _ ?_ hr.head
      intro off h1 h2
      rw [toLeBytes_length] at h2
      rw [hw off, if_neg (by rw [ps_eq]; omega), if_neg (by rw [ps_eq]; omega)]
    · -- free cells
      intro i y hy
      have hy' : S.free.get? i = some y := hy
      have hymem : y ∈ S.free := List.get?_mem hy'
      have hyc : y ≠ c.1 := by
        intro hcEq
        have hnd := hg.nodup
        rw [allIds_def, List.append_assoc, List.nodup_append] at hnd
        exact hnd.2.2 hymem (by
          rw [List.mem_append]
          exact Or.inl (by
            rw [hcEq]
            exact List.mem_map.mpr ⟨c, List.get?_mem hc, rfl⟩))
      refine bytesAt_congr f _ _ _ ?_ (hr.freecells i y hy')
      intro off h1 h2
      rw [toLeBytes_length] at h2
      rw [ps_eq] at h1 h2
      rw [hw off, if_neg (by rw [ps_eq]; omega), if_neg (by rw [ps_eq]; omega)]
    · -- zeros
      intro off hoff
      have hoff' : calculate_page_start S.frontier ≤ off := hoff
      rw [ps_eq] at hoff'
      rw [hw off, if_neg (by rw [ps_eq]; omega), if_neg (by rw [ps_eq]; omega)]
      exact hr.zeros off hoff
    · -- chain own headers
      intro i ci hci
      have hci' : (S.chain.set j (c.1, c.2 ++ [d])).get? i = some ci := hci
      rw [List.get?_set] at hci'
      by_cases hij : j = i
      · subst hij
        rw [if_pos rfl, hc] at hci'
        simp only [Option.map_eq_map, Option.map_some] at hci'
        injection hci' with hci'
        subst hci'
        simp only []
        rw [chainNext_set S j c (c.2 ++ [d]) hc j]
        have hlen : 24 * (1 + (c.2 ++ [d]).length) = 24 * (1 + c.2.length) + 24 := by
          rw [List.length_append]
          simp
          omega
        intro i2 hi2
        rw [hdrBytes_length] at hi2
        rw [hw _, if_pos (by omega)]
        rw [hlen]
        congr 1
        omega
      · rw [if_neg hij] at hci'
        have hpq : ci.1 ≠ c.1 := by
          intro hEq
          apply hij
          have h1 : (chainIds S).get? j = some c.1 := by
            unfold chainIds
            rw [List.get?_map, hc]
            rfl
          have h2 : (chainIds S).get? i = some c.1 := by
            unfold chainIds
            rw [List.get?_map, hci']
            simp [hEq]
          exact nodup_get?_inj _ hchainNodup j i c.1 h1 h2
        have htarget : chainNext ⟨S.free, S.frontier, S.chain.set j (c.1, c.2 ++ [d])⟩ i =
            chainNext S i := chainNext_set S j c (c.2 ++ [d]) hc i
        rw [htarget]
        refine bytesAt_congr f _ _ _ ?_ (hr.chainOwn i ci hci')
        intro off h1 h2
        rw [hdrBytes_length] at h2
        rw [ps_eq] at h1 h2
        rw [hw off, if_neg (by rw [ps_eq]; omega), if_neg (by rw [ps_eq]; omega)]
    · -- chain entries
      intro i ci hci k x hx
      have hci' : (S.chain.set j (c.1, c.2 ++ [d])).get? i = some ci := hci
      rw [List.get?_set] at hci'
      by_cases hij : j = i
      · subst hij
        rw [if_pos rfl, hc] at hci'
        simp only [Option.map_eq_map, Option.map_some] at hci'
        injection hci' with hci'
        subst hci'
        simp only [] at hx ⊢
        by_cases hk : k < c.2.length
        · rw [List.get?_append hk] at hx
          refine bytesAt_congr f _ _ _ ?_ (hr.entries j c hc k x hx)
          intro off h1 h2
          rw [hdrBytes_length] at h2
          rw [ps_eq] at h1 h2
          rw [hw off, if_neg (by rw [ps_eq]; omega), if_neg (by rw [ps_eq]; omega)]
        · rw [List.get?_append_right (Nat.le_of_not_lt hk)] at hx
          have hk0 : k - c.2.length = 0 := by
            by_contra hpos
            have : ([d] : List Nat).get? (k - c.2.length) = none := by
              apply List.get?_eq_none.mpr
              simp
              omega
            rw [this] at hx
            exact Option.noConfusion hx
          rw [hk0] at hx
          simp only [List.get?] at hx
          injection hx with hx
          subst hx
          have hkv : k = c.2.length := by omega
          subst hkv
          intro i2 hi2
          rw [hdrBytes_length] at hi2
          rw [hw _, if_neg (by rw [ps_eq]; omega), if_pos (by rw [ps_eq]; omega)]
          congr 1
          omega
      · rw [if_neg hij] at hci'
        have hpq : ci.1 ≠ c.1 := by
          intro hEq
          apply hij
          have h1 : (chainIds S).get? j = some c.1 := by
            unfold chainIds
            rw [List.get?_map, hc]
            rfl
          have h2 : (chainIds S).get? i = some c.1 := by
            unfold chainIds
            rw [List.get?_map, hci']
            simp [hEq]
          exact nodup_get?_inj _ hchainNodup j i c.1 h1 h2
        have hcapci := hg.capacity ci (List.get?_mem hci')
        have hkb : k < ci.2.length := by
          by_contra hge
          rw [List.get?_eq_none.mpr (by omega)] at hx
          exact Option.noConfusion hx
        refine bytesAt_congr f _ _ _ ?_ (hr.entries i ci hci' k x hx)
        intro off h1 h2
        rw [hdrBytes_length] at h2
        rw [ps_eq] at h1 h2
        rw [hw off, if_neg (by rw [ps_eq]; omega), if_neg (by rw [ps_eq]; omega)]
  · -- goodState of the updated state
    constructor
    · by_cases hj0 : j = 0
      · subst hj0
        obtain ⟨es, hes⟩ := hg.chain0
        have hc0 : c.1 = 0 := by
          rw [hc] at hes
          injection hes with hes
          rw [hes]
        refine ⟨c.2 ++ [d], ?_⟩
        rw [List.get?_set, if_pos rfl, hc]
        simp [hc0]
      · obtain ⟨es, hes⟩ := hg.chain0
        refine ⟨es, ?_⟩
        rw [List.get?_set, if_neg hj0]
        exact hes
    · exact (hperm.nodup_iff).mpr (List.nodup_cons.mpr ⟨fun hcon => hd hcon, hg.nodup⟩)
    · intro x hx
      rcases List.mem_cons.mp (hperm.mem_iff.mp hx) with h | h
      · subst h
        exact hdF
      · exact hg.bounded x h
    · exact hg.fpos
    · exact hg.fbound
    · intro c' hc'
      rcases List.mem_or_eq_of_mem_set hc' with h | h
      · exact hg.capacity c' h
      · subst h
        simp only [List.length_append, List.length_cons, List.length_nil]
        omega
  · -- the returned id is not an existing entry
    intro hcon
    exact hd (mem_allIds.mpr (Or.inr (Or.inr hcon)))
  · exact hd0
  · -- entry ids grow by exactly the returned id
    intro x
    rw [hpermE.mem_iff, List.mem_cons]
  · rfl

lemma entryIds_append_empty (S : Abs) (d : Nat) :
    entryIds ⟨S.free, S.frontier, S.chain ++ [(d, [])]⟩ = entryIds S := by
  unfold entryIds
  simp

lemma chainNext_append_lt (S : Abs) (L : List (Nat × List Nat)) (i : Nat)
    (h : i + 1 < S.chain.length) :
    chainNext ⟨S.free, S.frontier, S.chain ++ L⟩ i = chainNext S i := by
  unfold chainNext
  simp only []
  rw [List.get?_append h]

/-- Appending a fresh empty header page to the end of the chain: layout
after rewriting the old last page's `next` and writing the new page's
own header. -/
lemma extension_step (S : Abs) (f : File) (j : Nat) (c : Nat × List Nat) (d : Nat)
    (hg : goodState S) (hr : PageRepr S f) (hc : S.chain.get? j = some c)
    (hlast : S.chain.get? (j + 1) = none)
    (hd : d ∉ allIds S) (hd0 : d ≠ 0) (hdF : d < S.frontier) :
    ∃ b1, listCopy (readAt f (calculate_page_start c.1) PAGE_SIZE) 0
        (listToBuf (hdrBytes c.1 d (24 * (1 + c.2.length)))) = .ok b1 ∧
      PageRepr ⟨S.free, S.frontier, S.chain ++ [(d, [])]⟩
        (writeAt (writeAt f (calculate_page_start c.1) b1) (calculate_page_start d)
          (listToBuf (hdrBytes d 0 24))) ∧
      goodState ⟨S.free, S.frontier, S.chain ++ [(d, [])]⟩ := by
  have hcF : c.1 < S.frontier := chainIds_bounded S hg c (List.get?_mem hc)
  have hchainNodup := chainIds_nodup S hg
  have hdc : d ≠ c.1 := by
    intro hEq
    exact hd (mem_allIds.mpr (Or.inr (Or.inl
      (hEq ▸ List.mem_map.mpr ⟨c, List.get?_mem hc, rfl⟩))))
  have hjlen : j + 1 = S.chain.length := by
    have h1 : j < S.chain.length := by
      by_contra hge
      rw [List.get?_eq_none.mpr (by omega)] at hc
      exact Option.noConfusion hc
    have h2 : ¬ (j + 1 < S.chain.length) := by
      intro hlt
      rw [List.get?_eq_none] at hlast
      omega
    omega
  obtain ⟨b1, hcopy, hw1⟩ := copy_write f c.1 0 (hdrBytes c.1 d (24 * (1 + c.2.length)))
    (hdrBytes_length _ _ _) (by omega)
  refine ⟨b1, hcopy, ?_, ?_⟩
  · constructor
    · -- head
      refine bytesAt_congr f _ 0 _ ?_ hr.head
      intro off h1 h2
      rw [toLeBytes_length] at h2
      rw [writeAt_eq, if_neg (by simp only [listToBuf, hdrBytes_length, ps_eq]; omega)]
      rw [hw1 off, if_neg (by rw [ps_eq]; omega)]
    · -- free cells
      intro i y hy
      have hy' : S.free.get? i = some y := hy
      have hymem : y ∈ S.free := List.get?_mem hy'
      have hyc : y ≠ c.1 := by
        intro hcEq
        have hnd := hg.nodup
        rw [allIds_def, List.append_assoc, List.nodup_append] at hnd
        exact hnd.2.2 hymem (by
          rw [List.mem_append]
          exact Or.inl (by
            rw [hcEq]
            exact List.mem_map.mpr ⟨c, List.get?_mem hc, rfl⟩))
      have hyd : y ≠ d := fun hEq => hd (mem_allIds.mpr (Or.inl (hEq ▸ hymem)))
      refine bytesAt_congr f _ _ _ ?_ (hr.freecells i y hy')
      intro off h1 h2
      rw [toLeBytes_length] at h2
      rw [ps_eq] at h1 h2
      rw [writeAt_eq, if_neg (by simp only [listToBuf, hdrBytes_length, ps_eq]; omega)]
      rw [hw1 off, if_neg (by rw [ps_eq]; omega)]
    · -- zeros
      intro off hoff
      have hoff' : calculate_page_start S.frontier ≤ off := hoff
      rw [ps_eq] at hoff'
      rw [writeAt_eq, if_neg (by simp only [listToBuf, hdrBytes_length, ps_eq]; omega)]
      rw [hw1 off, if_neg (by rw [ps_eq]; omega)]
      exact hr.zeros off hoff
    · -- chain own headers
      intro i ci hci
      have hci' : (S.chain ++ [(d, ([] : List Nat))]).get? i = some ci := hci
      by_cases hilen : i < S.chain.length
      · rw [List.get?_append hilen] at hci'
        by_cases hij : i = j
        · subst hij
          rw [hc] at hci'
          injection hci' with hci'
          subst hci'
          have hnext : chainNext ⟨S.free, S.frontier, S.chain ++ [(d, [])]⟩ i = d := by
            have hgi : (S.chain ++ [(d, ([] : List Nat))]).get? (i + 1) = some (d, []) := by
              rw [List.get?_append_right (by omega)]
              rw [show i + 1 - S.chain.length = 0 from by omega]
              rfl
            unfold chainNext
            simp only []
            rw [hgi]
          rw [hnext]
          intro i2 hi2
          rw [hdrBytes_length] at hi2
          rw [writeAt_eq, if_neg (by simp only [listToBuf, hdrBytes_length, ps_eq]; omega)]
          rw [hw1 _, if_pos (by omega)]
          congr 1
          omega
        · have hpq : ci.1 ≠ c.1 := by
            intro hEq
            apply hij
            have h1 : (chainIds S).get? j = some c.1 := by
              unfold chainIds
              rw [List.get?_map, hc]
              rfl
            have h2 : (chainIds S).get? i = some c.1 := by
              unfold chainIds
              rw [List.get?_map, hci']
              simp [hEq]
            exact nodup_get?_inj _ hchainNodup i j c.1 h2 h1
          have hpd : ci.1 ≠ d := by
            intro hEq
            exact hd (mem_allIds.mpr (Or.inr (Or.inl
              (hEq ▸ List.mem_map.mpr ⟨ci, List.get?_mem hci', rfl⟩))))
          have hnext : chainNext ⟨S.free, S.frontier, S.chain ++ [(d, [])]⟩ i =
              chainNext S i := chainNext_append_lt S _ i (by omega)
          rw [hnext]
          refine bytesAt_congr f _ _ _ ?_ (hr.chainOwn i ci hci')
          intro off h1 h2
          rw [hdrBytes_length] at h2
          rw [ps_eq] at h1 h2
          rw [writeAt_eq, if_neg (by simp only [listToBuf, hdrBytes_length, ps_eq]; omega)]
          rw [hw1 off, if_neg (by rw [ps_eq]; omega)]
      · -- the new chain page
        rw [List.get?_append_right (by omega)] at hci'
        have hi0 : i - S.chain.length = 0 := by
          by_contra hpos
          rw [List.get?_eq_none.mpr (by simp; omega)] at hci'
          exact Option.noConfusion hci'
        rw [hi0] at hci'
        simp only [List.get?] at hci'
        injection hci' with hci'
        subst hci'
        have hnext : chainNext ⟨S.free, S.frontier, S.chain ++ [(d, [])]⟩ i = 0 := by
          unfold chainNext
          simp only []
          rw [List.get?_eq_none.mpr (by simp; omega)]
        rw [hnext]
        simp only [List.length_nil]
        intro i2 hi2
        rw [hdrBytes_length] at hi2
        rw [writeAt_eq, if_pos (by simp only [listToBuf, hdrBytes_length, ps_eq]; omega)]
        show (hdrBytes d 0 24).getD (calculate_page_start d + i2 - calculate_page_start d) 0 = _
        congr 1
        · omega
    · -- chain entries
      intro i ci hci k x hx
      have hci' : (S.chain ++ [(d, ([] : List Nat))]).get? i = some ci := hci
      by_cases hilen : i < S.chain.length
      · rw [List.get?_append hilen] at hci'
        have hpd : ci.1 ≠ d := by
          intro hEq
          exact hd (mem_allIds.mpr (Or.inr (Or.inl
            (hEq ▸ List.mem_map.mpr ⟨ci, List.get?_mem hci', rfl⟩))))
        have hcapci := hg.capacity ci (List.get?_mem hci')
        have hkb : k < ci.2.length := by
          by_contra hge
          rw [List.get?_eq_none.mpr (by omega)] at hx
          exact Option.noConfusion hx
        by_cases hij : i = j
        · -- entries of the old last page: only its own header was rewritten
          subst hij
          rw [hc] at hci'
          injection hci' with hci'
          subst hci'
          refine bytesAt_congr f _ _ _ ?_ (hr.entries i c hc k x hx)
          intro off h1 h2
          rw [hdrBytes_length] at h2
          rw [ps_eq] at h1 h2
          rw [writeAt_eq, if_neg (by simp only [listToBuf, hdrBytes_length, ps_eq]; omega)]
          rw [hw1 off, if_neg (by rw [ps_eq]; omega)]
        · have hpq : ci.1 ≠ c.1 := by
            intro hEq
            apply hij
            have h1 : (chainIds S).get? j = some c.1 := by
              unfold chainIds
              rw [List.get?_map, hc]
              rfl
            have h2 : (chainIds S).get? i = some c.1 := by
              unfold chainIds
              rw [List.get?_map, hci']
              simp [hEq]
            exact nodup_get?_inj _ hchainNodup i j c.1 h2 h1
          refine bytesAt_congr f _ _ _ ?_ (hr.entries i ci hci' k x hx)
          intro off h1 h2
          rw [hdrBytes_length] at h2
          rw [ps_eq] at h1 h2
          rw [writeAt_eq, if_neg (by simp only [listToBuf, hdrBytes_length, ps_eq]; omega)]
          rw [hw1 off, if_neg (by rw [ps_eq]; omega)]
      · -- the new page has no entries
        rw [List.get?_append_right (by omega)] at hci'
        have hi0 : i - S.chain.length = 0 := by
          by_contra hpos
          rw [List.get?_eq_none.mpr (by simp; omega)] at hci'
          exact Option.noConfusion hci'
        rw [hi0] at hci'
        simp only [List.get?] at hci'
        injection hci' with hci'
        subst hci'
        simp only [] at hx
        rw [List.get?_eq_none.mpr (by simp)] at hx
        exact Option.noConfusion hx
  · -- goodState of the extended state
    have hperm : (allIds ⟨S.free, S.frontier, S.chain ++ [(d, [])]⟩).Perm
        (d :: allIds S) := by
      rw [allIds_def, allIds_def]
      simp only [List.map_append, List.flatten_append, List.map_cons, List.map_nil,
        List.flatten_cons, List.flatten_nil, List.append_nil]
      have h1 : S.free ++ (S.chain.map Prod.fst ++ [d]) ++ (S.chain.map Prod.snd).flatten
          = (S.free ++ S.chain.map Prod.fst) ++
            (d :: (S.chain.map Prod.snd).flatten) := by
        rw [← List.singleton_append]
        simp [List.append_assoc]
      rw [h1]
      exact List.perm_middle
    constructor
    · obtain ⟨es, hes⟩ := hg.chain0
      refine ⟨es, ?_⟩
      show (S.chain ++ [(d, ([] : List Nat))]).get? 0 = some (0, es)
      rw [List.get?_append]
      · exact hes
      · by_contra hle
        rw [List.get?_eq_none.mpr (by omega)] at hes
        exact Option.noConfusion hes
    · exact (hperm.nodup_iff).mpr (List.nodup_cons.mpr ⟨fun hcon => hd hcon, hg.nodup⟩)
    · intro x hx
      rcases List.mem_cons.mp (hperm.mem_iff.mp hx) with h | h
      · subst h
        exact hdF
      · exact hg.bounded x h
    · exact hg.fpos
    · exact hg.fbound
    · intro c' hc'
      rcases List.mem_append.mp hc' with h | h
      · exact hg.capacity c' h
      · rw [List.mem_singleton] at h
        subst h
        simp only [List.length_nil]
        omega

lemma allocLoop_spec :
    ∀ (fuel : Nat) (S : Abs) (f : File) (j : Nat) (c : Nat × List Nat) (d : Nat),
      goodState S → PageRepr S f → S.chain.get? j = some c →
      d ∉ allIds S → d ≠ 0 → d < S.frontier →
      S.frontier + 1 < 256 ^ 8 →
      S.chain.length - j + 2 ≤ fuel →
      AllocPost S d fuel f c.1 := by
  intro fuel
  induction fuel with
  | zero =>
    intro S f j c d _ _ hc _ _ _ _ hfuel
    exfalso
    have : j < S.chain.length := by
      by_contra hge
      rw [List.get?_eq_none.mpr (by omega)] at hc
      exact Option.noConfusion hc
    omega
  | succ n ih =>
    intro S f j c d hg hr hc hd hd0 hdF hbound hfuel
    have hjlt : j < S.chain.length := by
      by_contra hge
      rw [List.get?_eq_none.mpr (by omega)] at hc
      exact Option.noConfusion hc
    by_cases hroom : c.2.length ≤ 168
    · obtain ⟨hdr, f', S', heq, hrep, hgood, hni, hn0, hiff, hfr⟩ :=
        allocLoop_room (n + 1) S f j c d hg hr hc hd hd0 hdF hroom (by omega)
      exact ⟨hdr, f', S', heq, hrep, hgood, hni, hn0, hiff, by omega, by omega⟩
    · have hcap := hg.capacity c (List.get?_mem hc)
      have hn169 : c.2.length = 169 := by omega
      have hparse := parse_chain_own S f hg hr j c hc
      rcases chainNext_cases S hg j with ⟨hnone, hzero⟩ | ⟨c', hsome, hval, hne0, hlt⟩
      · -- last page is full: extend the chain, then allocate on the fresh page
        obtain ⟨b1, hcopy, hrep2, hgood2⟩ :=
          extension_step S f j c d hg hr hc hnone hd hd0 hdF
        obtain ⟨d2, f3, S2, hpop, hrep3, hgood3, hchain3, hd2, hd20, hd2F, hF1, hF2, hsub⟩ :=
          pop_free_spec ⟨S.free, S.frontier, S.chain ++ [(d, [])]⟩
            (writeAt (writeAt f (calculate_page_start c.1) b1) (calculate_page_start d)
              (listToBuf (hdrBytes d 0 24)))
            hgood2 hrep2 hbound
        have hc2 : S2.chain.get? S.chain.length = some (d, []) := by
          rw [hchain3]
          show (S.chain ++ [(d, ([] : List Nat))]).get? S.chain.length = _
          rw [List.get?_append_right (Nat.le_refl _), Nat.sub_self]
          rfl
        obtain ⟨hdr, f', S', heq, hrep', hgood', hni, hn0, hiff, hfr⟩ :=
          allocLoop_room n S2 f3 S.chain.length (d, []) d2 hgood3 hrep3 hc2 hd2 hd20 hd2F
            (by simp) (by omega)
        have hent2 : entryIds S2 = entryIds S := by
          unfold entryIds
          rw [hchain3]
          simp
        refine ⟨hdr, f', S', ?_, hrep', hgood', ?_, hn0, ?_, ?_, ?_⟩
        · simp only [allocLoop, hparse]
          rw [if_neg (by simp only [PAGE_SIZE]; omega)]
          simp only [Bind.bind, Except.bind, pageHeaderToBytes_eq, Option.getD_some]
          rw [if_pos hzero]
          simp only [Option.getD_none]
          rw [hcopy]
          simp only []
          rw [hpop]
          exact heq
        · rw [hent2] at hni
          exact hni
        · intro x
          rw [hiff x, hent2]
        · show S.frontier ≤ S'.frontier
          rw [hfr]
          exact hF1
        · show S'.frontier ≤ S.frontier + 1
          rw [hfr]
          exact hF2
      · -- a further header page exists: walk on
        have hj1 : j + 1 < S.chain.length := by
          by_contra hge
          rw [List.get?_eq_none.mpr (by omega)] at hsome
          exact Option.noConfusion hsome
        obtain ⟨hdr, f', S', heq, hrep', hgood', hni, hn0, hiff, hfr1, hfr2⟩ :=
          ih S f (j + 1) c' d hg hr hsome hd hd0 hdF hbound (by omega)
        refine ⟨hdr, f', S', ?_, hrep', hgood', hni, hn0, hiff, hfr1, hfr2⟩
        simp only [allocLoop, hparse]
        rw [if_neg (by simp only [PAGE_SIZE]; omega)]
        rw [if_neg (by rw [hval]; exact hne0)]
        rw [hval]
        exact heq

/-- `alloc_page` preserves the layout; the returned id is fresh among the
registered entries, and registration adds exactly that id. -/
lemma alloc_page_spec (fuel : Nat) (S : Abs) (f : File)
    (hg : goodState S) (hr : PageRepr S f)
    (hbound : S.frontier + 2 < 256 ^ 8)
    (hfuel : S.chain.length + 2 ≤ fuel) :
    ∃ hdr f' S', alloc_page fuel f = .ok (hdr, f') ∧
      PageRepr S' f' ∧ goodState S' ∧
      hdr.id ∉ entryIds S ∧ hdr.id ≠ 0 ∧
      (∀ x, x ∈ entryIds S' ↔ x = hdr.id ∨ x ∈ entryIds S) ∧
      S.frontier ≤ S'.frontier ∧ S'.frontier ≤ S.frontier + 2 := by
  obtain ⟨d, f2, S1, hpop, hrep1, hgood1, hchain1, hdfresh, hd0, hdF, hF1, hF2, hsub⟩ :=
    pop_free_spec S f hg hr (by omega)
  obtain ⟨es, hes⟩ := hgood1.chain0
  obtain ⟨hdr, f', S', heq, hrep', hgood', hni, hn0, hiff, hfr1, hfr2⟩ :=
    allocLoop_spec fuel S1 f2 0 (0, es) d hgood1 hrep1 hes hdfresh hd0 hdF
      (by omega) (by rw [hchain1]; omega)
  have hent1 : entryIds S1 = entryIds S := by
    unfold entryIds
    rw [hchain1]
  refine ⟨hdr, f', S', ?_, hrep', hgood', ?_, hn0, ?_, by omega, by omega⟩
  · unfold alloc_page
    rw [hpop]
    exact heq
  · rw [hent1] at hni
    exact hni
  · intro x
    rw [hiff x, hent1]

/-- The context-carrying headers that `iterate_headers_from` produces for
the entries of one chain page. -/
def pageCtx (h prev : Nat) : List Nat → Nat → List PageHeader
  | [], _ => []
  | x :: rest, k =>
    ⟨x, 0, none, some h, some (24 * (k + 1)), some prev⟩ :: pageCtx h prev rest (k + 1)

/-- All context-carrying headers of a chain suffix, `prev` being the page
before the suffix. -/
def chainCtx (prev : Nat) : List (Nat × List Nat) → List PageHeader
  | [] => []
  | (h, es) :: rest => pageCtx h prev es 0 ++ chainCtx h rest

/-- The inner collector loop on chain page `j`, starting at slot `k0`. -/
lemma inner_collect (S : Abs) (f : File) (hg : goodState S) (hr : PageRepr S f)
    (j : Nat) (c : Nat × List Nat) (hc : S.chain.get? j = some c) (prev : Nat) :
    ∀ (fuelI k0 : Nat) (acc : List PageHeader), k0 ≤ c.2.length →
      c.2.length - k0 + 1 ≤ fuelI →
      iterateInner (readAt f (calculate_page_start c.1) PAGE_SIZE) c.1 prev
        (24 * (1 + c.2.length)) (fun h st => .ok (false, st.1, st.2 ++ [h]))
        fuelI (24 * (k0 + 1)) (f, acc) =
        .ok (false, f, acc ++ pageCtx c.1 prev (c.2.drop k0) k0) := by
  intro fuelI
  induction fuelI with
  | zero =>
    intro k0 acc h1 h2
    omega
  | succ m ih =>
    intro k0 acc hk0 hfuel
    by_cases hend : k0 = c.2.length
    · subst hend
      simp only [iterateInner]
      rw [if_neg (by omega)]
      rw [List.drop_length]
      simp [pageCtx]
    · have hk0lt : k0 < c.2.length := by omega
      obtain ⟨x, hx⟩ : ∃ x, c.2.get? k0 = some x := by
        cases hx : c.2.get? k0 with
        | none =>
          rw [List.get?_eq_none] at hx
          omega
        | some x => exact ⟨x, rfl⟩
      have hxF : x < S.frontier :=
        entry_bounded S hg c (List.get?_mem hc) x (List.get?_mem hx)
      have hparse : pageHeaderFromBytes (bufTake 24 (bufDrop (24 * (k0 + 1))
          (readAt f (calculate_page_start c.1) PAGE_SIZE))) =
          .ok ⟨x, 0, none, none, none, none⟩ := by
        have h := parse_take (bufDrop (24 * (k0 + 1))
            (readAt f (calculate_page_start c.1) PAGE_SIZE))
          (by
            show 24 ≤ 4096 - 24 * (k0 + 1)
            have hcap := hg.capacity c (List.get?_mem hc)
            omega)
          x 0 0 (by have := hg.fbound; omega) (by positivity) (by positivity)
          (fun i hi => by
            show f (calculate_page_start c.1 + (24 * (k0 + 1) + i)) = _
            rw [← Nat.add_assoc]
            exact hr.entries j c hc k0 x hx i (by rw [hdrBytes_length]; exact hi))
        rw [if_pos rfl] at h
        exact h
      have hdrop : c.2.drop k0 = x :: c.2.drop (k0 + 1) := by
        rw [List.drop_eq_getElem_cons hk0lt]
        congr 1
        have h1 : c.2[k0]? = some x := by
          rw [← List.get?_eq_getElem?]
          exact hx
        rw [List.getElem?_eq_getElem hk0lt] at h1
        injection h1
      have hcap := hg.capacity c (List.get?_mem hc)
      simp only [iterateInner]
      rw [if_pos (by omega : 24 * (k0 + 1) < 24 * (1 + c.2.length))]
      rw [if_pos (by
        show 24 * (k0 + 1) + 24 ≤ 4096
        omega)]
      rw [hparse]
      simp only [Bind.bind, Except.bind, Bool.false_eq_true, if_false]
      rw [show 24 * (k0 + 1) + 24 = 24 * (k0 + 1 + 1) from by ring]
      rw [ih (k0 + 1)
        (acc ++ [(⟨x, 0, none, some c.1, some (24 * (k0 + 1)), some prev⟩ : PageHeader)])
        (by omega) (by omega)]
      rw [hdrop]
      simp [pageCtx, List.append_assoc]

lemma outer_collect (S : Abs) (f : File) (hg : goodState S) (hr : PageRepr S f) :
    ∀ (cnt j : Nat) (c : Nat × List Nat) (prev : Nat) (acc : List PageHeader)
      (fuel : Nat),
      S.chain.get? j = some c →
      S.chain.length - j ≤ cnt →
      S.chain.length - j ≤ fuel →
      iterateOuter (fun h st => .ok (false, st.1, st.2 ++ [h])) fuel c.1 prev 24
        (f, acc) = .ok (f, acc ++ chainCtx prev (S.chain.drop j)) := by
  intro cnt
  induction cnt with
  | zero =>
    intro j c prev acc fuel hc hcnt _
    exfalso
    have : j < S.chain.length := by
      by_contra hge
      rw [List.get?_eq_none.mpr (by omega)] at hc
      exact Option.noConfusion hc
    omega
  | succ m ih =>
    intro j c prev acc fuel hc hcnt hfuel
    have hjlt : j < S.chain.length := by
      by_contra hge
      rw [List.get?_eq_none.mpr (by omega)] at hc
      exact Option.noConfusion hc
    obtain ⟨fl, rfl⟩ : ∃ k, fuel = k + 1 := ⟨fuel - 1, by omega⟩
    have hparse := parse_chain_own S f hg hr j c hc
    have hdropj : S.chain.drop j = c :: S.chain.drop (j + 1) := by
      rw [List.drop_eq_getElem_cons hjlt]
      congr 1
      have h1 : S.chain[j]? = some c := by
        rw [← List.get?_eq_getElem?]
        exact hc
      rw [List.getElem?_eq_getElem hjlt] at h1
      injection h1
    have hinner := inner_collect S f hg hr j c hc prev (24 * (1 + c.2.length) + 1)
      0 acc (by omega) (by omega)
    rw [show 24 * (0 + 1) = 24 from rfl] at hinner
    simp only [iterateOuter, hparse]
    simp only [Bind.bind, Except.bind]
    rw [hinner]
    simp only [Bool.false_eq_true, if_false, List.drop_zero]
    rcases chainNext_cases S hg j with ⟨hnone, hzero⟩ | ⟨c', hsome, hval, hne0, hlt⟩
    · rw [if_pos hzero]
      have hdropj1 : S.chain.drop (j + 1) = [] := by
        apply List.drop_eq_nil_of_le
        rw [List.get?_eq_none] at hnone
        omega
      rw [hdropj, hdropj1]
      simp [chainCtx]
    · rw [if_neg (by rw [hval]; exact hne0), hval]
      simp only []
      have hj1 : j + 1 < S.chain.length := by
        by_contra hge
        rw [List.get?_eq_none.mpr (by omega)] at hsome
        exact Option.noConfusion hsome
      rw [ih (j + 1) c' c.1 (acc ++ pageCtx c.1 prev c.2 0) fl hsome
        (by omega) (by omega)]
      rw [hdropj]
      simp [chainCtx, List.append_assoc]

/-- The previous-page id that `iterate_headers_from` reports for the
entries of page `j` of a chain suffix, `p` being the page before it. -/
def ctxPrev (p : Nat) : List (Nat × List Nat) → Nat → Nat
  | _, 0 => p
  | [], _ + 1 => 0
  | c :: rest, j + 1 => ctxPrev c.1 rest j

lemma entryIds_nodup (S : Abs) (hg : goodState S) : (entryIds S).Nodup := by
  have h := hg.nodup
  rw [allIds_def, List.nodup_append] at h
  exact h.2.1

lemma pageCtx_find_none (h p id : Nat) :
    ∀ (es : List Nat) (k0 : Nat), id ∉ es →
      (pageCtx h p es k0).find? (fun hh => decide (hh.id = id)) = none := by
  intro es
  induction es with
  | nil => intro k0 _; rfl
  | cons y t ih =>
    intro k0 hnm
    simp only [pageCtx, List.find?_cons]
    have hy : y ≠ id := fun hEq => hnm (hEq ▸ List.mem_cons_self y t)
    rw [show (decide ((⟨y, 0, none, some h, some (24 * (k0 + 1)), some p⟩ :
      PageHeader).id = id)) = false from by simp [hy]]
    exact ih (k0 + 1) (fun hc => hnm (List.mem_cons_of_mem y hc))

lemma pageCtx_find_some (h p id : Nat) :
    ∀ (es : List Nat) (k0 k : Nat), es.Nodup → es.get? k = some id →
      (pageCtx h p es k0).find? (fun hh => decide (hh.id = id)) =
        some ⟨id, 0, none, some h, some (24 * (k0 + k + 1)), some p⟩ := by
  intro es
  induction es with
  | nil => intro k0 k _ hk; simp at hk
  | cons y t ih =>
    intro k0 k hnd hk
    rw [List.nodup_cons] at hnd
    simp only [pageCtx, List.find?_cons]
    cases k with
    | zero =>
      simp only [List.get?] at hk
      injection hk with hk
      subst hk
      rw [show (decide ((⟨y, 0, none, some h, some (24 * (k0 + 1)), some p⟩ :
        PageHeader).id = y)) = true from by simp]
    | succ k =>
      simp only [List.get?] at hk
      have hy : y ≠ id := by
        intro hEq
        exact hnd.1 (hEq ▸ List.get?_mem hk)
      rw [show (decide ((⟨y, 0, none, some h, some (24 * (k0 + 1)), some p⟩ :
        PageHeader).id = id)) = false from by simp [hy]]
      rw [ih (k0 + 1) k hnd.2 hk]
      show _ = some ⟨id, 0, none, some h, some (24 * (k0 + (k + 1) + 1)), some p⟩
      rw [show k0 + 1 + k + 1 = k0 + (k + 1) + 1 from by omega]

lemma pageCtx_mem_id (h p : Nat) :
    ∀ (es : List Nat) (k0 : Nat) (hh : PageHeader),
      hh ∈ pageCtx h p es k0 → hh.id ∈ es := by
  intro es
  induction es with
  | nil => intro k0 hh hmem; simp [pageCtx] at hmem
  | cons y t ih =>
    intro k0 hh hmem
    simp only [pageCtx] at hmem
    rcases List.mem_cons.mp hmem with h1 | h1
    · subst h1
      exact List.mem_cons_self y t
    · exact List.mem_cons_of_mem y (ih (k0 + 1) hh h1)

lemma chainCtx_find (id : Nat) :
    ∀ (L : List (Nat × List Nat)) (p j : Nat) (c : Nat × List Nat) (k : Nat),
      ((L.map Prod.snd).flatten).Nodup →
      L.get? j = some c → c.2.get? k = some id →
      (chainCtx p L).find? (fun hh => decide (hh.id = id)) =
        some ⟨id, 0, none, some c.1, some (24 * (k + 1)), some (ctxPrev p L j)⟩ := by
  intro L
  induction L with
  | nil => intro p j c k _ hj _; simp at hj
  | cons hd rest ih =>
    intro p j c k hnd hj hk
    obtain ⟨h, es⟩ := hd
    simp only [List.map_cons, List.flatten_cons] at hnd
    rw [List.nodup_append] at hnd
    simp only [chainCtx, List.find?_append]
    cases j with
    | zero =>
      simp only [List.get?] at hj
      injection hj with hj
      subst hj
      rw [pageCtx_find_some h p id es 0 k hnd.1 hk]
      rw [show (0 : Nat) + k + 1 = k + 1 from by omega]
      rfl
    | succ j =>
      simp only [List.get?] at hj
      have hidmem : id ∈ (rest.map Prod.snd).flatten := by
        rw [List.mem_flatten]
        exact ⟨c.2, List.mem_map.mpr ⟨c, List.get?_mem hj, rfl⟩, List.get?_mem hk⟩
      have hnotes : id ∉ es := fun hc => hnd.2.2 hc hidmem
      rw [pageCtx_find_none h p id es 0 hnotes]
      rw [Option.none_or]
      exact ih h j c k hnd.2.1 hj hk

lemma foldStop_find_id (x : Nat) :
    ∀ (L : List PageHeader) (b : Option PageHeader),
      (foldStop (fun h => decide (h.id = x))
        (fun h b => if h.id = x then some h else b) L b).2 =
      (L.find? (fun h => decide (h.id = x))).or b := by
  intro L
  induction L with
  | nil => intro b; simp [foldStop]
  | cons h t ih =>
    intro b
    by_cases hc : h.id = x
    · simp [foldStop, List.find?_cons, hc]
    · simp only [foldStop, List.find?_cons]
      rw [if_neg hc]
      have hd : (decide (h.id = x)) = false := by simp [hc]
      rw [hd]
      simp only [Bool.false_eq_true, if_false]
      exact ih b

/-- `is_page` on a well-laid-out store finds exactly the registered entry
with the requested id, with the iteration context `dealloc_page` needs. -/
lemma is_page_spec (S : Abs) (f : File) (hg : goodState S) (hr : PageRepr S f)
    (fuel : Nat) (hfuel : S.chain.length ≤ fuel)
    (j : Nat) (c : Nat × List Nat) (k : Nat) (x : Nat)
    (hc : S.chain.get? j = some c) (hk : c.2.get? k = some x) :
    is_page fuel f x = .ok (some ⟨x, 0, none, some c.1, some (24 * (k + 1)),
      some (ctxPrev 0 S.chain j)⟩) := by
  obtain ⟨es0, hes0⟩ := hg.chain0
  have hcol : iterateOuter (fun h st => .ok (false, st.1, st.2 ++ [h])) fuel
      0 0 24 (f, ([] : List PageHeader)) = .ok (f, chainCtx 0 S.chain) := by
    have h := outer_collect S f hg hr S.chain.length 0 (0, es0) 0 [] fuel hes0
      (by omega) (by omega)
    rw [List.drop_zero, List.nil_append] at h
    exact h
  have hg2 : ∀ (h : PageHeader) (st : File × Option PageHeader),
      (if h.id = x then
        (.ok (true, st.1, some h) : Except String (Bool × File × Option PageHeader))
      else .ok (false, st.1, st.2)) =
      .ok (decide (h.id = x), st.1, if h.id = x then some h else st.2) := by
    intro h st
    by_cases hc2 : h.id = x <;> simp [hc2]
  obtain ⟨hres1, L, hres2, hrun⟩ := iterateOuter_pure_rel
    (fun h => decide (h.id = x)) (fun h b => if h.id = x then some h else b)
    (fun h st => if h.id = x then .ok (true, st.1, some h) else .ok (false, st.1, st.2))
    hg2 fuel 0 0 24 f [] (f, chainCtx 0 S.chain) hcol
  have hL : chainCtx 0 S.chain = L := by simpa using hres2
  subst hL
  show (do
    let r ← iterateOuter
      (fun current_header st =>
        if current_header.id = x then .ok (true, st.1, some current_header)
        else .ok (false, st.1, st.2)) fuel 0 0 24 (f, (none : Option PageHeader))
    (.ok r.2 : Except String (Option PageHeader))) = _
  rw [hrun none]
  simp only [Bind.bind, Except.bind]
  rw [foldStop_find_id x (chainCtx 0 S.chain) none, Option.or_none]
  rw [chainCtx_find x S.chain 0 j c k (entryIds_nodup S hg) hc hk]

lemma nodup_not_mem_eraseIdx {α : Type} (l : List α) :
    ∀ (k : Nat) (x : α), l.Nodup → l.get? k = some x → x ∉ l.eraseIdx k := by
  induction l with
  | nil => intro k x _ hk; simp at hk
  | cons y t ih =>
    intro k x hnd hk
    rw [List.nodup_cons] at hnd
    cases k with
    | zero =>
      simp only [List.get?] at hk
      injection hk with hk
      subst hk
      simpa [List.eraseIdx] using hnd.1
    | succ k =>
      simp only [List.get?] at hk
      simp only [List.eraseIdx]
      intro hmem
      rcases List.mem_cons.mp hmem with h1 | h1
      · subst h1
        exact hnd.1 (List.get?_mem hk)
      · exact ih k x hnd.2 hk h1

lemma not_mem_flatten_eraseIdx {α : Type} :
    ∀ (M : List (List α)) (j : Nat) (l : List α) (x : α),
      M.flatten.Nodup → M.get? j = some l → x ∈ l → x ∉ (M.eraseIdx j).flatten := by
  intro M
  induction M with
  | nil => intro j l x _ hj _; simp at hj
  | cons y t ih =>
    intro j l x hnd hj hx
    simp only [List.flatten_cons, List.nodup_append] at hnd
    cases j with
    | zero =>
      simp only [List.get?] at hj
      injection hj with hj
      subst hj
      simp only [List.eraseIdx]
      intro hmem
      exact hnd.2.2 hx hmem
    | succ j =>
      simp only [List.get?] at hj
      simp only [List.eraseIdx, List.flatten_cons]
      intro hmem
      rcases List.mem_append.mp hmem with h1 | h1
      · exact hnd.2.2 h1 (by
          rw [List.mem_flatten]
          exact ⟨l, List.get?_mem hj, hx⟩)
      · exact ih j l x hnd.2.1 hj hx h1

lemma not_mem_flatten_set {α : Type} :
    ∀ (M : List (List α)) (j k : Nat) (l : List α) (x : α),
      M.flatten.Nodup → M.get? j = some l → l.get? k = some x →
      x ∉ (M.set j (l.eraseIdx k)).flatten := by
  intro M
  induction M with
  | nil => intro j k l x _ hj _; simp at hj
  | cons y t ih =>
    intro j k l x hnd hj hk
    simp only [List.flatten_cons, List.nodup_append] at hnd
    cases j with
    | zero =>
      simp only [List.get?] at hj
      injection hj with hj
      subst hj
      simp only [List.set, List.flatten_cons]
      intro hmem
      rcases List.mem_append.mp hmem with h1 | h1
      · exact nodup_not_mem_eraseIdx _ k x hnd.1 hk h1
      · exact hnd.2.2 (List.get?_mem hk) h1
    | succ j =>
      simp only [List.get?] at hj
      simp only [List.set, List.flatten_cons]
      intro hmem
      rcases List.mem_append.mp hmem with h1 | h1
      · exact hnd.2.2 h1 (by
          rw [List.mem_flatten]
          exact ⟨l, List.get?_mem hj, List.get?_mem hk⟩)
      · exact ih j k l x hnd.2.1 hj hk h1

lemma flatten_eraseIdx_sublist {α : Type} :
    ∀ (M : List (List α)) (j : Nat), ((M.eraseIdx j).flatten).Sublist M.flatten := by
  intro M
  induction M with
  | nil => intro j; simp
  | cons y t ih =>
    intro j
    cases j with
    | zero =>
      simp only [List.eraseIdx, List.flatten_cons]
      exact List.sublist_append_right y t.flatten
    | succ j =>
      simp only [List.eraseIdx, List.flatten_cons]
      exact List.Sublist.append (List.Sublist.refl y) (ih j)

lemma flatten_set_eraseIdx_sublist {α : Type} :
    ∀ (M : List (List α)) (j k : Nat) (l : List α), M.get? j = some l →
      ((M.set j (l.eraseIdx k)).flatten).Sublist M.flatten := by
  intro M
  induction M with
  | nil => intro j k l hj; simp at hj
  | cons y t ih =>
    intro j k l hj
    cases j with
    | zero =>
      simp only [List.get?] at hj
      injection hj with hj
      subst hj
      simp only [List.set, List.flatten_cons]
      exact List.Sublist.append (List.eraseIdx_sublist _ k) (List.Sublist.refl _)
    | succ j =>
      simp only [List.get?] at hj
      simp only [List.set, List.flatten_cons]
      exact List.Sublist.append (List.Sublist.refl y) (ih j k l hj)

lemma map_fst_eraseIdx {α β : Type} :
    ∀ (L : List (α × β)) (j : Nat),
      (L.eraseIdx j).map Prod.fst = (L.map Prod.fst).eraseIdx j := by
  intro L
  induction L with
  | nil => intro j; simp
  | cons c t ih =>
    intro j
    cases j with
    | zero => rfl
    | succ j =>
      simp only [List.eraseIdx, List.map_cons]
      rw [ih j]

lemma map_snd_eraseIdx {α β : Type} :
    ∀ (L : List (α × β)) (j : Nat),
      (L.eraseIdx j).map Prod.snd = (L.map Prod.snd).eraseIdx j := by
  intro L
  induction L with
  | nil => intro j; simp
  | cons c t ih =>
    intro j
    cases j with
    | zero => rfl
    | succ j =>
      simp only [List.eraseIdx, List.map_cons]
      rw [ih j]

lemma ctxPrev_succ (p : Nat) :
    ∀ (L : List (Nat × List Nat)) (j : Nat),
      ctxPrev p L (j + 1) = (match L.get? j with | some c => c.1 | none => 0) := by
  intro L
  induction L generalizing p with
  | nil => intro j; rfl
  | cons c0 rest ih =>
    intro j
    cases j with
    | zero => simp [ctxPrev]
    | succ j =>
      show ctxPrev c0.1 rest (j + 1) = _
      rw [ih c0.1 j]
      rfl

/-- The drained header page (entry at `off` removed, own header `E0`
copied over the front) written back: pointwise effect on the file.  The
last 24 bytes of the page are left as they were. -/
lemma writeAt_buf_eq (f : File) (s : Nat) (dfun : Nat → Nat) (n o : Nat) :
    writeAt f s ⟨dfun, n⟩ o = if s ≤ o ∧ o < s + n then dfun (o - s) else f o := rfl

lemma listToBuf_data (l : List Nat) (k : Nat) : (listToBuf l).data k = l.getD k 0 := rfl

/-- The drained header page (entry at `off` removed, own header `E0`
copied over the front) written back: pointwise effect on the file.  The
last 24 bytes of the page are left as they were. -/
lemma drain_write (f : File) (p off : Nat) (E0 : List Nat) (hE0 : E0.length = 24)
    (hoff24 : 24 ≤ off) (hoff : off + 24 ≤ 4096) :
    ∃ dr, listCopy (bufAppend (bufTake off (readAt f (calculate_page_start p) PAGE_SIZE))
        (bufDrop (off + 24) (readAt f (calculate_page_start p) PAGE_SIZE))) 0
        (listToBuf E0) = .ok dr ∧
      ∀ o, writeAt f (calculate_page_start p) dr o =
        if calculate_page_start p ≤ o ∧ o < calculate_page_start p + 24 then
          E0.getD (o - calculate_page_start p) 0
        else if calculate_page_start p + off ≤ o ∧ o < calculate_page_start p + 4072 then
          f (o + 24)
        else f o := by
  have hsize : (bufAppend (bufTake off (readAt f (calculate_page_start p) PAGE_SIZE))
      (bufDrop (off + 24) (readAt f (calculate_page_start p) PAGE_SIZE))).size = 4072 := by
    show min off 4096 + (4096 - (off + 24)) = 4072
    omega
  have h := listCopy_spec2 _ 0 (listToBuf E0) 4072 24 hsize (by simp [listToBuf, hE0])
    (by omega)
  refine ⟨_, h, ?_⟩
  intro o
  rw [writeAt_buf_eq]
  have hdata : ∀ i, (bufAppend (bufTake off (readAt f (calculate_page_start p) PAGE_SIZE))
      (bufDrop (off + 24) (readAt f (calculate_page_start p) PAGE_SIZE))).data i =
      if i < off then f (calculate_page_start p + i)
      else f (calculate_page_start p + i + 24) := by
    intro i
    simp only [bufAppend, bufTake, bufDrop, readAt, PAGE_SIZE]
    have hmin : off ⊓ 4096 = off := inf_eq_left.mpr (by omega)
    rw [hmin]
    by_cases hio : i < off
    · rw [if_pos hio, if_pos hio]
    · rw [if_neg hio, if_neg hio]
      exact congrArg f (by omega)
  by_cases hc0 : calculate_page_start p ≤ o ∧ o < calculate_page_start p + 24
  · rw [if_pos (by omega), if_pos hc0, if_pos (by omega), listToBuf_data]
    congr 1
  · rw [if_neg hc0]
    by_cases hc1 : calculate_page_start p + off ≤ o ∧ o < calculate_page_start p + 4072
    · rw [if_pos (by omega), if_pos hc1, if_neg (by omega), hdata, if_neg (by omega)]
      congr 1
      omega
    · rw [if_neg hc1]
      by_cases hc2 : calculate_page_start p ≤ o ∧ o < calculate_page_start p + 4072
      · rw [if_pos (by omega), if_neg (by omega), hdata, if_pos (by omega)]
        congr 1
        omega
      · rw [if_neg (by omega)]

lemma eraseIdx_get? {α : Type} (l : List α) (j i : Nat) :
    (l.eraseIdx j).get? i = if i < j then l.get? i else l.get? (i + 1) := by
  rw [List.get?_eq_getElem?, List.getElem?_eraseIdx]
  by_cases h : i < j
  · rw [if_pos h, if_pos h, ← List.get?_eq_getElem?]
  · rw [if_neg h, if_neg h, ← List.get?_eq_getElem?]

lemma dealloc_page_spec (fuel : Nat) (S : Abs) (f : File)
    (hg : goodState S) (hr : PageRepr S f)
    (j : Nat) (c : Nat × List Nat) (k : Nat) (x : Nat)
    (hc : S.chain.get? j = some c) (hk : c.2.get? k = some x)
    (hfuel : 1 ≤ fuel) :
    ∃ f' S', dealloc_page fuel f
        ⟨x, 0, none, some c.1, some (24 * (k + 1)), some (ctxPrev 0 S.chain j)⟩ =
        .ok f' ∧
      PageRepr S' f' ∧ goodState S' ∧ S'.frontier = S.frontier := by
  obtain ⟨fl, rfl⟩ : ∃ m, fuel = m + 1 := ⟨fuel - 1, by omega⟩
  have hcmem : c ∈ S.chain := List.get?_mem hc
  have hkn : k < c.2.length := by
    by_contra hge
    rw [List.get?_eq_none.mpr (by omega)] at hk
    exact Option.noConfusion hk
  have hcap := hg.capacity c hcmem
  have hcF : c.1 < S.frontier := chainIds_bounded S hg c hcmem
  have hxF : x < S.frontier := entry_bounded S hg c hcmem x (List.get?_mem hk)
  have hchainNodup := chainIds_nodup S hg
  have hentNodup := entryIds_nodup S hg
  have hxent : x ∈ entryIds S := by
    unfold entryIds
    rw [List.mem_flatten]
    exact ⟨c.2, List.mem_map.mpr ⟨c, hcmem, rfl⟩, List.get?_mem hk⟩
  have hnd := hg.nodup
  rw [allIds_def, List.append_assoc, List.nodup_append] at hnd
  have hnd2 := hnd.2.1
  rw [List.nodup_append] at hnd2
  have hxfree : x ∉ S.free := fun hm => hnd.2.2 hm (by
    rw [List.mem_append]
    exact Or.inr hxent)
  have hxchain : x ∉ chainIds S := fun hm => hnd2.2.2 hm hxent
  have hx0 : x ≠ 0 := by
    intro h0
    obtain ⟨es0, hes0⟩ := hg.chain0
    apply hxchain
    rw [h0]
    exact List.mem_map.mpr ⟨(0, es0), List.get?_mem hes0, rfl⟩
  -- parse of the drained page's own header
  have hparsed : pageHeaderFromBytes (bufTake 24
      (bufAppend (bufTake (24 * (k + 1)) (readAt f (calculate_page_start c.1) PAGE_SIZE))
        (bufDrop (24 * (k + 1) + 24) (readAt f (calculate_page_start c.1) PAGE_SIZE)))) =
      .ok ⟨c.1, 24 * (1 + c.2.length),
        if chainNext S j = 0 then none else some (chainNext S j), none, none, none⟩ := by
    have hnextlt : chainNext S j < 256 ^ 8 := by
      rcases chainNext_cases S hg j with ⟨-, h⟩ | ⟨c', -, h, -, hlt⟩
      · rw [h]
        positivity
      · rw [h]
        have := hg.fbound
        omega
    apply parse_take
    · show 24 ≤ 24 * (k + 1) ⊓ 4096 + (4096 - (24 * (k + 1) + 24))
      have h1 : 24 * (k + 1) ⊓ 4096 = 24 * (k + 1) := inf_eq_left.mpr (by omega)
      omega
    · have := hg.fbound
      omega
    · exact hnextlt
    · have : (256 : Nat) ^ 8 = 18446744073709551616 := by norm_num
      omega
    · intro i hi
      simp only [bufAppend, bufTake, bufDrop, readAt, PAGE_SIZE]
      rw [if_pos (by simp only [lt_inf_iff]; omega)]
      exact hr.chainOwn j c hc i (by rw [hdrBytes_length]; exact hi)
  have hidinj : ∀ i1 i2 c1 c2, S.chain.get? i1 = some c1 → S.chain.get? i2 = some c2 →
      c1.1 = c2.1 → i1 = i2 := by
    intro i1 i2 c1 c2 h1 h2 he
    apply nodup_get?_inj (chainIds S) hchainNodup i1 i2 c1.1
    · show (S.chain.map Prod.fst).get? i1 = some c1.1
      rw [List.get?_map, h1]
      rfl
    · show (S.chain.map Prod.fst).get? i2 = some c1.1
      rw [List.get?_map, h2, he]
      exact rfl
  simp only [dealloc_page]
  simp only [Bind.bind, Except.bind]
  rw [if_pos (by show 24 * (k + 1) + 24 ≤ 4096; omega)]
  rw [hparsed]
  simp only []
  by_cases hsp : 24 * (1 + c.2.length) - 24 ≤ 24 ∧ c.1 ≠ 0
  · -- splice: the page held a single entry and is not the first header page
    rw [if_pos hsp]
    obtain ⟨hsp1, hsp2⟩ := hsp
    have hn1 : c.2.length = 1 := by omega
    have hj0 : j ≠ 0 := by
      intro h0
      subst h0
      obtain ⟨es0, hes0⟩ := hg.chain0
      rw [hc] at hes0
      injection hes0 with hes0
      exact hsp2 (by rw [hes0])
    obtain ⟨j', rfl⟩ : ∃ j2, j = j2 + 1 := ⟨j - 1, by omega⟩
    have hjlen : j' + 1 < S.chain.length := by
      by_contra hge
      rw [List.get?_eq_none.mpr (by omega)] at hc
      exact Option.noConfusion hc
    obtain ⟨cprev, hcp⟩ : ∃ cp, S.chain.get? j' = some cp :=
      ⟨_, List.get?_eq_get (by omega)⟩
    have hprevmem : cprev ∈ S.chain := List.get?_mem hcp
    have hpF : cprev.1 < S.frontier := chainIds_bounded S hg cprev hprevmem
    have hpcap := hg.capacity cprev hprevmem
    have hprevchain : cprev.1 ∈ chainIds S := List.mem_map.mpr ⟨cprev, hprevmem, rfl⟩
    have hprevEq : ctxPrev 0 S.chain (j' + 1) = cprev.1 := by
      rw [ctxPrev_succ, hcp]
    rw [hprevEq]
    have hpparse := parse_chain_own S f hg hr j' cprev hcp
    rw [hpparse]
    simp only []
    have hbuf : pageHeaderToBytes (⟨cprev.1, 24 * (1 + cprev.2.length),
        if chainNext S (j' + 1) = 0 then none else some (chainNext S (j' + 1)),
        none, none, none⟩ : PageHeader) =
        listToBuf (hdrBytes cprev.1 (chainNext S (j' + 1)) (24 * (1 + cprev.2.length))) := by
      rw [pageHeaderToBytes_eq]
      show listToBuf (hdrBytes cprev.1
        ((if chainNext S (j' + 1) = 0 then none
          else some (chainNext S (j' + 1))).getD 0) (24 * (1 + cprev.2.length))) = _
      rw [option_getD_if]
    rw [hbuf]
    -- layout of the spliced state
    have hnextMid : ∀ i, chainNext ⟨S.free, S.frontier, S.chain.eraseIdx (j' + 1)⟩ i =
        if i + 1 < j' + 1 then chainNext S i else chainNext S (i + 1) := by
      intro i
      unfold chainNext
      rw [eraseIdx_get?]
      by_cases h : i + 1 < j' + 1
      · rw [if_pos h, if_pos h]
      · rw [if_neg h, if_neg h]
    have hreprMid : PageRepr ⟨S.free, S.frontier, S.chain.eraseIdx (j' + 1)⟩
        (writeAt f (calculate_page_start cprev.1)
          (listToBuf (hdrBytes cprev.1 (chainNext S (j' + 1))
            (24 * (1 + cprev.2.length))))) := by
      constructor
      · apply bytesAt_writeAt_disjoint
        · simp only [listToBuf, hdrBytes_length, toLeBytes_length, ps_eq]
          omega
        · exact hr.head
      · intro j2 y hy
        replace hy : S.free.get? j2 = some y := hy
        have hymem : y ∈ S.free := List.get?_mem hy
        have hyne : y ≠ cprev.1 := by
          intro he
          apply hnd.2.2 hymem
          rw [List.mem_append]
          left
          rw [he]
          exact hprevchain
        show bytesAt _ (calculate_page_start y)
          (toLeBytes 8 (S.free.getD (j2 + 1) S.frontier))
        apply bytesAt_writeAt_disjoint
        · simp only [listToBuf, hdrBytes_length, toLeBytes_length, ps_eq]
          omega
        · exact hr.freecells j2 y hy
      · intro off hoff
        have hoff' : S.frontier * 4096 + 8 ≤ off := by
          have h2 : calculate_page_start S.frontier ≤ off := hoff
          rw [ps_eq] at h2
          exact h2
        rw [writeAt_eq, if_neg (by simp only [listToBuf, hdrBytes_length, ps_eq]; omega)]
        exact hr.zeros off hoff
      · intro i ci hci
        replace hci : (S.chain.eraseIdx (j' + 1)).get? i = some ci := hci
        rw [eraseIdx_get?] at hci
        rw [hnextMid i]
        by_cases hij : i < j' + 1
        · rw [if_pos hij] at hci
          by_cases hij' : i + 1 < j' + 1
          · rw [if_pos hij']
            have hine : ci.1 ≠ cprev.1 := by
              intro he
              have := hidinj i j' ci cprev hci hcp he
              omega
            have hcap' := hg.capacity ci (List.get?_mem hci)
            apply bytesAt_writeAt_disjoint
            · simp only [listToBuf, hdrBytes_length, ps_eq]
              omega
            · exact hr.chainOwn i ci hci
          · have hieq : i = j' := by omega
            subst hieq
            rw [hcp] at hci
            injection hci with hci
            subst hci
            rw [if_neg hij']
            exact bytesAt_listToBuf_write f _ _
        · rw [if_neg hij] at hci
          rw [if_neg (by omega)]
          have hine : ci.1 ≠ cprev.1 := by
            intro he
            have := hidinj (i + 1) j' ci cprev hci hcp he
            omega
          have hcap' := hg.capacity ci (List.get?_mem hci)
          apply bytesAt_writeAt_disjoint
          · simp only [listToBuf, hdrBytes_length, ps_eq]
            omega
          · exact hr.chainOwn (i + 1) ci hci
      · intro i ci hci k2 y hy2
        replace hci : (S.chain.eraseIdx (j' + 1)).get? i = some ci := hci
        rw [eraseIdx_get?] at hci
        have hk2 : k2 < ci.2.length := by
          by_contra hge
          rw [List.get?_eq_none.mpr (by omega)] at hy2
          exact Option.noConfusion hy2
        by_cases hij : i < j' + 1
        · rw [if_pos hij] at hci
          have hcap' := hg.capacity ci (List.get?_mem hci)
          by_cases hieq : i = j'
          · subst hieq
            rw [hcp] at hci
            injection hci with hci
            subst hci
            apply bytesAt_writeAt_disjoint
            · simp only [listToBuf, hdrBytes_length, ps_eq]
              omega
            · exact hr.entries i cprev hcp k2 y hy2
          · have hine : ci.1 ≠ cprev.1 := fun he => hieq (hidinj i j' ci cprev hci hcp he)
            apply bytesAt_writeAt_disjoint
            · simp only [listToBuf, hdrBytes_length, ps_eq]
              omega
            · exact hr.entries i ci hci k2 y hy2
        · rw [if_neg hij] at hci
          have hcap' := hg.capacity ci (List.get?_mem hci)
          have hine : ci.1 ≠ cprev.1 := by
            intro he
            have := hidinj (i + 1) j' ci cprev hci hcp he
            omega
          apply bytesAt_writeAt_disjoint
          · simp only [listToBuf, hdrBytes_length, ps_eq]
            omega
          · exact hr.entries (i + 1) ci hci k2 y hy2
    have hsubC : ((S.chain.eraseIdx (j' + 1)).map Prod.fst).Sublist
        (S.chain.map Prod.fst) := by
      rw [map_fst_eraseIdx]
      exact List.eraseIdx_sublist _ _
    have hsubE : (((S.chain.eraseIdx (j' + 1)).map Prod.snd).flatten).Sublist
        ((S.chain.map Prod.snd).flatten) := by
      rw [map_snd_eraseIdx]
      exact flatten_eraseIdx_sublist _ _
    have hsubA : (allIds ⟨S.free, S.frontier, S.chain.eraseIdx (j' + 1)⟩).Sublist
        (allIds S) := by
      rw [allIds_def, allIds_def]
      exact ((List.Sublist.refl _).append hsubC).append hsubE
    have hgoodMid : goodState ⟨S.free, S.frontier, S.chain.eraseIdx (j' + 1)⟩ := by
      obtain ⟨es0, hes0⟩ := hg.chain0
      have hchain0' : (S.chain.eraseIdx (j' + 1)).get? 0 = some (0, es0) := by
        rw [eraseIdx_get?, if_pos (by omega : (0 : Nat) < j' + 1)]
        exact hes0
      refine ⟨⟨es0, hchain0'⟩, hg.nodup.sublist hsubA,
        fun y hy => hg.bounded y (hsubA.subset hy), hg.fpos, hg.fbound, ?_⟩
      intro c' hc'
      exact hg.capacity c' ((List.eraseIdx_sublist _ _).subset hc')
    have hxnotMid : x ∉ allIds ⟨S.free, S.frontier, S.chain.eraseIdx (j' + 1)⟩ := by
      intro hmem
      rcases mem_allIds.mp hmem with h1 | h1 | h1
      · exact hxfree h1
      · exact hxchain (hsubC.subset h1)
      · have hM : (S.chain.map Prod.snd).get? (j' + 1) = some c.2 := by
          rw [List.get?_map, hc]
          rfl
        have h1' : x ∈ ((S.chain.map Prod.snd).eraseIdx (j' + 1)).flatten := by
          rw [← map_snd_eraseIdx]
          exact h1
        exact not_mem_flatten_eraseIdx _ _ _ _ (entryIds_nodup S hg) hM
          (List.get?_mem hk) h1'
    obtain ⟨hrepF, hgoodF⟩ := push_free_spec ⟨S.free, S.frontier, S.chain.eraseIdx (j' + 1)⟩
      _ x hgoodMid hreprMid hxnotMid hx0 hxF
    exact ⟨_, ⟨x :: S.free, S.frontier, S.chain.eraseIdx (j' + 1)⟩, rfl, hrepF, hgoodF, rfl⟩
  · -- general case: rewrite the drained page in place
    rw [if_neg hsp]
    have hbufD : pageHeaderToBytes (⟨c.1, 24 * (1 + c.2.length) - 24,
        if chainNext S j = 0 then none else some (chainNext S j),
        none, none, none⟩ : PageHeader) =
        listToBuf (hdrBytes c.1 (chainNext S j) (24 * (1 + c.2.length) - 24)) := by
      rw [pageHeaderToBytes_eq]
      show listToBuf (hdrBytes c.1
        ((if chainNext S j = 0 then none else some (chainNext S j)).getD 0)
        (24 * (1 + c.2.length) - 24)) = _
      rw [option_getD_if]
    obtain ⟨dr, hcopy, hw⟩ := drain_write f c.1 (24 * (k + 1))
      (hdrBytes c.1 (chainNext S j) (24 * (1 + c.2.length) - 24))
      (hdrBytes_length _ _ _) (by omega) (by omega)
    rw [hbufD, hcopy]
    simp only []
    have hc1chain : c.1 ∈ chainIds S := List.mem_map.mpr ⟨c, hcmem, rfl⟩
    have hlenE : (c.2.eraseIdx k).length = c.2.length - 1 :=
      List.length_eraseIdx_of_lt hkn
    have hset_get : ∀ i, (S.chain.set j (c.1, c.2.eraseIdx k)).get? i =
        if j = i then some (c.1, c.2.eraseIdx k) else S.chain.get? i := by
      intro i
      simp only [List.get?_set]
      by_cases hji : j = i
      · rw [if_pos hji, if_pos hji]
        subst hji
        rw [hc]
        rfl
      · rw [if_neg hji, if_neg hji]
    have hnext_set : ∀ i,
        chainNext ⟨S.free, S.frontier, S.chain.set j (c.1, c.2.eraseIdx k)⟩ i =
          chainNext S i := chainNext_set S j c (c.2.eraseIdx k) hc
    have hout : ∀ o, (o < calculate_page_start c.1 ∨
        calculate_page_start c.1 + 4072 ≤ o) →
        writeAt f (calculate_page_start c.1) dr o = f o := by
      intro o ho
      rw [hw o, if_neg (by omega), if_neg (by omega)]
    have houtB : ∀ s l, (s + List.length l ≤ calculate_page_start c.1 ∨
        calculate_page_start c.1 + 4072 ≤ s) →
        bytesAt f s l → bytesAt (writeAt f (calculate_page_start c.1) dr) s l := by
      intro s l hdis hb
      exact bytesAt_congr f _ s l (fun o ho1 ho2 => hout o (by omega)) hb
    have hreprMid : PageRepr ⟨S.free, S.frontier, S.chain.set j (c.1, c.2.eraseIdx k)⟩
        (writeAt f (calculate_page_start c.1) dr) := by
      constructor
      · exact houtB 0 _ (by rw [toLeBytes_length, ps_eq]; omega) hr.head
      · intro j2 y hy
        replace hy : S.free.get? j2 = some y := hy
        have hymem : y ∈ S.free := List.get?_mem hy
        have hyne : y ≠ c.1 := by
          intro he
          apply hnd.2.2 hymem
          rw [List.mem_append]
          left
          rw [he]
          exact hc1chain
        show bytesAt _ (calculate_page_start y)
          (toLeBytes 8 (S.free.getD (j2 + 1) S.frontier))
        exact houtB _ _ (by rw [toLeBytes_length, ps_eq, ps_eq]; omega)
          (hr.freecells j2 y hy)
      · intro off hoff
        have hoff2 : S.frontier * 4096 + 8 ≤ off := by
          have h2 : calculate_page_start S.frontier ≤ off := hoff
          rw [ps_eq] at h2
          exact h2
        rw [hout off (by rw [ps_eq]; omega)]
        exact hr.zeros off hoff
      · intro i ci hci
        replace hci : (S.chain.set j (c.1, c.2.eraseIdx k)).get? i = some ci := hci
        rw [hset_get i] at hci
        rw [hnext_set i]
        by_cases hji : j = i
        · subst hji
          rw [if_pos rfl] at hci
          injection hci with hci
          subst hci
          show bytesAt _ (calculate_page_start c.1)
            (hdrBytes c.1 (chainNext S j) (24 * (1 + (c.2.eraseIdx k).length)))
          rw [hlenE, show 24 * (1 + (c.2.length - 1)) = 24 * (1 + c.2.length) - 24
            from by omega]
          intro i2 hi2
          rw [hdrBytes_length] at hi2
          rw [hw, if_pos (by omega)]
          rw [show calculate_page_start c.1 + i2 - calculate_page_start c.1 = i2
            from by omega]
        · rw [if_neg hji] at hci
          have hcimem : ci ∈ S.chain := List.get?_mem hci
          have hcap' := hg.capacity ci hcimem
          have hine : ci.1 ≠ c.1 := fun he => hji ((hidinj i j ci c hci hc he).symm)
          exact houtB _ _ (by rw [hdrBytes_length, ps_eq, ps_eq]; omega)
            (hr.chainOwn i ci hci)
      · intro i ci hci k2 y hy2
        replace hci : (S.chain.set j (c.1, c.2.eraseIdx k)).get? i = some ci := hci
        rw [hset_get i] at hci
        by_cases hji : j = i
        · subst hji
          rw [if_pos rfl] at hci
          injection hci with hci
          subst hci
          replace hy2 : (c.2.eraseIdx k).get? k2 = some y := hy2
          have hk2 : k2 < (c.2.eraseIdx k).length := by
            by_contra hge
            rw [List.get?_eq_none.mpr (by omega)] at hy2
            exact Option.noConfusion hy2
          rw [eraseIdx_get?] at hy2
          rw [hlenE] at hk2
          show bytesAt _ (calculate_page_start c.1 + 24 * (k2 + 1)) (hdrBytes y 0 0)
          by_cases hkk : k2 < k
          · rw [if_pos hkk] at hy2
            refine bytesAt_congr f _ _ _ (fun o ho1 ho2 => ?_) (hr.entries j c hc k2 y hy2)
            rw [hdrBytes_length] at ho2
            rw [hw o, if_neg (by omega), if_neg (by omega)]
          · rw [if_neg hkk] at hy2
            intro i2 hi2
            rw [hdrBytes_length] at hi2
            rw [hw, if_neg (by omega), if_pos (by omega)]
            have hE := hr.entries j c hc (k2 + 1) y hy2 i2 (by rw [hdrBytes_length]; omega)
            rw [← hE]
            exact congrArg f (by omega)
        · rw [if_neg hji] at hci
          have hcimem : ci ∈ S.chain := List.get?_mem hci
          have hcap' := hg.capacity ci hcimem
          have hk2 : k2 < ci.2.length := by
            by_contra hge
            rw [List.get?_eq_none.mpr (by omega)] at hy2
            exact Option.noConfusion hy2
          have hine : ci.1 ≠ c.1 := fun he => hji ((hidinj i j ci c hci hc he).symm)
          exact houtB _ _ (by rw [hdrBytes_length, ps_eq, ps_eq]; omega)
            (hr.entries i ci hci k2 y hy2)
    have hchain_eq : (S.chain.set j (c.1, c.2.eraseIdx k)).map Prod.fst =
        S.chain.map Prod.fst :=
      map_fst_set S.chain j c.1 (c.2.eraseIdx k) ⟨c.2, by rw [hc]⟩
    have hEsub : ((S.chain.set j (c.1, c.2.eraseIdx k)).map Prod.snd).flatten.Sublist
        ((S.chain.map Prod.snd).flatten) := by
      rw [map_snd_set]
      exact flatten_set_eraseIdx_sublist (S.chain.map Prod.snd) j k c.2
        (by rw [List.get?_map, hc]; rfl)
    have hsubA : (allIds ⟨S.free, S.frontier,
        S.chain.set j (c.1, c.2.eraseIdx k)⟩).Sublist (allIds S) := by
      rw [allIds_def, allIds_def, hchain_eq]
      exact ((List.Sublist.refl _).append (List.Sublist.refl _)).append hEsub
    have hgoodMid : goodState ⟨S.free, S.frontier,
        S.chain.set j (c.1, c.2.eraseIdx k)⟩ := by
      refine ⟨?_, hg.nodup.sublist hsubA,
        fun y hy => hg.bounded y (hsubA.subset hy), hg.fpos, hg.fbound, ?_⟩
      · by_cases hj0 : j = 0
        · subst hj0
          obtain ⟨es0, hes0⟩ := hg.chain0
          rw [hc] at hes0
          injection hes0 with hes0
          refine ⟨c.2.eraseIdx k, ?_⟩
          rw [hset_get 0, if_pos rfl, show c.1 = 0 from by rw [hes0]]
        · obtain ⟨es0, hes0⟩ := hg.chain0
          refine ⟨es0, ?_⟩
          rw [hset_get 0, if_neg hj0]
          exact hes0
      · intro c' hc'
        rcases List.mem_or_eq_of_mem_set hc' with h1 | h1
        · exact hg.capacity c' h1
        · subst h1
          show 24 * (1 + (c.2.eraseIdx k).length) ≤ 4096
          rw [hlenE]
          omega
    have hxnotMid : x ∉ allIds ⟨S.free, S.frontier,
        S.chain.set j (c.1, c.2.eraseIdx k)⟩ := by
      intro hmem
      rcases mem_allIds.mp hmem with h1 | h1 | h1
      · exact hxfree h1
      · have h1' : x ∈ S.chain.map Prod.fst := by
          rw [← hchain_eq]
          exact h1
        exact hxchain h1'
      · have h1' : x ∈ ((S.chain.map Prod.snd).set j (c.2.eraseIdx k)).flatten := by
          rw [← map_snd_set]
          exact h1
        exact not_mem_flatten_set (S.chain.map Prod.snd) j k c.2 x (entryIds_nodup S hg)
          (by rw [List.get?_map, hc]; rfl) hk h1'
    obtain ⟨hrepF, hgoodF⟩ := push_free_spec
      ⟨S.free, S.frontier, S.chain.set j (c.1, c.2.eraseIdx k)⟩
      _ x hgoodMid hreprMid hxnotMid hx0 hxF
    exact ⟨_, ⟨x :: S.free, S.frontier, S.chain.set j (c.1, c.2.eraseIdx k)⟩,
      rfl, hrepF, hgoodF, rfl⟩

lemma pageCtx_mem_shape (h p : Nat) :
    ∀ (es : List Nat) (k0 : Nat) (hh : PageHeader), hh ∈ pageCtx h p es k0 →
      ∃ k, es.get? k = some hh.id ∧
        hh = ⟨hh.id, 0, none, some h, some (24 * (k0 + k + 1)), some p⟩ := by
  intro es
  induction es with
  | nil =>
    intro k0 hh hmem
    simp [pageCtx] at hmem
  | cons y t ih =>
    intro k0 hh hmem
    simp only [pageCtx] at hmem
    rcases List.mem_cons.mp hmem with h1 | h1
    · subst h1
      refine ⟨0, rfl, ?_⟩
      rw [show k0 + 0 + 1 = k0 + 1 from by omega]
    · obtain ⟨k, hk, hsh⟩ := ih (k0 + 1) hh h1
      refine ⟨k + 1, hk, ?_⟩
      rw [show k0 + (k + 1) + 1 = k0 + 1 + k + 1 from by omega]
      exact hsh

lemma chainCtx_mem_shape :
    ∀ (L : List (Nat × List Nat)) (p : Nat) (hh : PageHeader), hh ∈ chainCtx p L →
      ∃ j c k, L.get? j = some c ∧ c.2.get? k = some hh.id ∧
        hh = ⟨hh.id, 0, none, some c.1, some (24 * (k + 1)), some (ctxPrev p L j)⟩ := by
  intro L
  induction L with
  | nil =>
    intro p hh hmem
    simp [chainCtx] at hmem
  | cons hd rest ih =>
    intro p hh hmem
    obtain ⟨h, es⟩ := hd
    simp only [chainCtx] at hmem
    rcases List.mem_append.mp hmem with h1 | h1
    · obtain ⟨k, hk, hsh⟩ := pageCtx_mem_shape h p es 0 hh h1
      refine ⟨0, (h, es), k, rfl, hk, ?_⟩
      rw [show (24 : Nat) * (k + 1) = 24 * (0 + k + 1) from by omega]
      exact hsh
    · obtain ⟨j, c, k, hj, hk, hsh⟩ := ih h hh h1
      exact ⟨j + 1, c, k, hj, hk, hsh⟩

/-- The result of an `is_page` run on a well-laid-out store is the first
context header of the chain with the requested id. -/
lemma is_page_run (S : Abs) (f : File) (hg : goodState S) (hr : PageRepr S f)
    (fuel : Nat) (hfuel : S.chain.length ≤ fuel) (x : Nat) :
    is_page fuel f x =
      .ok ((chainCtx 0 S.chain).find? (fun hh => decide (hh.id = x))) := by
  obtain ⟨es0, hes0⟩ := hg.chain0
  have hcol : iterateOuter (fun h st => .ok (false, st.1, st.2 ++ [h])) fuel
      0 0 24 (f, ([] : List PageHeader)) = .ok (f, chainCtx 0 S.chain) := by
    have h := outer_collect S f hg hr S.chain.length 0 (0, es0) 0 [] fuel hes0
      (by omega) (by omega)
    rw [List.drop_zero, List.nil_append] at h
    exact h
  have hg2 : ∀ (h : PageHeader) (st : File × Option PageHeader),
      (if h.id = x then
        (.ok (true, st.1, some h) : Except String (Bool × File × Option PageHeader))
      else .ok (false, st.1, st.2)) =
      .ok (decide (h.id = x), st.1, if h.id = x then some h else st.2) := by
    intro h st
    by_cases hc2 : h.id = x <;> simp [hc2]
  obtain ⟨hres1, L, hres2, hrun⟩ := iterateOuter_pure_rel
    (fun h => decide (h.id = x)) (fun h b => if h.id = x then some h else b)
    (fun h st => if h.id = x then .ok (true, st.1, some h) else .ok (false, st.1, st.2))
    hg2 fuel 0 0 24 f [] (f, chainCtx 0 S.chain) hcol
  have hL : chainCtx 0 S.chain = L := by simpa using hres2
  subst hL
  show (do
    let r ← iterateOuter
      (fun current_header st =>
        if current_header.id = x then .ok (true, st.1, some current_header)
        else .ok (false, st.1, st.2)) fuel 0 0 24 (f, (none : Option PageHeader))
    (.ok r.2 : Except String (Option PageHeader))) = _
  rw [hrun none]
  simp only [Bind.bind, Except.bind]
  rw [foldStop_find_id x (chainCtx 0 S.chain) none, Option.or_none]

lemma except_bind_error {β γ : Type} (e : String) (k : β → Except String γ) :
    Bind.bind (Except.error e : Except String β) k = Except.error e := rfl

lemma except_bind_ok {β γ : Type} (b : β) (k : β → Except String γ) :
    Bind.bind (Except.ok b : Except String β) k = k b := rfl

lemma allocLoop_mono : ∀ (fuel : Nat) (f : File) (cur d : Nat) (r : PageHeader × File),
    allocLoop fuel f cur d = .ok r → allocLoop (fuel + 1) f cur d = .ok r := by
  intro fuel
  induction fuel with
  | zero =>
    intro f cur d r h
    exact Except.noConfusion h
  | succ fuel ih =>
    intro f cur d r h
    simp only [allocLoop] at h
    simp only [allocLoop]
    revert h
    cases hp : pageHeaderFromBytes
        (bufTake 24 (readAt f (calculate_page_start cur) PAGE_SIZE)) with
    | error e =>
      intro h
      exact h
    | ok own =>
      simp only []
      by_cases hroom : PAGE_SIZE - own.used > 24
      · simp only [if_pos hroom]
        intro h
        exact h
      · simp only [if_neg hroom]
        cases hn : own.next with
        | some nxt =>
          intro h
          have h2 := ih f nxt d r h
          simp only [allocLoop] at h2
          exact h2
        | none =>
          cases hcopy : listCopy (readAt f (calculate_page_start cur) PAGE_SIZE) 0
              (pageHeaderToBytes ⟨own.id, own.used, some d, own.header_page_id,
                own.header_offset, own.previous_page_id⟩) with
          | error e =>
            intro h
            rw [except_bind_error] at h
            rw [except_bind_error]
            exact h
          | ok b1 =>
            intro h
            rw [except_bind_ok] at h
            rw [except_bind_ok]
            have h2 := ih _ _ _ r h
            simp only [allocLoop] at h2
            exact h2

lemma allocLoop_mono_add (k : Nat) :
    ∀ (fuel : Nat) (f : File) (cur d : Nat) (r : PageHeader × File),
      allocLoop fuel f cur d = .ok r → allocLoop (fuel + k) f cur d = .ok r := by
  induction k with
  | zero =>
    intro fuel f cur d r h
    exact h
  | succ k ih =>
    intro fuel f cur d r h
    exact allocLoop_mono (fuel + k) f cur d r (ih fuel f cur d r h)

lemma alloc_page_mono_add (k fuel : Nat) (f : File) (r : PageHeader × File)
    (h : alloc_page fuel f = .ok r) : alloc_page (fuel + k) f = .ok r :=
  allocLoop_mono_add k fuel (pop_free f).2 0 (pop_free f).1 r h

lemma iterateOuter_mono {α : Type}
    (g : PageHeader → File × α → Except String (Bool × File × α)) :
    ∀ (fuel : Nat) (cur prev off : Nat) (st : File × α) (r : File × α),
      iterateOuter g fuel cur prev off st = .ok r →
      iterateOuter g (fuel + 1) cur prev off st = .ok r := by
  intro fuel
  induction fuel with
  | zero =>
    intro cur prev off st r h
    exact Except.noConfusion h
  | succ fuel ih =>
    intro cur prev off st r h
    simp only [iterateOuter] at h
    simp only [iterateOuter]
    revert h
    cases hp : pageHeaderFromBytes
        (bufTake 24 (readAt st.1 (calculate_page_start cur) PAGE_SIZE)) with
    | error e =>
      intro h
      exact h
    | ok own =>
      simp only []
      cases hi : iterateInner (readAt st.1 (calculate_page_start cur) PAGE_SIZE)
          cur prev own.used g (own.used + 1) off st with
      | error e =>
        intro h
        rw [except_bind_error] at h
        rw [except_bind_error]
        exact h
      | ok rr =>
        intro h
        rw [except_bind_ok] at h
        rw [except_bind_ok]
        by_cases hb : rr.1
        · rw [if_pos hb] at h ⊢
          exact h
        · rw [if_neg hb] at h ⊢
          revert h
          cases hn : own.next with
          | some nxt =>
            intro h
            have h2 := ih nxt cur 24 rr.2 r h
            simp only [iterateOuter] at h2
            exact h2
          | none =>
            intro h
            exact h

lemma iterateOuter_mono_add {α : Type} (k : Nat)
    (g : PageHeader → File × α → Except String (Bool × File × α)) :
    ∀ (fuel : Nat) (cur prev off : Nat) (st : File × α) (r : File × α),
      iterateOuter g fuel cur prev off st = .ok r →
      iterateOuter g (fuel + k) cur prev off st = .ok r := by
  induction k with
  | zero =>
    intro fuel cur prev off st r h
    exact h
  | succ k ih =>
    intro fuel cur prev off st r h
    exact iterateOuter_mono g (fuel + k) cur prev off st r (ih fuel cur prev off st r h)

lemma is_page_mono_add (k fuel : Nat) (f : File) (x : Nat) (out : Option PageHeader)
    (h : is_page fuel f x = .ok out) : is_page (fuel + k) f x = .ok out := by
  have hform : ∀ (m : Nat), is_page m f x = Except.bind (iterateOuter
      (fun current_header st =>
        if current_header.id = x then .ok (true, st.1, some current_header)
        else .ok (false, st.1, st.2)) m 0 0 24 (f, (none : Option PageHeader)))
      (fun r => .ok r.2) := fun m => rfl
  rw [hform] at h
  rw [hform]
  revert h
  cases hrun : iterateOuter (fun current_header st =>
      if current_header.id = x then .ok (true, st.1, some current_header)
      else .ok (false, st.1, st.2)) fuel 0 0 24 (f, (none : Option PageHeader)) with
  | error e =>
    intro h
    exact Except.noConfusion h
  | ok rr =>
    intro h
    rw [iterateOuter_mono_add k _ fuel 0 0 24 (f, (none : Option PageHeader)) rr hrun]
    exact h

/-- The freshly initialized store lays out the empty abstract state. -/
lemma initFile_repr : PageRepr ⟨[], 1, [(0, [])]⟩ initFile := by
  constructor
  · show bytesAt initFile 0 (toLeBytes 8 1)
    apply bytesAt_writeAt_disjoint
    · simp only [pageHeaderToBytes_eq, listToBuf, hdrBytes_length, toLeBytes_length,
        HEAD_SIZE]
      omega
    · exact bytesAt_listToBuf_write _ _ _
  · intro j y hy
    replace hy : ([] : List Nat).get? j = some y := hy
    simp at hy
  · intro off hoff
    have hoff2 : calculate_page_start 1 ≤ off := hoff
    rw [ps_eq] at hoff2
    show writeAt (writeAt (fun _ => 0) 0 (listToBuf (toLeBytes 8 1)))
      HEAD_SIZE (pageHeaderToBytes ⟨0, 24, none, none, none, none⟩) off = 0
    rw [writeAt_eq, if_neg (by
      simp only [pageHeaderToBytes_eq, listToBuf, hdrBytes_length, HEAD_SIZE]
      omega)]
    rw [writeAt_eq, if_neg (by
      simp only [listToBuf, toLeBytes_length]
      omega)]
  · intro j c hc
    cases j with
    | zero =>
      replace hc : some ((0 : Nat), ([] : List Nat)) = some c := hc
      injection hc with hc
      subst hc
      show bytesAt initFile (calculate_page_start 0) (hdrBytes 0 0 24)
      exact bytesAt_listToBuf_write (writeAt (fun _ => 0) 0 (listToBuf (toLeBytes 8 1)))
        HEAD_SIZE (hdrBytes 0 0 24)
    | succ j =>
      replace hc : (none : Option (Nat × List Nat)) = some c := hc
      exact Option.noConfusion hc
  · intro j c hc k y hk
    cases j with
    | zero =>
      replace hc : some ((0 : Nat), ([] : List Nat)) = some c := hc
      injection hc with hc
      subst hc
      replace hk : ([] : List Nat).get? k = some y := hk
      simp at hk
    | succ j =>
      replace hc : (none : Option (Nat × List Nat)) = some c := hc
      exact Option.noConfusion hc

lemma initFile_good : goodState ⟨[], 1, [(0, [])]⟩ := by
  refine ⟨⟨[], rfl⟩, by decide, ?_, by decide, by norm_num, ?_⟩
  · intro y hy
    have h0 : allIds ⟨[], 1, [(0, [])]⟩ = [0] := rfl
    rw [h0, List.mem_singleton] at hy
    subst hy
    decide
  · intro c' hc'
    replace hc' : c' ∈ [((0 : Nat), ([] : List Nat))] := hc'
    rw [List.mem_singleton] at hc'
    subst hc'
    decide

/-- The reachable files: a freshly initialized store followed by any finite
sequence of successful `alloc_page` calls and `dealloc_page` calls fed a
header the store itself reports via `is_page`.  The index counts the steps. -/
inductive Reach : Nat → File → Prop where
  | init : Reach 0 initFile
  | alloc (n : Nat) (f : File) (fuel : Nat) (hdr : PageHeader) (f2 : File) :
      Reach n f → alloc_page fuel f = .ok (hdr, f2) → Reach (n + 1) f2
  | dealloc (n : Nat) (f : File) (fuelI fuelD pid : Nat) (hdr : PageHeader)
      (f2 : File) : Reach n f → is_page fuelI f pid = .ok (some hdr) →
      dealloc_page fuelD f hdr = .ok f2 → Reach (n + 1) f2

/-- Any reachable file is laid out per a well-formed abstract state whose
frontier is bounded by the step count. -/
lemma reach_invariant (n : Nat) (f : File) (h : Reach n f) :
    2 * n + 3 < 256 ^ 8 →
    ∃ S : Abs, PageRepr S f ∧ goodState S ∧ S.frontier ≤ 2 * n + 1 := by
  induction h with
  | init =>
    intro hb
    exact ⟨⟨[], 1, [(0, [])]⟩, initFile_repr, initFile_good, by decide⟩
  | alloc n f fuel hdr f2 hre halloc ih =>
    intro hb
    obtain ⟨S, hrep, hgood, hfr⟩ := ih (by omega)
    obtain ⟨hdr0, f0, S2, heq, hrep2, hgood2, hfresh, hne0, hiff, hfr1, hfr2⟩ :=
      alloc_page_spec (fuel + (S.chain.length + 2)) S f hgood hrep (by omega) (by omega)
    have hlift := alloc_page_mono_add (S.chain.length + 2) fuel f (hdr, f2) halloc
    rw [heq] at hlift
    injection hlift with hlift
    injection hlift with hh hf
    subst hf
    exact ⟨S2, hrep2, hgood2, by omega⟩
  | dealloc n f fuelI fuelD pid hdr f2 hre hisp hdeal ih =>
    intro hb
    obtain ⟨S, hrep, hgood, hfr⟩ := ih (by omega)
    have hlift := is_page_mono_add S.chain.length fuelI f pid (some hdr) hisp
    have hrun := is_page_run S f hgood hrep (fuelI + S.chain.length) (by omega) pid
    rw [hrun] at hlift
    injection hlift with hfind
    have hmem := List.mem_of_find?_eq_some hfind
    obtain ⟨j, c, k, hc, hk, hshape⟩ := chainCtx_mem_shape S.chain 0 hdr hmem
    obtain ⟨fd, rfl⟩ : ∃ m, fuelD = m + 1 := by
      cases fuelD with
      | zero => exact Except.noConfusion hdeal
      | succ m => exact ⟨m, rfl⟩
    obtain ⟨f0, S2, hdeq, hrep2, hgood2, hfr2⟩ :=
      dealloc_page_spec (fd + 1) S f hgood hrep j c k hdr.id hc hk (by omega)
    rw [hshape, hdeq] at hdeal
    injection hdeal with hdeal
    subst hdeal
    exact ⟨S2, hrep2, hgood2, by omega⟩

/-- A run of successive `alloc_page` calls, returning the allocated ids. -/
def allocSeq (f : File) : List Nat → Except String (List Nat × File)
  | [] => .ok ([], f)
  | fuel :: rest =>
    match alloc_page fuel f with
    | .error e => .error e
    | .ok (hdr, f2) =>
      match allocSeq f2 rest with
      | .error e => .error e
      | .ok (ids, f3) => .ok (hdr.id :: ids, f3)

/-- Successive `alloc_page` calls on a well-laid-out store return pairwise
distinct, previously unregistered ids. -/
lemma allocSeq_spec : ∀ (fuels : List Nat) (S : Abs) (f : File),
    goodState S → PageRepr S f →
    S.frontier + 2 * fuels.length + 2 < 256 ^ 8 →
    ∀ ids f3, allocSeq f fuels = .ok (ids, f3) →
      ∃ S3, PageRepr S3 f3 ∧ goodState S3 ∧
        (∀ y, y ∈ entryIds S → y ∈ entryIds S3) ∧
        (∀ i, i ∈ ids → i ∈ entryIds S3) ∧
        (∀ i, i ∈ ids → i ∉ entryIds S) ∧
        ids.Nodup ∧ S3.frontier ≤ S.frontier + 2 * fuels.length := by
  intro fuels
  induction fuels with
  | nil =>
    intro S f hgood hrep hbound ids f3 hseq
    simp only [allocSeq] at hseq
    injection hseq with hseq
    injection hseq with h1 h2
    subst h1
    subst h2
    exact ⟨S, hrep, hgood, fun y hy => hy, fun i hi => absurd hi (List.not_mem_nil i),
      fun i hi => absurd hi (List.not_mem_nil i), List.nodup_nil, by omega⟩
  | cons fuel rest ih =>
    intro S f hgood hrep hbound ids f3 hseq
    simp only [List.length_cons] at hbound
    simp only [allocSeq] at hseq
    revert hseq
    cases halloc : alloc_page fuel f with
    | error e =>
      intro hseq
      exact Except.noConfusion hseq
    | ok pr =>
      obtain ⟨hdr, f1⟩ := pr
      simp only []
      cases hrest : allocSeq f1 rest with
      | error e =>
        intro hseq
        exact Except.noConfusion hseq
      | ok pr2 =>
        obtain ⟨ids1, ff⟩ := pr2
        simp only []
        intro hseq
        injection hseq with hseq
        injection hseq with h1 h2
        subst h1
        subst h2
        obtain ⟨hdr0, f0, S1, heq, hrep1, hgood1, hfresh, hne0, hiff, hfr1, hfr2⟩ :=
          alloc_page_spec (fuel + (S.chain.length + 2)) S f hgood hrep
            (by omega) (by omega)
        have hlift := alloc_page_mono_add (S.chain.length + 2) fuel f (hdr, f1) halloc
        rw [heq] at hlift
        injection hlift with hlift
        injection hlift with hh hf
        subst hh
        subst hf
        obtain ⟨S3, hrep3, hgood3, hgrow, hin, hnotin, hnodup1, hfr3⟩ :=
          ih S1 f0 hgood1 hrep1 (by omega) ids1 ff hrest
        refine ⟨S3, hrep3, hgood3, ?_, ?_, ?_, ?_, ?_⟩
        · exact fun y hy => hgrow y ((hiff y).mpr (Or.inr hy))
        · intro i hi
          rcases List.mem_cons.mp hi with h1 | h1
          · subst h1
            exact hgrow _ ((hiff _).mpr (Or.inl rfl))
          · exact hin i h1
        · intro i hi
          rcases List.mem_cons.mp hi with h1 | h1
          · subst h1
            exact hfresh
          · intro hmem
            exact hnotin i h1 ((hiff i).mpr (Or.inr hmem))
        · rw [List.nodup_cons]
          refine ⟨?_, hnodup1⟩
          intro hmem
          exact hnotin _ hmem ((hiff _).mpr (Or.inl rfl))
        · simp only [List.length_cons]
          omega

/-- C3: starting from a freshly initialized page store, after every finite
sequence of successful `alloc_page` and `dealloc_page` calls (`dealloc_page`
being fed a header the store itself reports via `is_page`, as at every call
site), the file is laid out per an abstract state in which the free-list ids,
the header-chain page ids and the registered data-page entry ids are pairwise
disjoint and duplicate-free, so each referenced page id belongs to exactly one
of the three groups; in particular no id is simultaneously on the free list
and in the header chain, and a further run of repeated `alloc_page` calls
returns pairwise distinct ids.  The hypothesis `2 * n + 3 < 256 ^ 8` keeps
the page frontier inside the `u64`/`usize` range the Rust code computes in. -/
theorem page_ids_partition (n : Nat) (f : File) (h : Reach n f)
    (hn : 2 * n + 3 < 256 ^ 8) :
    (∃ S : Abs, PageRepr S f ∧ goodState S ∧
      S.free.Nodup ∧ (chainIds S).Nodup ∧ (entryIds S).Nodup ∧
      (∀ x, ¬(x ∈ S.free ∧ x ∈ chainIds S)) ∧
      (∀ x, ¬(x ∈ S.free ∧ x ∈ entryIds S)) ∧
      (∀ x, ¬(x ∈ chainIds S ∧ x ∈ entryIds S))) ∧
    (∀ fuels ids f2, allocSeq f fuels = .ok (ids, f2) →
      2 * n + 2 * fuels.length + 3 < 256 ^ 8 → ids.Nodup) := by
  obtain ⟨S, hrep, hgood, hfr⟩ := reach_invariant n f h hn
  have hnd := hgood.nodup
  rw [allIds_def, List.append_assoc, List.nodup_append] at hnd
  have hnd2 := hnd.2.1
  rw [List.nodup_append] at hnd2
  constructor
  · refine ⟨S, hrep, hgood, hnd.1, hnd2.1, hnd2.2.1, ?_, ?_, ?_⟩
    · intro x hx
      exact hnd.2.2 hx.1 (List.mem_append.mpr (Or.inl hx.2))
    · intro x hx
      exact hnd.2.2 hx.1 (List.mem_append.mpr (Or.inr hx.2))
    · intro x hx
      exact hnd2.2.2 hx.1 hx.2
  · intro fuels ids f2 hseq hb
    obtain ⟨S3, -, -, -, -, -, hnodup, -⟩ :=
      allocSeq_spec fuels S f hgood hrep (by omega) ids f2 hseq
    exact hnodup

/-- C3 witness: the partition invariant instantiated at the freshly
initialized store itself. -/
theorem page_ids_partition_witness :
    (∃ S : Abs, PageRepr S initFile ∧ goodState S ∧
      S.free.Nodup ∧ (chainIds S).Nodup ∧ (entryIds S).Nodup ∧
      (∀ x, ¬(x ∈ S.free ∧ x ∈ chainIds S)) ∧
      (∀ x, ¬(x ∈ S.free ∧ x ∈ entryIds S)) ∧
      (∀ x, ¬(x ∈ chainIds S ∧ x ∈ entryIds S))) ∧
    (∀ fuels ids f2, allocSeq initFile fuels = .ok (ids, f2) →
      2 * 0 + 2 * fuels.length + 3 < 256 ^ 8 → ids.Nodup) :=
  page_ids_partition 0 initFile Reach.init (by decide)


end DBee
